import Mathlib

/-!
# Champions-League style pairing search (`src/bpi.cpp`)

A shallow embedding of the backtracking scheduler of `src/bpi.cpp`:

* `CalendarTeam`            – the entity (name, country, host slot `t1`, guest slot `t2`);
* `findPossibleOpponents`   – candidate enumeration followed by the heuristic sort;
* `lookahead`               – the one-step feasibility test;
* `assignMatchesBT`         – the recursive driver, which mutates the collection in place.

The collection `vector<CalendarTeam>&` is a `List CalendarTeam` threaded through the
driver: every call returns the boolean together with the collection it leaves behind.
The recursion of the driver is counted by an explicit fuel argument; `solve` supplies
`teams.length + 1` units, which is shown to be enough.

The driver sorts the remaining teams by `matchesAssigned` with `std::sort`, which does not
fix the order of teams with equally many matches.  `assignMatchesBT` and `solve` take the
order an insertion sort gives (ties in index order); `assignMatchesBTWith` and `solveWith`
take the outcome of the sort as a parameter.  What a call may return (rollback, the
invariants of a successful result, termination) does not depend on that order; whether the
search succeeds does.
-/

namespace Bpi

/-- The entity of `src/bpi.cpp`: `t1` is the home (host) opponent, `t2` the away (guest)
opponent; the empty string marks an unfilled slot. -/
structure CalendarTeam where
  name : String
  country : String
  t1 : String := ""
  t2 : String := ""
deriving DecidableEq, Repr

instance : Inhabited CalendarTeam := ⟨⟨"", "", "", ""⟩⟩

/-- The element `teams[i]` (every access of the source is in range). -/
def getT (teams : List CalendarTeam) (i : Nat) : CalendarTeam :=
  teams.getD i default

/-- The number of filled slots, `CalendarTeam::matchesAssigned`. -/
def CalendarTeam.matchesAssigned (t : CalendarTeam) : Nat :=
  (if t.t1 ≠ "" then 1 else 0) + (if t.t2 ≠ "" then 1 else 0)

/-- The body of the first loop of `findPossibleOpponents`: does `opp` get pushed? -/
def isCandidate (team opp : CalendarTeam) (slot : String) : Bool :=
  if opp.name = team.name then false
  else if opp.country = team.country then false
  else if (team.t1 = opp.name ∨ team.t2 = opp.name) ∨
      (opp.t1 = team.name ∨ opp.t2 = team.name) then false
  else if slot = "t1" ∧ opp.t2 = "" then true
  else if slot = "t2" ∧ opp.t1 = "" then true
  else false

/-- The vector `indices` built by the first loop of `findPossibleOpponents`
(this is also the whole of `findPossibleOpponents` in `src/bppstart.cpp`). -/
def candidateIndices (team : CalendarTeam) (teams : List CalendarTeam) (slot : String) :
    List Nat :=
  (List.range teams.length).filter (fun i => isCandidate team (getT teams i) slot)

/-- The body of the inner loop computing `degree` for the candidate `idx`: is `j` counted? -/
def degreeCounts (teams : List CalendarTeam) (slot : String) (idx j : Nat) : Bool :=
  if j = idx then false
  else if (getT teams j).country = (getT teams idx).country then false
  else if ((getT teams idx).t1 = (getT teams j).name ∨ (getT teams idx).t2 = (getT teams j).name) ∨
      ((getT teams j).t1 = (getT teams idx).name ∨ (getT teams j).t2 = (getT teams idx).name) then
    false
  else if slot = "t1" ∧ (getT teams j).t2 = "" then true
  else if slot = "t2" ∧ (getT teams j).t1 = "" then true
  else false

/-- The value of `degree` pushed into `sort_vec` for the candidate `idx`. -/
def degree (teams : List CalendarTeam) (slot : String) (idx : Nat) : Nat :=
  ((List.range teams.length).filter (fun j => degreeCounts teams slot idx j)).length

/-- The tuple `(matchesAssigned, degree, idx)` of `sort_vec`. -/
def sortKey (teams : List CalendarTeam) (slot : String) (idx : Nat) : Nat × Nat × Nat :=
  ((getT teams idx).matchesAssigned, degree teams slot idx, idx)

/-- The order `operator<=` of `tuple<int,int,int>`: lexicographic. -/
def keyLe (a b : Nat × Nat × Nat) : Prop :=
  a.1 < b.1 ∨ (a.1 = b.1 ∧ (a.2.1 < b.2.1 ∨ (a.2.1 = b.2.1 ∧ a.2.2 ≤ b.2.2)))

instance : DecidableRel keyLe := fun a b => by unfold keyLe; infer_instance

/-- The function `findPossibleOpponents` of `src/bpi.cpp`: the legal candidates, sorted
ascending by `(matchesAssigned, degree, idx)`.  The keys are pairwise different (they end
in the index), so the outcome of `std::sort` does not depend on the sorting algorithm. -/
def findPossibleOpponents (team : CalendarTeam) (teams : List CalendarTeam) (slot : String) :
    List Nat :=
  (((candidateIndices team teams slot).map (sortKey teams slot)).insertionSort keyLe).map
    (fun tup => tup.2.2)

/-- The second loop of `lookahead` and of the base case of the driver: does some pair
`i < j` host each other, or is each the guest of the other? -/
def duplicateMatch (teams : List CalendarTeam) : Bool :=
  (List.range teams.length).any (fun i =>
    (List.range teams.length).any (fun j =>
      decide (i < j) &&
      decide (((getT teams i).t1 = (getT teams j).name ∧ (getT teams j).t1 = (getT teams i).name) ∨
        ((getT teams i).t2 = (getT teams j).name ∧ (getT teams j).t2 = (getT teams i).name))))

/-- The body of the first loop of `lookahead`: does team `team` make the test fail? -/
def lookaheadFails (teams : List CalendarTeam) (team : CalendarTeam) : Bool :=
  if team.t1 ≠ "" ∧ team.t1 = team.t2 then true
  else if team.t1 = "" ∧ findPossibleOpponents team teams "t1" = [] then true
  else if team.t2 = "" ∧ findPossibleOpponents team teams "t2" = [] then true
  else false

/-- The function `lookahead` of `src/bpi.cpp`. -/
def lookahead (teams : List CalendarTeam) : Bool :=
  if teams.any (lookaheadFails teams) then false
  else if duplicateMatch teams then false
  else true

/-- The base case of the driver (`idx == teams.size()`). -/
def finalCheck (teams : List CalendarTeam) : Bool :=
  if teams.any (fun t => decide (t.t1 = "" ∨ t.t2 = "")) then false
  else if duplicateMatch teams then false
  else true

/-- The vector `teamOrder` as an insertion sort leaves it: the indices `idx .. size-1` sorted
by `matchesAssigned`, teams with equally many matches in index order.  The comparator of the
source leaves the order of such teams to `std::sort`, so this is one of the outcomes the call
may have (`SortedOrder`); `assignMatchesBTWith` is the driver for an arbitrary outcome. -/
def teamOrder (teams : List CalendarTeam) (idx : Nat) : List Nat :=
  (List.range' idx (teams.length - idx)).insertionSort
    (fun a b => (getT teams a).matchesAssigned ≤ (getT teams b).matchesAssigned)

/-- The two writes `team.t1 = teams[i].name; teams[i].t2 = team.name;` with `team` the
reference `teams[tIdx]`. -/
def assignT1 (teams : List CalendarTeam) (tIdx i : Nat) : List CalendarTeam :=
  let teams1 := teams.set tIdx { getT teams tIdx with t1 := (getT teams i).name }
  teams1.set i { getT teams1 i with t2 := (getT teams1 tIdx).name }

/-- The two writes `team.t1 = ""; teams[i].t2 = "";`. -/
def undoT1 (teams : List CalendarTeam) (tIdx i : Nat) : List CalendarTeam :=
  let teams1 := teams.set tIdx { getT teams tIdx with t1 := "" }
  teams1.set i { getT teams1 i with t2 := "" }

/-- The two writes `team.t2 = teams[i].name; teams[i].t1 = team.name;`. -/
def assignT2 (teams : List CalendarTeam) (tIdx i : Nat) : List CalendarTeam :=
  let teams1 := teams.set tIdx { getT teams tIdx with t2 := (getT teams i).name }
  teams1.set i { getT teams1 i with t1 := (getT teams1 tIdx).name }

/-- The two writes `team.t2 = ""; teams[i].t1 = "";`. -/
def undoT2 (teams : List CalendarTeam) (tIdx i : Nat) : List CalendarTeam :=
  let teams1 := teams.set tIdx { getT teams tIdx with t2 := "" }
  teams1.set i { getT teams1 i with t1 := "" }

/-- The result of a call of the driver: `none` when the fuel ran out, otherwise the returned
boolean and the collection as the call leaves it. -/
abbrev Outcome := Option (Bool × List CalendarTeam)

/-- The loop `for (int i : possibles)` of the `t1` branch; `next` is the recursive call
`assignMatchesBT(teams, idx+1)`.  The result `false` means the loop ran to its end. -/
def tryT1 (next : List CalendarTeam → Outcome) (tIdx : Nat) :
    List Nat → List CalendarTeam → Outcome
  | [], teams => some (false, teams)
  | i :: rest, teams =>
    if (getT teams i).t2 ≠ "" then tryT1 next tIdx rest teams
    else
      let teams1 := assignT1 teams tIdx i
      if lookahead teams1 then
        match next teams1 with
        | none => none
        | some (true, teams2) => some (true, teams2)
        | some (false, teams2) => tryT1 next tIdx rest (undoT1 teams2 tIdx i)
      else tryT1 next tIdx rest (undoT1 teams1 tIdx i)

/-- The loop `for (int i : possibles)` of the `t2` branch. -/
def tryT2 (next : List CalendarTeam → Outcome) (tIdx : Nat) :
    List Nat → List CalendarTeam → Outcome
  | [], teams => some (false, teams)
  | i :: rest, teams =>
    if (getT teams i).t1 ≠ "" then tryT2 next tIdx rest teams
    else
      let teams1 := assignT2 teams tIdx i
      if lookahead teams1 then
        match next teams1 with
        | none => none
        | some (true, teams2) => some (true, teams2)
        | some (false, teams2) => tryT2 next tIdx rest (undoT2 teams2 tIdx i)
      else tryT2 next tIdx rest (undoT2 teams1 tIdx i)

/-- The body of the loop over `teamOrder` for a team that is not yet complete: the `t1`
branch, then the `t2` branch, then `return false`. -/
def tryTeam (next : List CalendarTeam → Outcome) (tIdx : Nat) (teams : List CalendarTeam) :
    Outcome :=
  let afterT1 : Outcome :=
    if (getT teams tIdx).t1 = "" then
      tryT1 next tIdx (findPossibleOpponents (getT teams tIdx) teams "t1") teams
    else some (false, teams)
  match afterT1 with
  | none => none
  | some (true, teams1) => some (true, teams1)
  | some (false, teams1) =>
    if (getT teams1 tIdx).t2 = "" then
      tryT2 next tIdx (findPossibleOpponents (getT teams1 tIdx) teams1 "t2") teams1
    else some (false, teams1)

/-- The loop `for (ord ...)` over `teamOrder`, ending in `return assignMatchesBT(teams, idx+1)`
when every team of the order is complete. -/
def orderLoop (next : List CalendarTeam → Outcome) : List Nat → List CalendarTeam → Outcome
  | [], teams => next teams
  | tIdx :: rest, teams =>
    if (getT teams tIdx).t1 ≠ "" ∧ (getT teams tIdx).t2 ≠ "" then orderLoop next rest teams
    else tryTeam next tIdx teams

/-- The function `assignMatchesBT` of `src/bpi.cpp`, with the depth of the recursion counted
by `fuel`, for a sort that leaves ties in index order (`teamOrder`). -/
def assignMatchesBT : Nat → List CalendarTeam → Nat → Outcome
  | 0, _, _ => none
  | fuel + 1, teams, idx =>
    if idx = teams.length then some (finalCheck teams, teams)
    else orderLoop (fun ts => assignMatchesBT fuel ts (idx + 1)) (teamOrder teams idx) teams

/-- The top-level call `assignMatchesBT(teams)` with `idx = 0`. -/
def solve (teams : List CalendarTeam) : Outcome :=
  assignMatchesBT (teams.length + 1) teams 0

/-! ## Specification vocabulary

The relations and predicates in which the properties of the driver are stated. -/

/-- One tentative pair assignment that the driver keeps: the team `tIdx` has the slot empty,
`i` is one of the candidates returned for it, the mirrored slot of `i` is empty, and the
collection after the two writes passes `lookahead`. -/
inductive Step : List CalendarTeam → List CalendarTeam → Prop
  | host (teams : List CalendarTeam) (tIdx i : Nat) :
      tIdx < teams.length → (getT teams tIdx).t1 = "" →
      i ∈ findPossibleOpponents (getT teams tIdx) teams "t1" → (getT teams i).t2 = "" →
      lookahead (assignT1 teams tIdx i) = true → Step teams (assignT1 teams tIdx i)
  | guest (teams : List CalendarTeam) (tIdx i : Nat) :
      tIdx < teams.length → (getT teams tIdx).t2 = "" →
      i ∈ findPossibleOpponents (getT teams tIdx) teams "t2" → (getT teams i).t1 = "" →
      lookahead (assignT2 teams tIdx i) = true → Step teams (assignT2 teams tIdx i)

/-- The collections the driver can leave behind on success: finitely many kept assignments. -/
def Reach : List CalendarTeam → List CalendarTeam → Prop :=
  Relation.ReflTransGen Step

/-- What a call started on `teams` may return: on `false` the collection is as it was, on
`true` it was reached by kept assignments and passes the base-case test. -/
def Sound (teams : List CalendarTeam) : Outcome → Prop
  | none => True
  | some (false, out) => out = teams
  | some (true, out) => Reach teams out ∧ finalCheck out = true

/-- A call that returns, leaving a collection of `n` teams. -/
def Returns (n : Nat) (x : Outcome) : Prop :=
  ∃ b out, x = some (b, out) ∧ out.length = n

/-- The names of the collection are pairwise distinct and non-empty. -/
def NamesOK (ts : List CalendarTeam) : Prop :=
  (ts.map (fun t => t.name)).Nodup ∧ ∀ t ∈ ts, t.name ≠ ""

/-- Every slot of the collection is empty (the state in which the driver is started). -/
def SlotsEmpty (ts : List CalendarTeam) : Prop :=
  ∀ t ∈ ts, t.t1 = "" ∧ t.t2 = ""

/-- The invariant of the search, by index: names distinct and non-empty, mirror consistency,
group exclusion, every slot empty or the name of a team, and host opponent different from
guest opponent. -/
structure Inv (ts : List CalendarTeam) : Prop where
  nameInj : ∀ a b, a < ts.length → b < ts.length →
    (getT ts a).name = (getT ts b).name → a = b
  nameNe : ∀ a, a < ts.length → (getT ts a).name ≠ ""
  mirror : ∀ a b, a < ts.length → b < ts.length →
    ((getT ts a).t1 = (getT ts b).name ↔ (getT ts b).t2 = (getT ts a).name)
  excl : ∀ a b, a < ts.length → b < ts.length →
    (getT ts a).t1 = (getT ts b).name → (getT ts a).country ≠ (getT ts b).country
  closed1 : ∀ a, a < ts.length →
    (getT ts a).t1 = "" ∨ ∃ b, b < ts.length ∧ (getT ts a).t1 = (getT ts b).name
  closed2 : ∀ a, a < ts.length →
    (getT ts a).t2 = "" ∨ ∃ b, b < ts.length ∧ (getT ts a).t2 = (getT ts b).name
  distinct : ∀ a, a < ts.length → (getT ts a).t1 ≠ "" → (getT ts a).t1 ≠ (getT ts a).t2

/-- The team `t` with its name and slots renamed by `f` and its country by `g`. -/
def rename (f g : String → String) (t : CalendarTeam) : CalendarTeam :=
  ⟨f t.name, g t.country, f t.t1, f t.t2⟩

/-- The renaming applied to what a call returns. -/
def renameOutcome (f g : String → String) (x : Outcome) : Outcome :=
  x.map (fun r => (r.1, r.2.map (rename f g)))

/-- A collection as `main` builds it: the given names and countries, every slot empty. -/
def freshTeams (ns cs : List String) : List CalendarTeam :=
  List.zipWith (fun n c => (⟨n, c, "", ""⟩ : CalendarTeam)) ns cs

/-- The test "already paired" of `findPossibleOpponents`, for the teams at `i` and `j`. -/
def pairedAt (ts : List CalendarTeam) (i j : Nat) : Bool :=
  decide (((getT ts i).t1 = (getT ts j).name ∨ (getT ts i).t2 = (getT ts j).name) ∨
    ((getT ts j).t1 = (getT ts i).name ∨ (getT ts j).t2 = (getT ts i).name))

/-- The number of unordered pairs `i < j` of teams that are realised as a match. -/
def realisedPairs (ts : List CalendarTeam) : Nat :=
  ((List.range ts.length).map (fun i =>
    ((List.range ts.length).filter (fun j => decide (i < j) && pairedAt ts i j)).length)).sum

instance (ts : List CalendarTeam) : Decidable (NamesOK ts) := by
  unfold NamesOK; infer_instance

instance (ts : List CalendarTeam) : Decidable (SlotsEmpty ts) := by
  unfold SlotsEmpty; infer_instance

/-- Three teams of three countries, every slot empty. -/
def demo3 : List CalendarTeam :=
  freshTeams ["PSG", "Dortmund", "Ajax"] ["France", "Germany", "Netherlands"]

/-- The collection the driver leaves behind on `demo3`. -/
def demo3Out : List CalendarTeam :=
  [⟨"PSG", "France", "Dortmund", "Ajax"⟩, ⟨"Dortmund", "Germany", "Ajax", "PSG"⟩,
    ⟨"Ajax", "Netherlands", "PSG", "Dortmund"⟩]

/-- Four teams of four countries (scenario 1). -/
def demo4 : List CalendarTeam :=
  freshTeams ["PSG", "Dortmund", "Liverpool", "Real Madrid"]
    ["France", "Germany", "England", "Spain"]

/-- Four teams, three of them English (scenario 4; the first four teams of `main` in
`src/bppstart.cpp` with one more English team). -/
def demo31 : List CalendarTeam :=
  freshTeams ["Liverpool", "Chelsea", "PSG", "Arsenal"]
    ["England", "England", "France", "England"]

/-- Nine teams of nine countries (scenario 3). -/
def demo9 : List CalendarTeam :=
  freshTeams
    ["PSG", "Dortmund", "Liverpool", "Celtic", "Real Madrid", "Juventus", "Ajax", "Porto",
      "Shakhtar"]
    ["France", "Germany", "England", "Scotland", "Spain", "Italy", "Netherlands", "Portugal",
      "Ukraine"]

/-- A branch of the search that ends in success: at every level the first team of
`teamOrder` has an empty slot and is given a candidate that passes `lookahead`, and the
collection reached at `idx = size` passes the base-case test. -/
inductive Wins : List CalendarTeam → Nat → Prop
  | done (ts : List CalendarTeam) : finalCheck ts = true → Wins ts ts.length
  | host (ts : List CalendarTeam) (idx T i : Nat) (rest : List Nat) :
      teamOrder ts idx = T :: rest → (getT ts T).t1 = "" →
      i ∈ findPossibleOpponents (getT ts T) ts "t1" →
      lookahead (assignT1 ts T i) = true → Wins (assignT1 ts T i) (idx + 1) → Wins ts idx
  | guest (ts : List CalendarTeam) (idx T i : Nat) (rest : List Nat) :
      teamOrder ts idx = T :: rest → (getT ts T).t2 = "" →
      i ∈ findPossibleOpponents (getT ts T) ts "t2" →
      lookahead (assignT2 ts T i) = true → Wins (assignT2 ts T i) (idx + 1) → Wins ts idx

/-- The collection in which exactly the matches hosted by the teams of `sel` have been
assigned: `h i` is the team hosted by `i` in the schedule aimed at, `g i` the team that
hosts `i`. -/
def stateOf (ts : List CalendarTeam) (h g : Nat → Nat) (sel : Nat → Bool) :
    List CalendarTeam :=
  (List.range ts.length).map (fun i =>
    ⟨(getT ts i).name, (getT ts i).country,
      if sel i = true then (getT ts (h i)).name else "",
      if sel (g i) = true then (getT ts (g i)).name else ""⟩)

/-- A schedule laid out for the search: `h` and `g` are inverse permutations of the indices
below the size, no team hosts a team of its country or a team that hosts it; the matches
hosted by the teams outside `inU` join a team below `L` and a team from `L` on, their two
ends are in `inU`-teams' other matches, and `L` teams are in `inU`. -/
structure PlanOK (ts : List CalendarTeam) (h g : Nat → Nat) (inU : Nat → Bool) (L : Nat) :
    Prop where
  hlt : ∀ i, i < ts.length → h i < ts.length
  glt : ∀ i, i < ts.length → g i < ts.length
  gh : ∀ i, i < ts.length → g (h i) = i
  hg : ∀ i, i < ts.length → h (g i) = i
  cty : ∀ i, i < ts.length → (getT ts (h i)).country ≠ (getT ts i).country
  no2 : ∀ i, i < ts.length → h (h i) ≠ i
  vU : ∀ i, i < ts.length → inU i = false → inU (h i) = true
  cut : ∀ i, i < ts.length → inU i = false → (i < L ↔ L ≤ h i)
  gV : ∀ i, i < ts.length → inU i = false → inU (g i) = true
  upper : ∀ i, L ≤ i → i < ts.length → inU i = true → inU (g i) = false
  cardU : ((Finset.range ts.length).filter (fun i => inU i = true)).card = L
  half : 2 * L ≤ ts.length + 1

/-- The number of teams, among the first `N`, whose country is `x` (`c i` is the country of
the team at index `i`). -/
def classSize (c : Nat → String) (N : Nat) (x : String) : Nat :=
  ((Finset.range N).filter (fun i => c i = x)).card

/-- The order in which the two countries of a match are laid out: the larger class first,
equal classes in the order of their names. -/
def before (c : Nat → String) (N : Nat) (x y : String) : Prop :=
  classSize c N y < classSize c N x ∨ (classSize c N x = classSize c N y ∧ x < y)

instance (c : Nat → String) (N : Nat) (x y : String) : Decidable (before c N x y) := by
  unfold before; infer_instance


/-- The pairing `mate` joins every team from `(N+1)/2` on with a team below of another country
and is its own inverse; the teams it leaves alone are their own mates. -/
structure MateOK (c : Nat → String) (N : Nat) (mate : Nat → Nat) : Prop where
  lt : ∀ i, i < N → mate i < N
  inv : ∀ i, i < N → mate (mate i) = i
  down : ∀ i, (N + 1) / 2 ≤ i → i < N → mate i < (N + 1) / 2
  up : ∀ i, i < (N + 1) / 2 → mate i = i ∨ (N + 1) / 2 ≤ mate i
  col : ∀ i, i < N → mate i ≠ i → c (mate i) ≠ c i

/-- Team `x` hosts its mate: it has one, and its country comes first. -/
def inV (c : Nat → String) (N : Nat) (mate : Nat → Nat) (x : Nat) : Prop :=
  mate x ≠ x ∧ before c N (c x) (c (mate x))

instance (c : Nat → String) (N : Nat) (mate : Nat → Nat) (x : Nat) :
    Decidable (inV c N mate x) := by
  unfold inV; infer_instance

/-- A way to fill the slots of `teams` that satisfies invariants 1-6 of the data model:
`sched` has the teams of `teams` (same names and countries, same order); every slot is filled
(6) with the name of a team of the collection (a slot is a reference to another entity's
identity), not the team's own (1); the two slots of a team differ (2); if `A` hosts `B` then
`B` is the guest of `A` (3); opponents are of different countries (4); no two teams host
each other or are guests of each other (5). -/
def ValidSchedule (teams sched : List CalendarTeam) : Prop :=
  sched.length = teams.length ∧
  (∀ i, i < teams.length → (getT sched i).name = (getT teams i).name ∧
    (getT sched i).country = (getT teams i).country) ∧
  (∀ i, i < teams.length → (getT sched i).t1 ≠ "" ∧ (getT sched i).t2 ≠ "") ∧
  (∀ i, i < teams.length → ∃ j, j < teams.length ∧ (getT sched i).t1 = (getT sched j).name) ∧
  (∀ i, i < teams.length → ∃ j, j < teams.length ∧ (getT sched i).t2 = (getT sched j).name) ∧
  (∀ i, i < teams.length → (getT sched i).t1 ≠ (getT sched i).name ∧
    (getT sched i).t2 ≠ (getT sched i).name) ∧
  (∀ i, i < teams.length → (getT sched i).t1 ≠ (getT sched i).t2) ∧
  (∀ a, a < teams.length → ∀ b, b < teams.length →
    (getT sched a).t1 = (getT sched b).name → (getT sched b).t2 = (getT sched a).name) ∧
  (∀ a, a < teams.length → ∀ b, b < teams.length →
    ((getT sched a).t1 = (getT sched b).name ∨ (getT sched a).t2 = (getT sched b).name) →
      (getT sched a).country ≠ (getT sched b).country) ∧
  (∀ a, a < teams.length → ∀ b, b < teams.length →
    ¬ ((getT sched a).t1 = (getT sched b).name ∧ (getT sched b).t1 = (getT sched a).name) ∧
    ¬ ((getT sched a).t2 = (getT sched b).name ∧ (getT sched b).t2 = (getT sched a).name))

set_option synthInstance.maxSize 1024 in
set_option synthInstance.maxHeartbeats 200000 in
instance (teams sched : List CalendarTeam) : Decidable (ValidSchedule teams sched) := by
  unfold ValidSchedule; infer_instance

/-- Three teams of one country, every slot empty (scenario 2). -/
def demoSame : List CalendarTeam :=
  freshTeams ["Liverpool", "Chelsea", "Arsenal"] ["England", "England", "England"]

/-- Two teams of two countries, every slot empty. -/
def demo2 : List CalendarTeam :=
  freshTeams ["PSG", "Dortmund"] ["France", "Germany"]

/-- The function `findPossibleOpponents` of `src/bppstart.cpp`: the loop is the first loop of
the function of `src/bpi.cpp`, and its vector `indices` is returned as it is. -/
def Bppstart.findPossibleOpponents (team : CalendarTeam) (teams : List CalendarTeam)
    (slot : String) : List Nat :=
  (List.range teams.length).filter (fun i => isCandidate team (getT teams i) slot)

/-- A state of the search on four teams: PSG hosts Dortmund, nothing else is assigned. -/
def demoDeg : List CalendarTeam :=
  [⟨"PSG", "France", "Dortmund", ""⟩, ⟨"Dortmund", "Germany", "", "PSG"⟩,
    ⟨"Ajax", "Netherlands", "", ""⟩, ⟨"Bayern", "Germany", "", ""⟩]

/-- Is the slot of `t` opposite to the slot `s` empty (`t2` for `s = t1`, `t1` for `s = t2`)? -/
def oppositeSlotEmpty (t : CalendarTeam) (s : String) : Prop :=
  if s = "t1" then t.t2 = "" else t.t1 = ""

instance (t : CalendarTeam) (s : String) : Decidable (oppositeSlotEmpty t s) := by
  unfold oppositeSlotEmpty; infer_instance

/-- The remaining degree of the candidate `c` as the ranking describes it: the number of
indices `j ≠ c` whose team has another country than `teams[c]`, is not paired with it in
either direction, and has its slot opposite to `s` empty. -/
def remainingDegree (teams : List CalendarTeam) (s : String) (c : Nat) : Nat :=
  ((List.range teams.length).filter (fun j =>
    decide (j ≠ c ∧ (getT teams j).country ≠ (getT teams c).country ∧
      pairedAt teams c j = false ∧ oppositeSlotEmpty (getT teams j) s))).length

/-- The rank key of the candidate `c`: filled slots, remaining degree, index. -/
def rankKey (teams : List CalendarTeam) (s : String) (c : Nat) : Nat × Nat × Nat :=
  ((getT teams c).matchesAssigned, remainingDegree teams s c, c)

/-- The strict lexicographic order of the rank keys. -/
def keyLt (a b : Nat × Nat × Nat) : Prop :=
  a.1 < b.1 ∨ (a.1 = b.1 ∧ (a.2.1 < b.2.1 ∨ (a.2.1 = b.2.1 ∧ a.2.2 < b.2.2)))

instance : DecidableRel keyLt := fun a b => by unfold keyLt; infer_instance

/-- Three teams, each with the same opponent in both slots, and no match mirrored. -/
def demoBase : List CalendarTeam :=
  [⟨"PSG", "France", "Dortmund", "Dortmund"⟩, ⟨"Dortmund", "Germany", "Ajax", "Ajax"⟩,
    ⟨"Ajax", "Netherlands", "PSG", "PSG"⟩]

/-- Mirror consistency of the filled slots: `A.t1 = B.name` exactly when `B.t2 = A.name`. -/
def MirrorOK (teams : List CalendarTeam) : Prop :=
  ∀ a, a < teams.length → ∀ b, b < teams.length →
    ((getT teams a).t1 = (getT teams b).name ↔ (getT teams b).t2 = (getT teams a).name)

instance (teams : List CalendarTeam) : Decidable (MirrorOK teams) := by
  unfold MirrorOK; infer_instance

/-- The collection `sched` keeps the filled slots of `teams`. -/
def KeepsFilled (teams sched : List CalendarTeam) : Prop :=
  ∀ i, i < teams.length →
    ((getT teams i).t1 ≠ "" → (getT sched i).t1 = (getT teams i).t1) ∧
    ((getT teams i).t2 ≠ "" → (getT sched i).t2 = (getT teams i).t2)

instance (teams sched : List CalendarTeam) : Decidable (KeepsFilled teams sched) := by
  unfold KeepsFilled; infer_instance

/-- A valid schedule that completes `demoDeg`. -/
def demoDegOut : List CalendarTeam :=
  [⟨"PSG", "France", "Dortmund", "Bayern"⟩, ⟨"Dortmund", "Germany", "Ajax", "PSG"⟩,
    ⟨"Ajax", "Netherlands", "Bayern", "Dortmund"⟩, ⟨"Bayern", "Germany", "PSG", "Ajax"⟩]

/-- Four teams of two countries, two of each, every slot empty. -/
def demo22 : List CalendarTeam :=
  freshTeams ["Liverpool", "Chelsea", "PSG", "Lyon"] ["England", "England", "France", "France"]

/-- The collection the driver leaves behind on `demo22`. -/
def demo22Out : List CalendarTeam :=
  [⟨"Liverpool", "England", "PSG", "Lyon"⟩, ⟨"Chelsea", "England", "Lyon", "PSG"⟩,
    ⟨"PSG", "France", "Chelsea", "Liverpool"⟩, ⟨"Lyon", "France", "Liverpool", "Chelsea"⟩]

/-- The function `assignMatchesBT` of `src/bpi.cpp` with the outcome of the call
`sort(teamOrder.begin(), teamOrder.end(), ...)` as a parameter: `ord teams idx` is the vector
`teamOrder` after the sort.  The comparator looks at `matchesAssigned` only, so the order of
teams with equally many matches is the choice of the sorting procedure; `assignMatchesBT`
is the instance in which they stay in index order. -/
def assignMatchesBTWith (ord : List CalendarTeam → Nat → List Nat) :
    Nat → List CalendarTeam → Nat → Outcome
  | 0, _, _ => none
  | fuel + 1, teams, idx =>
    if idx = teams.length then some (finalCheck teams, teams)
    else orderLoop (fun ts => assignMatchesBTWith ord fuel ts (idx + 1)) (ord teams idx) teams

/-- The top-level call `assignMatchesBT(teams)` with `idx = 0`, for the sort outcome `ord`. -/
def solveWith (ord : List CalendarTeam → Nat → List Nat) (teams : List CalendarTeam) :
    Outcome :=
  assignMatchesBTWith ord (teams.length + 1) teams 0

/-- What `std::sort` with the comparator of the source promises of its outcome: the indices
`idx .. size-1` rearranged so that no team comes after a team with more matches. -/
def SortedOrder (ord : List CalendarTeam → Nat → List Nat) : Prop :=
  ∀ teams idx, (ord teams idx).Perm (List.range' idx (teams.length - idx)) ∧
    (ord teams idx).Pairwise
      (fun a b => (getT teams a).matchesAssigned ≤ (getT teams b).matchesAssigned)

/-- A sort outcome that keeps teams with equally many matches in index order (as an insertion
sort does). -/
def IndexTies (ord : List CalendarTeam → Nat → List Nat) : Prop :=
  ∀ teams idx, (ord teams idx).Perm (List.range' idx (teams.length - idx)) ∧
    (ord teams idx).Pairwise
      (fun a b => (getT teams a).matchesAssigned < (getT teams b).matchesAssigned ∨
        ((getT teams a).matchesAssigned = (getT teams b).matchesAssigned ∧ a < b))

/-- A sort outcome that puts teams with equally many matches in reverse index order (an
insertion sort fed from the back). -/
def teamOrderRev (teams : List CalendarTeam) (idx : Nat) : List Nat :=
  ((List.range' idx (teams.length - idx)).reverse).insertionSort
    (fun a b => (getT teams a).matchesAssigned ≤ (getT teams b).matchesAssigned)

/-- The number of filled slots of the collection. -/
def filledSlots (ts : List CalendarTeam) : Nat :=
  Finset.sum (Finset.range ts.length) (fun i => (getT ts i).matchesAssigned)

/-- One tentative pair assignment of the driver for the team `T` and the candidate `i`,
leading from `ts` to `ts2`: the host slot of `T`, or else its guest slot. -/
def Move (ts : List CalendarTeam) (T i : Nat) (ts2 : List CalendarTeam) : Prop :=
  ((getT ts T).t1 = "" ∧ (getT ts i).t2 = "" ∧
      i ∈ findPossibleOpponents (getT ts T) ts "t1" ∧ ts2 = assignT1 ts T i) ∨
    ((getT ts T).t2 = "" ∧ (getT ts i).t1 = "" ∧
      i ∈ findPossibleOpponents (getT ts T) ts "t2" ∧ ts2 = assignT2 ts T i)

/-! ## Theorems

### Reading and writing the collection -/

theorem getT_set (teams : List CalendarTeam) (i j : Nat) (a : CalendarTeam) :
    getT (teams.set i a) j = if i = j ∧ i < teams.length then a else getT teams j := by
  unfold getT
  simp only [List.getD_eq_getElem?_getD, List.getElem?_set]
  by_cases h : i = j
  · subst h
    by_cases h2 : i < teams.length
    · simp [h2]
    · simp [h2, List.getElem?_eq_none (not_lt.mp h2)]
  · simp [h]

theorem getT_of_lt (teams : List CalendarTeam) (i : Nat) (h : i < teams.length) :
    getT teams i = teams[i] := by
  unfold getT
  exact List.getD_eq_getElem _ _ h

theorem getT_of_le (teams : List CalendarTeam) (i : Nat) (h : teams.length ≤ i) :
    getT teams i = default := by
  unfold getT
  exact List.getD_eq_default _ _ h

theorem set_getT_self (teams : List CalendarTeam) (i : Nat) :
    teams.set i (getT teams i) = teams := by
  apply List.ext_getElem?
  intro k
  rw [List.getElem?_set]
  by_cases h : i = k
  · subst h
    by_cases h2 : i < teams.length
    · simp [h2, getT_of_lt teams i h2]
    · simp [h2, List.getElem?_eq_none (not_lt.mp h2)]
  · simp [h]

theorem length_assignT1 (teams : List CalendarTeam) (tIdx i : Nat) :
    (assignT1 teams tIdx i).length = teams.length := by
  simp [assignT1]

theorem length_assignT2 (teams : List CalendarTeam) (tIdx i : Nat) :
    (assignT2 teams tIdx i).length = teams.length := by
  simp [assignT2]

theorem length_undoT1 (teams : List CalendarTeam) (tIdx i : Nat) :
    (undoT1 teams tIdx i).length = teams.length := by
  simp [undoT1]

theorem length_undoT2 (teams : List CalendarTeam) (tIdx i : Nat) :
    (undoT2 teams tIdx i).length = teams.length := by
  simp [undoT2]

theorem undoT1_assignT1 (teams : List CalendarTeam) (tIdx i : Nat)
    (h1 : (getT teams tIdx).t1 = "") (h2 : (getT teams i).t2 = "") :
    undoT1 (assignT1 teams tIdx i) tIdx i = teams := by
  apply List.ext_getElem?
  intro k
  have key : ∀ (l : List CalendarTeam) (k : Nat), l[k]? = if k < l.length then some (getT l k) else none := by
    intro l k
    by_cases h : k < l.length
    · simp [h, getT_of_lt l k h]
    · simp [h, List.getElem?_eq_none (not_lt.mp h)]
  rw [key, key teams k, length_undoT1, length_assignT1]
  by_cases hk : k < teams.length
  · simp only [hk, if_true, Option.some.injEq]
    unfold undoT1 assignT1
    simp only [getT_set, List.length_set]
    by_cases a1 : tIdx = k <;> by_cases a2 : i = k <;> by_cases a3 : i = tIdx <;>
      by_cases a4 : tIdx < teams.length <;> by_cases a5 : i < teams.length <;>
      simp_all <;>
      (cases hx : getT teams k; cases hy : getT teams tIdx; simp_all)
  · simp [hk]

/-! ### What a call may return: rollback on `false`, kept assignments on `true` -/

theorem undoT2_assignT2 (teams : List CalendarTeam) (tIdx i : Nat)
    (h1 : (getT teams tIdx).t2 = "") (h2 : (getT teams i).t1 = "") :
    undoT2 (assignT2 teams tIdx i) tIdx i = teams := by
  apply List.ext_getElem?
  intro k
  have key : ∀ (l : List CalendarTeam) (k : Nat),
      l[k]? = if k < l.length then some (getT l k) else none := by
    intro l k
    by_cases h : k < l.length
    · simp [h, getT_of_lt l k h]
    · simp [h, List.getElem?_eq_none (not_lt.mp h)]
  rw [key, key teams k, length_undoT2, length_assignT2]
  by_cases hk : k < teams.length
  · simp only [hk, if_true, Option.some.injEq]
    unfold undoT2 assignT2
    simp only [getT_set, List.length_set]
    by_cases a1 : tIdx = k <;> by_cases a2 : i = k <;> by_cases a3 : i = tIdx <;>
      by_cases a4 : tIdx < teams.length <;> by_cases a5 : i < teams.length <;>
      simp_all <;>
      (cases hx : getT teams k; cases hy : getT teams tIdx; simp_all)
  · simp [hk]

theorem tryT1_sound (next : List CalendarTeam → Outcome) (hn : ∀ ts, Sound ts (next ts))
    (tIdx : Nat) (cands : List Nat) (teams : List CalendarTeam)
    (ht : tIdx < teams.length) (h1 : (getT teams tIdx).t1 = "")
    (hc : ∀ i ∈ cands, i ∈ findPossibleOpponents (getT teams tIdx) teams "t1") :
    Sound teams (tryT1 next tIdx cands teams) := by
  induction cands with
  | nil => simp [tryT1, Sound]
  | cons i rest ih =>
    have ih2 := ih (fun j hj => hc j (List.mem_cons_of_mem _ hj))
    unfold tryT1
    by_cases h2 : (getT teams i).t2 = ""
    · simp only [h2, ne_eq, not_true_eq_false, if_false]
      have hundo := undoT1_assignT1 teams tIdx i h1 h2
      by_cases hl : lookahead (assignT1 teams tIdx i) = true
      · simp only [hl, if_true]
        have hs := hn (assignT1 teams tIdx i)
        rcases hx : next (assignT1 teams tIdx i) with _ | ⟨b, out⟩
        · simp [Sound]
        · rw [hx] at hs
          cases b
          · simp only [Sound] at hs
            simp only
            rw [hs, hundo]
            exact ih2
          · simp only [Sound] at hs ⊢
            refine ⟨?_, hs.2⟩
            exact Relation.ReflTransGen.head
              (Step.host teams tIdx i ht h1 (hc i (List.mem_cons_self _ _)) h2 hl) hs.1
      · simp only [hl, Bool.false_eq_true, if_false]
        rw [hundo]
        exact ih2
    · simp only [ne_eq, h2, not_false_eq_true, if_true]
      exact ih2

theorem tryT2_sound (next : List CalendarTeam → Outcome) (hn : ∀ ts, Sound ts (next ts))
    (tIdx : Nat) (cands : List Nat) (teams : List CalendarTeam)
    (ht : tIdx < teams.length) (h1 : (getT teams tIdx).t2 = "")
    (hc : ∀ i ∈ cands, i ∈ findPossibleOpponents (getT teams tIdx) teams "t2") :
    Sound teams (tryT2 next tIdx cands teams) := by
  induction cands with
  | nil => simp [tryT2, Sound]
  | cons i rest ih =>
    have ih2 := ih (fun j hj => hc j (List.mem_cons_of_mem _ hj))
    unfold tryT2
    by_cases h2 : (getT teams i).t1 = ""
    · simp only [h2, ne_eq, not_true_eq_false, if_false]
      have hundo := undoT2_assignT2 teams tIdx i h1 h2
      by_cases hl : lookahead (assignT2 teams tIdx i) = true
      · simp only [hl, if_true]
        have hs := hn (assignT2 teams tIdx i)
        rcases hx : next (assignT2 teams tIdx i) with _ | ⟨b, out⟩
        · simp [Sound]
        · rw [hx] at hs
          cases b
          · simp only [Sound] at hs
            simp only
            rw [hs, hundo]
            exact ih2
          · simp only [Sound] at hs ⊢
            refine ⟨?_, hs.2⟩
            exact Relation.ReflTransGen.head
              (Step.guest teams tIdx i ht h1 (hc i (List.mem_cons_self _ _)) h2 hl) hs.1
      · simp only [hl, Bool.false_eq_true, if_false]
        rw [hundo]
        exact ih2
    · simp only [ne_eq, h2, not_false_eq_true, if_true]
      exact ih2

theorem tryTeam_sound (next : List CalendarTeam → Outcome) (hn : ∀ ts, Sound ts (next ts))
    (tIdx : Nat) (teams : List CalendarTeam) (ht : tIdx < teams.length) :
    Sound teams (tryTeam next tIdx teams) := by
  unfold tryTeam
  have hafter : Sound teams (if (getT teams tIdx).t1 = "" then
      tryT1 next tIdx (findPossibleOpponents (getT teams tIdx) teams "t1") teams
      else some (false, teams)) := by
    by_cases h1 : (getT teams tIdx).t1 = ""
    · simp only [h1, if_true]
      exact tryT1_sound next hn tIdx _ teams ht h1 (fun _ h => h)
    · simp [h1, Sound]
  generalize (if (getT teams tIdx).t1 = "" then
      tryT1 next tIdx (findPossibleOpponents (getT teams tIdx) teams "t1") teams
      else some (false, teams)) = after at hafter
  rcases after with _ | ⟨b, out⟩
  · simp [Sound]
  · cases b
    · simp only [Sound] at hafter
      subst hafter
      simp only
      by_cases h2 : (getT out tIdx).t2 = ""
      · simp only [h2, if_true]
        exact tryT2_sound next hn tIdx _ out ht h2 (fun _ h => h)
      · simp [h2, Sound]
    · exact hafter

theorem orderLoop_sound (next : List CalendarTeam → Outcome) (hn : ∀ ts, Sound ts (next ts))
    (order : List Nat) (teams : List CalendarTeam) (ho : ∀ t ∈ order, t < teams.length) :
    Sound teams (orderLoop next order teams) := by
  induction order with
  | nil => exact hn teams
  | cons t rest ih =>
    unfold orderLoop
    split
    · exact ih (fun j hj => ho j (List.mem_cons_of_mem _ hj))
    · exact tryTeam_sound next hn t teams (ho t (List.mem_cons_self _ _))

theorem mem_teamOrder (teams : List CalendarTeam) (idx t : Nat) (h : t ∈ teamOrder teams idx) :
    idx ≤ t ∧ t < teams.length := by
  unfold teamOrder at h
  rw [List.mem_insertionSort, List.mem_range'_1] at h
  omega

theorem assignMatchesBT_sound (fuel : Nat) (teams : List CalendarTeam) (idx : Nat) :
    Sound teams (assignMatchesBT fuel teams idx) := by
  induction fuel generalizing teams idx with
  | zero => simp [assignMatchesBT, Sound]
  | succ fuel ih =>
    unfold assignMatchesBT
    split
    · cases hf : finalCheck teams
      · simp [Sound]
      · simp only [Sound]
        exact ⟨Relation.ReflTransGen.refl, hf⟩
    · exact orderLoop_sound _ (fun ts => ih ts (idx + 1)) _ teams
        (fun t ht => (mem_teamOrder teams idx t ht).2)

/-! ### Every call returns -/

theorem tryT1_returns (next : List CalendarTeam → Outcome) (n : Nat)
    (hn : ∀ ts, ts.length = n → Returns n (next ts))
    (tIdx : Nat) (cands : List Nat) (teams : List CalendarTeam) (hl : teams.length = n) :
    Returns n (tryT1 next tIdx cands teams) := by
  induction cands generalizing teams with
  | nil => exact ⟨false, teams, rfl, hl⟩
  | cons i rest ih =>
    unfold tryT1
    split
    · exact ih teams hl
    · simp only
      split
      · obtain ⟨b, out, hx, hlen⟩ := hn (assignT1 teams tIdx i) (by rw [length_assignT1, hl])
        rw [hx]
        cases b
        · exact ih _ (by rw [length_undoT1, hlen])
        · exact ⟨true, out, rfl, hlen⟩
      · exact ih _ (by rw [length_undoT1, length_assignT1, hl])

theorem tryT2_returns (next : List CalendarTeam → Outcome) (n : Nat)
    (hn : ∀ ts, ts.length = n → Returns n (next ts))
    (tIdx : Nat) (cands : List Nat) (teams : List CalendarTeam) (hl : teams.length = n) :
    Returns n (tryT2 next tIdx cands teams) := by
  induction cands generalizing teams with
  | nil => exact ⟨false, teams, rfl, hl⟩
  | cons i rest ih =>
    unfold tryT2
    split
    · exact ih teams hl
    · simp only
      split
      · obtain ⟨b, out, hx, hlen⟩ := hn (assignT2 teams tIdx i) (by rw [length_assignT2, hl])
        rw [hx]
        cases b
        · exact ih _ (by rw [length_undoT2, hlen])
        · exact ⟨true, out, rfl, hlen⟩
      · exact ih _ (by rw [length_undoT2, length_assignT2, hl])

theorem tryTeam_returns (next : List CalendarTeam → Outcome) (n : Nat)
    (hn : ∀ ts, ts.length = n → Returns n (next ts))
    (tIdx : Nat) (teams : List CalendarTeam) (hl : teams.length = n) :
    Returns n (tryTeam next tIdx teams) := by
  unfold tryTeam
  have hafter : Returns n (if (getT teams tIdx).t1 = "" then
      tryT1 next tIdx (findPossibleOpponents (getT teams tIdx) teams "t1") teams
      else some (false, teams)) := by
    split
    · exact tryT1_returns next n hn tIdx _ teams hl
    · exact ⟨false, teams, rfl, hl⟩
  obtain ⟨b, out, hx, hlen⟩ := hafter
  simp only [hx]
  cases b
  · simp only
    split
    · exact tryT2_returns next n hn tIdx _ out hlen
    · exact ⟨false, out, rfl, hlen⟩
  · exact ⟨true, out, rfl, hlen⟩

theorem orderLoop_returns (next : List CalendarTeam → Outcome) (n : Nat)
    (hn : ∀ ts, ts.length = n → Returns n (next ts))
    (order : List Nat) (teams : List CalendarTeam) (hl : teams.length = n) :
    Returns n (orderLoop next order teams) := by
  induction order with
  | nil => exact hn teams hl
  | cons t rest ih =>
    unfold orderLoop
    split
    · exact ih
    · exact tryTeam_returns next n hn t teams hl

theorem assignMatchesBT_returns (fuel : Nat) (teams : List CalendarTeam) (idx : Nat)
    (hidx : idx ≤ teams.length) (hfuel : teams.length - idx < fuel) :
    Returns teams.length (assignMatchesBT fuel teams idx) := by
  induction fuel generalizing teams idx with
  | zero => omega
  | succ fuel ih =>
    unfold assignMatchesBT
    split
    · exact ⟨_, teams, rfl, rfl⟩
    · rename_i hne
      apply orderLoop_returns _ teams.length _ _ teams rfl
      intro ts hts
      have := ih ts (idx + 1) (by omega) (by omega)
      rw [hts] at this
      exact this

/-! ### The effect of an assignment, and membership in the candidate list -/

theorem name_assignT1 (ts : List CalendarTeam) (T i k : Nat) :
    (getT (assignT1 ts T i) k).name = (getT ts k).name := by
  unfold assignT1
  simp only [getT_set, List.length_set]
  split_ifs <;> simp_all

theorem country_assignT1 (ts : List CalendarTeam) (T i k : Nat) :
    (getT (assignT1 ts T i) k).country = (getT ts k).country := by
  unfold assignT1
  simp only [getT_set, List.length_set]
  split_ifs <;> simp_all

theorem t1_assignT1 (ts : List CalendarTeam) (T i k : Nat) (hT : T < ts.length) :
    (getT (assignT1 ts T i) k).t1 = if k = T then (getT ts i).name else (getT ts k).t1 := by
  unfold assignT1
  simp only [getT_set, List.length_set]
  split_ifs <;> subst_vars <;> first | rfl | simp_all

theorem t2_assignT1 (ts : List CalendarTeam) (T i k : Nat) (hi : i < ts.length) :
    (getT (assignT1 ts T i) k).t2 = if k = i then (getT ts T).name else (getT ts k).t2 := by
  unfold assignT1
  simp only [getT_set, List.length_set]
  split_ifs <;> subst_vars <;> first | rfl | simp_all

theorem name_assignT2 (ts : List CalendarTeam) (T i k : Nat) :
    (getT (assignT2 ts T i) k).name = (getT ts k).name := by
  unfold assignT2
  simp only [getT_set, List.length_set]
  split_ifs <;> simp_all

theorem country_assignT2 (ts : List CalendarTeam) (T i k : Nat) :
    (getT (assignT2 ts T i) k).country = (getT ts k).country := by
  unfold assignT2
  simp only [getT_set, List.length_set]
  split_ifs <;> simp_all

theorem t2_assignT2 (ts : List CalendarTeam) (T i k : Nat) (hT : T < ts.length) :
    (getT (assignT2 ts T i) k).t2 = if k = T then (getT ts i).name else (getT ts k).t2 := by
  unfold assignT2
  simp only [getT_set, List.length_set]
  split_ifs <;> subst_vars <;> first | rfl | simp_all

theorem t1_assignT2 (ts : List CalendarTeam) (T i k : Nat) (hi : i < ts.length) :
    (getT (assignT2 ts T i) k).t1 = if k = i then (getT ts T).name else (getT ts k).t1 := by
  unfold assignT2
  simp only [getT_set, List.length_set]
  split_ifs <;> subst_vars <;> first | rfl | simp_all

theorem mem_candidateIndices (team : CalendarTeam) (ts : List CalendarTeam) (slot : String)
    (i : Nat) :
    i ∈ candidateIndices team ts slot ↔ i < ts.length ∧ isCandidate team (getT ts i) slot = true := by
  simp [candidateIndices]

theorem mem_findPossibleOpponents (team : CalendarTeam) (ts : List CalendarTeam) (slot : String)
    (i : Nat) :
    i ∈ findPossibleOpponents team ts slot ↔ i ∈ candidateIndices team ts slot := by
  unfold findPossibleOpponents
  constructor
  · intro h
    obtain ⟨tup, htup, rfl⟩ := List.mem_map.mp h
    rw [List.mem_insertionSort] at htup
    obtain ⟨j, hj, rfl⟩ := List.mem_map.mp htup
    exact hj
  · intro h
    refine List.mem_map.mpr ⟨sortKey ts slot i, ?_, rfl⟩
    rw [List.mem_insertionSort]
    exact List.mem_map.mpr ⟨i, h, rfl⟩

theorem isCandidate_iff (team opp : CalendarTeam) (slot : String) :
    isCandidate team opp slot = true ↔
      opp.name ≠ team.name ∧ opp.country ≠ team.country ∧
      team.t1 ≠ opp.name ∧ team.t2 ≠ opp.name ∧ opp.t1 ≠ team.name ∧ opp.t2 ≠ team.name ∧
      ((slot = "t1" ∧ opp.t2 = "") ∨ (slot = "t2" ∧ opp.t1 = "")) := by
  unfold isCandidate
  split_ifs <;> simp_all
  tauto

/-! ### The invariant of the search -/

theorem Inv_of_empty (ts : List CalendarTeam) (hn : NamesOK ts) (he : SlotsEmpty ts) :
    Inv ts := by
  have hmem : ∀ a, a < ts.length → getT ts a ∈ ts := by
    intro a ha
    rw [getT_of_lt ts a ha]
    exact List.getElem_mem _
  have hne : ∀ a, a < ts.length → (getT ts a).name ≠ "" := fun a ha => hn.2 _ (hmem a ha)
  have h1 : ∀ a, a < ts.length → (getT ts a).t1 = "" := fun a ha => (he _ (hmem a ha)).1
  have h2 : ∀ a, a < ts.length → (getT ts a).t2 = "" := fun a ha => (he _ (hmem a ha)).2
  refine ⟨?_, hne, ?_, ?_, ?_, ?_, ?_⟩
  · intro a b ha hb hab
    have hnd := hn.1
    rw [List.nodup_iff_injective_get] at hnd
    have hal : a < (ts.map (fun t => t.name)).length := by simpa using ha
    have hbl : b < (ts.map (fun t => t.name)).length := by simpa using hb
    have := @hnd ⟨a, hal⟩ ⟨b, hbl⟩ (by
      simp only [List.get_eq_getElem, List.getElem_map]
      rw [← getT_of_lt ts a ha, ← getT_of_lt ts b hb]
      exact hab)
    exact Fin.mk.inj_iff.mp this
  · intro a b ha hb
    rw [h1 a ha, h2 b hb]
    constructor
    · intro h; exact absurd h.symm (hne b hb)
    · intro h; exact absurd h.symm (hne a ha)
  · intro a b ha hb h
    rw [h1 a ha] at h
    exact absurd h.symm (hne b hb)
  · intro a ha; exact Or.inl (h1 a ha)
  · intro a ha; exact Or.inl (h2 a ha)
  · intro a ha h; exact absurd (h1 a ha) h

theorem Inv_step (ts ts2 : List CalendarTeam) (hs : Step ts ts2) (hi : Inv ts) : Inv ts2 := by
  cases hs with
  | host T i hT h1 hc h2 hl =>
    rw [mem_findPossibleOpponents, mem_candidateIndices, isCandidate_iff] at hc
    obtain ⟨hin, c1, c2, c3, c4, c5, c6, -⟩ := hc
    have hTi : T ≠ i := fun h => c1 (by rw [h])
    refine ⟨?_, ?_, ?_, ?_, ?_, ?_, ?_⟩
    · intro a b ha hb
      rw [length_assignT1] at ha hb
      rw [name_assignT1, name_assignT1]
      exact hi.nameInj a b ha hb
    · intro a ha
      rw [length_assignT1] at ha
      rw [name_assignT1]
      exact hi.nameNe a ha
    · intro a b ha hb
      rw [length_assignT1] at ha hb
      rw [name_assignT1, name_assignT1, t1_assignT1 ts T i a hT, t2_assignT1 ts T i b hin]
      by_cases haT : a = T
      · subst haT
        by_cases hbi : b = i
        · subst hbi; simp
        · simp only [if_true, hbi, if_false]
          constructor
          · intro h; exact absurd (hi.nameInj _ _ hin hb h).symm hbi
          · intro h
            have := (hi.mirror a b ha hb).mpr h
            rw [h1] at this
            exact absurd this.symm (hi.nameNe b hb)
      · simp only [haT, if_false]
        by_cases hbi : b = i
        · subst hbi
          simp only [if_true]
          constructor
          · intro h
            have := (hi.mirror a b ha hb).mp h
            rw [h2] at this
            exact absurd this.symm (hi.nameNe a ha)
          · intro h; exact absurd (hi.nameInj _ _ hT ha h).symm haT
        · simp only [hbi, if_false]
          exact hi.mirror a b ha hb
    · intro a b ha hb
      rw [length_assignT1] at ha hb
      rw [name_assignT1, country_assignT1, country_assignT1, t1_assignT1 ts T i a hT]
      by_cases haT : a = T
      · subst haT
        simp only [if_true]
        intro h
        have := hi.nameInj _ _ hin hb h
        subst this
        exact fun h => c2 h.symm
      · simp only [haT, if_false]
        exact hi.excl a b ha hb
    · intro a ha
      rw [length_assignT1] at ha ⊢
      rw [t1_assignT1 ts T i a hT]
      by_cases haT : a = T
      · right
        refine ⟨i, hin, ?_⟩
        simp [haT, name_assignT1]
      · simp only [haT, if_false]
        rcases hi.closed1 a ha with h | ⟨b, hb, h⟩
        · exact Or.inl h
        · exact Or.inr ⟨b, hb, by rw [name_assignT1]; exact h⟩
    · intro a ha
      rw [length_assignT1] at ha ⊢
      rw [t2_assignT1 ts T i a hin]
      by_cases hai : a = i
      · right
        refine ⟨T, hT, ?_⟩
        simp [hai, name_assignT1]
      · simp only [hai, if_false]
        rcases hi.closed2 a ha with h | ⟨b, hb, h⟩
        · exact Or.inl h
        · exact Or.inr ⟨b, hb, by rw [name_assignT1]; exact h⟩
    · intro a ha
      rw [length_assignT1] at ha
      rw [t1_assignT1 ts T i a hT, t2_assignT1 ts T i a hin]
      by_cases haT : a = T
      · subst haT
        have hai : a ≠ i := hTi
        simp only [if_true, hai, if_false]
        intro _ h
        exact c4 h.symm
      · simp only [haT, if_false]
        by_cases hai : a = i
        · subst hai
          simp only [if_true]
          intro _ h
          exact c5 h
        · simp only [hai, if_false]
          exact hi.distinct a ha
  | guest T i hT h1 hc h2 hl =>
    rw [mem_findPossibleOpponents, mem_candidateIndices, isCandidate_iff] at hc
    obtain ⟨hin, c1, c2, c3, c4, c5, c6, -⟩ := hc
    have hTi : T ≠ i := fun h => c1 (by rw [h])
    refine ⟨?_, ?_, ?_, ?_, ?_, ?_, ?_⟩
    · intro a b ha hb
      rw [length_assignT2] at ha hb
      rw [name_assignT2, name_assignT2]
      exact hi.nameInj a b ha hb
    · intro a ha
      rw [length_assignT2] at ha
      rw [name_assignT2]
      exact hi.nameNe a ha
    · intro a b ha hb
      rw [length_assignT2] at ha hb
      rw [name_assignT2, name_assignT2, t1_assignT2 ts T i a hin, t2_assignT2 ts T i b hT]
      by_cases hai : a = i
      · subst hai
        by_cases hbT : b = T
        · subst hbT; simp
        · simp only [if_true, hbT, if_false]
          constructor
          · intro h; exact absurd (hi.nameInj _ _ hT hb h).symm hbT
          · intro h
            have := (hi.mirror a b ha hb).mpr h
            rw [h2] at this
            exact absurd this.symm (hi.nameNe b hb)
      · simp only [hai, if_false]
        by_cases hbT : b = T
        · subst hbT
          simp only [if_true]
          constructor
          · intro h
            have := (hi.mirror a b ha hb).mp h
            rw [h1] at this
            exact absurd this.symm (hi.nameNe a ha)
          · intro h; exact absurd (hi.nameInj _ _ hin ha h).symm hai
        · simp only [hbT, if_false]
          exact hi.mirror a b ha hb
    · intro a b ha hb
      rw [length_assignT2] at ha hb
      rw [name_assignT2, country_assignT2, country_assignT2, t1_assignT2 ts T i a hin]
      by_cases hai : a = i
      · subst hai
        simp only [if_true]
        intro h
        have := hi.nameInj _ _ hT hb h
        subst this
        exact c2
      · simp only [hai, if_false]
        exact hi.excl a b ha hb
    · intro a ha
      rw [length_assignT2] at ha ⊢
      rw [t1_assignT2 ts T i a hin]
      by_cases hai : a = i
      · right
        refine ⟨T, hT, ?_⟩
        simp [hai, name_assignT2]
      · simp only [hai, if_false]
        rcases hi.closed1 a ha with h | ⟨b, hb, h⟩
        · exact Or.inl h
        · exact Or.inr ⟨b, hb, by rw [name_assignT2]; exact h⟩
    · intro a ha
      rw [length_assignT2] at ha ⊢
      rw [t2_assignT2 ts T i a hT]
      by_cases haT : a = T
      · right
        refine ⟨i, hin, ?_⟩
        simp [haT, name_assignT2]
      · simp only [haT, if_false]
        rcases hi.closed2 a ha with h | ⟨b, hb, h⟩
        · exact Or.inl h
        · exact Or.inr ⟨b, hb, by rw [name_assignT2]; exact h⟩
    · intro a ha
      rw [length_assignT2] at ha
      rw [t1_assignT2 ts T i a hin, t2_assignT2 ts T i a hT]
      by_cases haT : a = T
      · subst haT
        have hai : a ≠ i := hTi
        simp only [if_true, hai, if_false]
        intro _ h
        exact c3 h
      · simp only [haT, if_false]
        by_cases hai : a = i
        · subst hai
          simp only [if_true]
          intro _ h
          exact c6 h.symm
        · simp only [hai, if_false]
          exact hi.distinct a ha

theorem Inv_reach (ts out : List CalendarTeam) (hr : Reach ts out) (hi : Inv ts) : Inv out := by
  induction hr with
  | refl => exact hi
  | tail _ hs ih => exact Inv_step _ _ hs ih

theorem length_step (ts ts2 : List CalendarTeam) (hs : Step ts ts2) : ts2.length = ts.length := by
  cases hs with
  | host T i => exact length_assignT1 ts T i
  | guest T i => exact length_assignT2 ts T i

theorem length_reach (ts out : List CalendarTeam) (hr : Reach ts out) :
    out.length = ts.length := by
  induction hr with
  | refl => rfl
  | tail _ hs ih => rw [length_step _ _ hs, ih]

/-! ### Properties of the result -/

theorem exists_index (ts : List CalendarTeam) (A : CalendarTeam) (h : A ∈ ts) :
    ∃ a, a < ts.length ∧ getT ts a = A := by
  obtain ⟨a, ha, rfl⟩ := List.mem_iff_getElem.mp h
  exact ⟨a, ha, getT_of_lt ts a ha⟩

theorem finalCheck_filled (ts : List CalendarTeam) (h : finalCheck ts = true) :
    ∀ t ∈ ts, t.t1 ≠ "" ∧ t.t2 ≠ "" := by
  intro t ht
  unfold finalCheck at h
  split at h
  · exact absurd h (by simp)
  · rename_i hany
    simp only [List.any_eq_true, decide_eq_true_eq, not_exists, not_and, not_or] at hany
    exact hany t ht

theorem solve_sound (teams : List CalendarTeam) : Sound teams (solve teams) :=
  assignMatchesBT_sound _ teams 0

theorem solve_true (teams out : List CalendarTeam) (h : solve teams = some (true, out)) :
    Reach teams out ∧ finalCheck out = true := by
  have := solve_sound teams
  rw [h] at this
  exact this

theorem solve_false (teams out : List CalendarTeam) (h : solve teams = some (false, out)) :
    out = teams := by
  have := solve_sound teams
  rw [h] at this
  exact this

theorem solve_returns (teams : List CalendarTeam) : Returns teams.length (solve teams) :=
  assignMatchesBT_returns _ teams 0 (Nat.zero_le _) (by omega)

/-- C1 (mirror symmetry): started on a collection with pairwise distinct non-empty names and
empty slots, a call that returns `true` leaves a collection in which, for all teams `A` and
`B`, `A.t1 = B.name` exactly when `B.t2 = A.name`. -/
theorem mirror_symmetry (teams out : List CalendarTeam) (hn : NamesOK teams)
    (he : SlotsEmpty teams) (h : solve teams = some (true, out)) :
    ∀ A ∈ out, ∀ B ∈ out, (A.t1 = B.name ↔ B.t2 = A.name) := by
  have hinv := Inv_reach teams out (solve_true teams out h).1 (Inv_of_empty teams hn he)
  intro A hA B hB
  obtain ⟨a, ha, rfl⟩ := exists_index out A hA
  obtain ⟨b, hb, rfl⟩ := exists_index out B hB
  exact hinv.mirror a b ha hb

/-- C2 (group exclusion): in the collection left by a successful call, a team that names
another team in either slot has a different country. -/
theorem group_exclusion (teams out : List CalendarTeam) (hn : NamesOK teams)
    (he : SlotsEmpty teams) (h : solve teams = some (true, out)) :
    ∀ A ∈ out, ∀ B ∈ out, (A.t1 = B.name ∨ A.t2 = B.name) → A.country ≠ B.country := by
  have hinv := Inv_reach teams out (solve_true teams out h).1 (Inv_of_empty teams hn he)
  intro A hA B hB hp
  obtain ⟨a, ha, rfl⟩ := exists_index out A hA
  obtain ⟨b, hb, rfl⟩ := exists_index out B hB
  rcases hp with hp | hp
  · exact hinv.excl a b ha hb hp
  · exact fun hc => hinv.excl b a hb ha ((hinv.mirror b a hb ha).mpr hp) hc.symm

/-- C3 (no duplicate pairing): in the collection left by a successful call no team has
`t1 = t2`, and no two teams host each other. -/
theorem no_duplicate_pairing (teams out : List CalendarTeam) (hn : NamesOK teams)
    (he : SlotsEmpty teams) (h : solve teams = some (true, out)) :
    (∀ A ∈ out, A.t1 ≠ A.t2) ∧
      ∀ A ∈ out, ∀ B ∈ out, ¬ (A.t1 = B.name ∧ B.t1 = A.name) := by
  have hst := solve_true teams out h
  have hinv := Inv_reach teams out hst.1 (Inv_of_empty teams hn he)
  have hfill := finalCheck_filled out hst.2
  constructor
  · intro A hA
    have hA1 := (hfill A hA).1
    obtain ⟨a, ha, rfl⟩ := exists_index out A hA
    exact hinv.distinct a ha hA1
  · intro A hA B hB hp
    have hB1 := (hfill B hB).1
    obtain ⟨a, ha, rfl⟩ := exists_index out A hA
    obtain ⟨b, hb, rfl⟩ := exists_index out B hB
    have h2 := (hinv.mirror a b ha hb).mp hp.1
    exact hinv.distinct b hb hB1 (hp.2.trans h2.symm)

/-- C4 (completeness): whatever the input collection, when the call returns `true` every
team of the resulting collection has both slots non-empty. -/
theorem success_complete (teams out : List CalendarTeam)
    (h : solve teams = some (true, out)) :
    ∀ A ∈ out, A.t1 ≠ "" ∧ A.t2 ≠ "" :=
  finalCheck_filled out (solve_true teams out h).2

theorem Inv_noself (ts : List CalendarTeam) (hinv : Inv ts) :
    ∀ A ∈ ts, A.t1 ≠ A.name ∧ A.t2 ≠ A.name := by
  intro A hA
  obtain ⟨a, ha, rfl⟩ := exists_index ts A hA
  constructor
  · exact fun h => hinv.excl a a ha ha h rfl
  · exact fun h => hinv.excl a a ha ha ((hinv.mirror a a ha ha).mpr h) rfl

/-- C5 (no self-pairing): started on a collection with pairwise distinct non-empty names and
empty slots, the call returns, and whether it returns `true` or `false` no team of the
resulting collection names itself in `t1` or in `t2`. -/
theorem no_self_pairing (teams : List CalendarTeam) (hn : NamesOK teams)
    (he : SlotsEmpty teams) :
    ∃ b out, solve teams = some (b, out) ∧ ∀ A ∈ out, A.t1 ≠ A.name ∧ A.t2 ≠ A.name := by
  obtain ⟨b, out, hx, -⟩ := solve_returns teams
  refine ⟨b, out, hx, ?_⟩
  have h0 := Inv_of_empty teams hn he
  cases b
  · rw [solve_false teams out hx]
    exact Inv_noself teams h0
  · exact Inv_noself out (Inv_reach teams out (solve_true teams out hx).1 h0)

/-! ### The fuel only bounds the depth -/

theorem tryT1_mono (next next2 : List CalendarTeam → Outcome)
    (hext : ∀ ts r, next ts = some r → next2 ts = some r)
    (tIdx : Nat) (cands : List Nat) (teams : List CalendarTeam) (r : Bool × List CalendarTeam)
    (h : tryT1 next tIdx cands teams = some r) : tryT1 next2 tIdx cands teams = some r := by
  induction cands generalizing teams with
  | nil => simpa [tryT1] using h
  | cons i rest ih =>
    unfold tryT1 at h ⊢
    split
    · rename_i hc
      rw [if_pos hc] at h
      exact ih teams h
    · rename_i hc
      rw [if_neg hc] at h
      simp only at h ⊢
      split
      · rename_i hl
        rw [if_pos hl] at h
        rcases hx : next (assignT1 teams tIdx i) with _ | ⟨b, out⟩
        · rw [hx] at h; exact absurd h (by simp)
        · rw [hx] at h
          rw [hext _ _ hx]
          cases b
          · exact ih _ h
          · exact h
      · rename_i hl
        rw [if_neg hl] at h
        exact ih _ h

theorem tryT2_mono (next next2 : List CalendarTeam → Outcome)
    (hext : ∀ ts r, next ts = some r → next2 ts = some r)
    (tIdx : Nat) (cands : List Nat) (teams : List CalendarTeam) (r : Bool × List CalendarTeam)
    (h : tryT2 next tIdx cands teams = some r) : tryT2 next2 tIdx cands teams = some r := by
  induction cands generalizing teams with
  | nil => simpa [tryT2] using h
  | cons i rest ih =>
    unfold tryT2 at h ⊢
    split
    · rename_i hc
      rw [if_pos hc] at h
      exact ih teams h
    · rename_i hc
      rw [if_neg hc] at h
      simp only at h ⊢
      split
      · rename_i hl
        rw [if_pos hl] at h
        rcases hx : next (assignT2 teams tIdx i) with _ | ⟨b, out⟩
        · rw [hx] at h; exact absurd h (by simp)
        · rw [hx] at h
          rw [hext _ _ hx]
          cases b
          · exact ih _ h
          · exact h
      · rename_i hl
        rw [if_neg hl] at h
        exact ih _ h

theorem tryTeam_mono (next next2 : List CalendarTeam → Outcome)
    (hext : ∀ ts r, next ts = some r → next2 ts = some r)
    (tIdx : Nat) (teams : List CalendarTeam) (r : Bool × List CalendarTeam)
    (h : tryTeam next tIdx teams = some r) : tryTeam next2 tIdx teams = some r := by
  unfold tryTeam at h ⊢
  by_cases h1 : (getT teams tIdx).t1 = ""
  · simp only [h1, if_true] at h ⊢
    rcases hx : tryT1 next tIdx (findPossibleOpponents (getT teams tIdx) teams "t1") teams
      with _ | ⟨b, out⟩
    · rw [hx] at h; exact absurd h (by simp)
    · rw [hx] at h
      rw [tryT1_mono next next2 hext _ _ _ _ hx]
      cases b
      · simp only at h ⊢
        split
        · rename_i h2
          rw [if_pos h2] at h
          exact tryT2_mono next next2 hext _ _ _ _ h
        · rename_i h2
          rw [if_neg h2] at h
          exact h
      · exact h
  · simp only [h1, if_false] at h ⊢
    split
    · rename_i h2
      rw [if_pos h2] at h
      exact tryT2_mono next next2 hext _ _ _ _ h
    · rename_i h2
      rw [if_neg h2] at h
      exact h

theorem orderLoop_mono (next next2 : List CalendarTeam → Outcome)
    (hext : ∀ ts r, next ts = some r → next2 ts = some r)
    (order : List Nat) (teams : List CalendarTeam) (r : Bool × List CalendarTeam)
    (h : orderLoop next order teams = some r) : orderLoop next2 order teams = some r := by
  induction order with
  | nil => exact hext _ _ h
  | cons t rest ih =>
    unfold orderLoop at h ⊢
    split
    · rename_i hc
      rw [if_pos hc] at h
      exact ih h
    · rename_i hc
      rw [if_neg hc] at h
      exact tryTeam_mono next next2 hext _ _ _ h

theorem assignMatchesBT_succ (fuel : Nat) (teams : List CalendarTeam) (idx : Nat)
    (r : Bool × List CalendarTeam) (h : assignMatchesBT fuel teams idx = some r) :
    assignMatchesBT (fuel + 1) teams idx = some r := by
  induction fuel generalizing teams idx r with
  | zero => simp [assignMatchesBT] at h
  | succ fuel ih =>
    unfold assignMatchesBT at h ⊢
    split
    · rename_i hc
      rw [if_pos hc] at h
      exact h
    · rename_i hc
      rw [if_neg hc] at h
      exact orderLoop_mono _ _ (fun ts r hr => ih ts (idx + 1) r hr) _ _ _ h

theorem assignMatchesBT_le (fuel fuel2 : Nat) (hle : fuel ≤ fuel2) (teams : List CalendarTeam)
    (idx : Nat) (r : Bool × List CalendarTeam) (h : assignMatchesBT fuel teams idx = some r) :
    assignMatchesBT fuel2 teams idx = some r := by
  induction hle with
  | refl => exact h
  | step _ ih => exact assignMatchesBT_succ _ _ _ _ ih

/-- C6 (termination): for `idx ≤ N` the call `assignMatchesBT(teams, idx)` returns within
`N - idx + 1` nested calls (one unit of fuel per call, each recursive call being made at
`idx + 1`), it keeps the number of teams, and any larger fuel gives the same result. -/
theorem termination (teams : List CalendarTeam) (idx : Nat) (hidx : idx ≤ teams.length)
    (fuel : Nat) (hfuel : teams.length - idx < fuel) :
    ∃ b out, assignMatchesBT (teams.length - idx + 1) teams idx = some (b, out) ∧
      out.length = teams.length ∧ assignMatchesBT fuel teams idx = some (b, out) := by
  obtain ⟨b, out, hx, hlen⟩ :=
    assignMatchesBT_returns (teams.length - idx + 1) teams idx hidx (by omega)
  exact ⟨b, out, hx, hlen, assignMatchesBT_le _ fuel (by omega) teams idx _ hx⟩

/-! ### Invariance under renaming

The driver only compares names, slots and countries for equality (and slots with the empty
string), so an injective renaming that fixes the empty string commutes with every function. -/

/-- Two duplicate-free lists of equal length are matched by a permutation that moves
nothing outside them. -/
theorem exists_perm_matching {α : Type} [DecidableEq α] (xs : List α) :
    ∀ ys : List α, xs.Nodup → ys.Nodup → xs.length = ys.length →
      ∃ σ : Equiv.Perm α, (∀ z, z ∉ xs → z ∉ ys → σ z = z) ∧
        ∀ i, ∀ (h1 : i < xs.length) (h2 : i < ys.length), σ (xs.get ⟨i, h1⟩) = ys.get ⟨i, h2⟩ := by
  induction xs with
  | nil =>
    intro ys _ _ hlen
    refine ⟨1, fun _ _ _ => rfl, ?_⟩
    intro i h1
    exact absurd h1 (by simp)
  | cons x xs ih =>
    intro ys hx hy hlen
    cases ys with
    | nil => simp at hlen
    | cons y ys =>
      obtain ⟨τ, hfix, hmap⟩ := ih ys (List.nodup_cons.mp hx).2 (List.nodup_cons.mp hy).2
        (by simpa using hlen)
      have hxn : x ∉ xs := (List.nodup_cons.mp hx).1
      have hyn : y ∉ ys := (List.nodup_cons.mp hy).1
      refine ⟨Equiv.swap (τ x) y * τ, ?_, ?_⟩
      · intro z hz1 hz2
        have hz1a : z ≠ x := fun h => hz1 (by simp [h])
        have hz1b : z ∉ xs := fun h => hz1 (List.mem_cons_of_mem _ h)
        have hz2a : z ≠ y := fun h => hz2 (by simp [h])
        have hz2b : z ∉ ys := fun h => hz2 (List.mem_cons_of_mem _ h)
        have hτ : τ z = z := hfix z hz1b hz2b
        rw [Equiv.Perm.mul_apply, hτ]
        apply Equiv.swap_apply_of_ne_of_ne
        · intro h
          rw [← hτ] at h
          exact hz1a (τ.injective h)
        · exact hz2a
      · intro i h1 h2
        cases i with
        | zero =>
          simp only [List.get_eq_getElem, List.getElem_cons_zero, Equiv.Perm.mul_apply]
          exact Equiv.swap_apply_left _ _
        | succ i =>
          simp only [List.get_eq_getElem, List.getElem_cons_succ, Equiv.Perm.mul_apply]
          have h1b : i < xs.length := by simpa using h1
          have h2b : i < ys.length := by simpa using h2
          have hm := hmap i h1b h2b
          simp only [List.get_eq_getElem] at hm
          rw [hm]
          apply Equiv.swap_apply_of_ne_of_ne
          · intro h
            rw [← hm] at h
            have := τ.injective h
            exact hxn (this ▸ List.getElem_mem h1b)
          · intro h
            exact hyn (h ▸ List.getElem_mem h2b)

section Renaming

variable (f g : String → String)

theorem rename_eq_empty (hf : Function.Injective f) (hf0 : f "" = "") (x : String) :
    f x = "" ↔ x = "" := by
  constructor
  · intro h
    apply hf
    rw [h, hf0]
  · intro h
    rw [h, hf0]

theorem getT_map (ts : List CalendarTeam) (i : Nat) (h : i < ts.length) :
    getT (ts.map (rename f g)) i = rename f g (getT ts i) := by
  rw [getT_of_lt _ i (by simpa using h), getT_of_lt ts i h, List.getElem_map]

theorem name_getT_map (hf0 : f "" = "") (ts : List CalendarTeam) (i : Nat) :
    (getT (ts.map (rename f g)) i).name = f (getT ts i).name := by
  by_cases h : i < ts.length
  · rw [getT_map f g ts i h]; rfl
  · rw [getT_of_le _ i (by simpa using h), getT_of_le ts i (by omega)]
    exact hf0.symm

theorem t1_getT_map (hf0 : f "" = "") (ts : List CalendarTeam) (i : Nat) :
    (getT (ts.map (rename f g)) i).t1 = f (getT ts i).t1 := by
  by_cases h : i < ts.length
  · rw [getT_map f g ts i h]; rfl
  · rw [getT_of_le _ i (by simpa using h), getT_of_le ts i (by omega)]
    exact hf0.symm

theorem t2_getT_map (hf0 : f "" = "") (ts : List CalendarTeam) (i : Nat) :
    (getT (ts.map (rename f g)) i).t2 = f (getT ts i).t2 := by
  by_cases h : i < ts.length
  · rw [getT_map f g ts i h]; rfl
  · rw [getT_of_le _ i (by simpa using h), getT_of_le ts i (by omega)]
    exact hf0.symm

theorem country_getT_map (ts : List CalendarTeam) (i : Nat) (h : i < ts.length) :
    (getT (ts.map (rename f g)) i).country = g (getT ts i).country := by
  rw [getT_map f g ts i h]; rfl

theorem matchesAssigned_rename (hf : Function.Injective f) (hf0 : f "" = "")
    (t : CalendarTeam) : (rename f g t).matchesAssigned = t.matchesAssigned := by
  simp only [CalendarTeam.matchesAssigned, rename, ne_eq, rename_eq_empty f hf hf0]

theorem matchesAssigned_getT_map (hf : Function.Injective f) (hf0 : f "" = "")
    (ts : List CalendarTeam) (i : Nat) :
    (getT (ts.map (rename f g)) i).matchesAssigned = (getT ts i).matchesAssigned := by
  simp only [CalendarTeam.matchesAssigned, ne_eq, t1_getT_map f g hf0, t2_getT_map f g hf0,
    rename_eq_empty f hf hf0]

theorem isCandidate_rename (hf : Function.Injective f) (hf0 : f "" = "")
    (hg : Function.Injective g) (team opp : CalendarTeam) (slot : String) :
    isCandidate (rename f g team) (rename f g opp) slot = isCandidate team opp slot := by
  simp only [isCandidate, rename, hf.eq_iff, hg.eq_iff, rename_eq_empty f hf hf0]

theorem candidateIndices_rename (hf : Function.Injective f) (hf0 : f "" = "")
    (hg : Function.Injective g) (team : CalendarTeam) (ts : List CalendarTeam) (slot : String) :
    candidateIndices (rename f g team) (ts.map (rename f g)) slot =
      candidateIndices team ts slot := by
  unfold candidateIndices
  rw [List.length_map]
  apply List.filter_congr
  intro i hi
  rw [getT_map f g ts i (List.mem_range.mp hi), isCandidate_rename f g hf hf0 hg]

theorem degreeCounts_rename (hf : Function.Injective f) (hf0 : f "" = "")
    (hg : Function.Injective g) (ts : List CalendarTeam) (slot : String) (idx j : Nat)
    (hidx : idx < ts.length) (hj : j < ts.length) :
    degreeCounts (ts.map (rename f g)) slot idx j = degreeCounts ts slot idx j := by
  simp only [degreeCounts, name_getT_map f g hf0, t1_getT_map f g hf0, t2_getT_map f g hf0,
    country_getT_map f g ts _ hidx, country_getT_map f g ts _ hj,
    hf.eq_iff, hg.eq_iff, rename_eq_empty f hf hf0]

theorem degree_rename (hf : Function.Injective f) (hf0 : f "" = "")
    (hg : Function.Injective g) (ts : List CalendarTeam) (slot : String) (idx : Nat)
    (hidx : idx < ts.length) :
    degree (ts.map (rename f g)) slot idx = degree ts slot idx := by
  unfold degree
  rw [List.length_map]
  congr 1
  apply List.filter_congr
  intro j hj
  exact degreeCounts_rename f g hf hf0 hg ts slot idx j hidx (List.mem_range.mp hj)

theorem sortKey_rename (hf : Function.Injective f) (hf0 : f "" = "")
    (hg : Function.Injective g) (ts : List CalendarTeam) (slot : String) (idx : Nat)
    (hidx : idx < ts.length) :
    sortKey (ts.map (rename f g)) slot idx = sortKey ts slot idx := by
  unfold sortKey
  rw [matchesAssigned_getT_map f g hf hf0, degree_rename f g hf hf0 hg ts slot idx hidx]

theorem findPossibleOpponents_rename (hf : Function.Injective f) (hf0 : f "" = "")
    (hg : Function.Injective g) (team : CalendarTeam) (ts : List CalendarTeam) (slot : String) :
    findPossibleOpponents (rename f g team) (ts.map (rename f g)) slot =
      findPossibleOpponents team ts slot := by
  unfold findPossibleOpponents
  rw [candidateIndices_rename f g hf hf0 hg]
  congr 2
  apply List.map_congr_left
  intro i hi
  exact sortKey_rename f g hf hf0 hg ts slot i ((mem_candidateIndices team ts slot i).mp hi).1

theorem duplicateMatch_rename (hf : Function.Injective f) (hf0 : f "" = "")
    (ts : List CalendarTeam) :
    duplicateMatch (ts.map (rename f g)) = duplicateMatch ts := by
  simp only [duplicateMatch, name_getT_map f g hf0, t1_getT_map f g hf0, t2_getT_map f g hf0,
    hf.eq_iff, List.length_map]

theorem lookaheadFails_rename (hf : Function.Injective f) (hf0 : f "" = "")
    (hg : Function.Injective g) (ts : List CalendarTeam) (team : CalendarTeam) :
    lookaheadFails (ts.map (rename f g)) (rename f g team) = lookaheadFails ts team := by
  unfold lookaheadFails
  rw [findPossibleOpponents_rename f g hf hf0 hg, findPossibleOpponents_rename f g hf hf0 hg]
  simp only [rename, hf.eq_iff, rename_eq_empty f hf hf0, ne_eq]

theorem lookahead_rename (hf : Function.Injective f) (hf0 : f "" = "")
    (hg : Function.Injective g) (ts : List CalendarTeam) :
    lookahead (ts.map (rename f g)) = lookahead ts := by
  unfold lookahead
  rw [duplicateMatch_rename f g hf hf0, List.any_map]
  have : (lookaheadFails (ts.map (rename f g)) ∘ rename f g) = lookaheadFails ts := by
    funext t
    exact lookaheadFails_rename f g hf hf0 hg ts t
  rw [this]

theorem finalCheck_rename (hf : Function.Injective f) (hf0 : f "" = "")
    (ts : List CalendarTeam) :
    finalCheck (ts.map (rename f g)) = finalCheck ts := by
  unfold finalCheck
  rw [duplicateMatch_rename f g hf hf0, List.any_map]
  have : ((fun t : CalendarTeam => decide (t.t1 = "" ∨ t.t2 = "")) ∘ rename f g) =
      (fun t : CalendarTeam => decide (t.t1 = "" ∨ t.t2 = "")) := by
    funext t
    simp only [Function.comp, rename, rename_eq_empty f hf hf0]
  rw [this]

theorem teamOrder_rename (hf : Function.Injective f) (hf0 : f "" = "")
    (ts : List CalendarTeam) (idx : Nat) :
    teamOrder (ts.map (rename f g)) idx = teamOrder ts idx := by
  simp only [teamOrder, matchesAssigned_getT_map f g hf hf0, List.length_map]

end Renaming

section RenamingDriver

variable (f g : String → String)

theorem assignT1_rename (ts : List CalendarTeam) (T i : Nat) (hT : T < ts.length)
    (hi : i < ts.length) :
    assignT1 (ts.map (rename f g)) T i = (assignT1 ts T i).map (rename f g) := by
  have e1 : ({ getT (ts.map (rename f g)) T with t1 := (getT (ts.map (rename f g)) i).name } :
      CalendarTeam) = rename f g { getT ts T with t1 := (getT ts i).name } := by
    rw [getT_map f g ts T hT, getT_map f g ts i hi]; rfl
  have e2 : ∀ ts1 : List CalendarTeam, ts1.length = ts.length →
      ({ getT (ts1.map (rename f g)) i with t2 := (getT (ts1.map (rename f g)) T).name } :
      CalendarTeam) = rename f g { getT ts1 i with t2 := (getT ts1 T).name } := by
    intro ts1 h1
    rw [getT_map f g ts1 T (by omega), getT_map f g ts1 i (by omega)]; rfl
  unfold assignT1
  simp only
  rw [e1, ← List.map_set, e2 _ (by simp), ← List.map_set]

theorem assignT2_rename (ts : List CalendarTeam) (T i : Nat) (hT : T < ts.length)
    (hi : i < ts.length) :
    assignT2 (ts.map (rename f g)) T i = (assignT2 ts T i).map (rename f g) := by
  have e1 : ({ getT (ts.map (rename f g)) T with t2 := (getT (ts.map (rename f g)) i).name } :
      CalendarTeam) = rename f g { getT ts T with t2 := (getT ts i).name } := by
    rw [getT_map f g ts T hT, getT_map f g ts i hi]; rfl
  have e2 : ∀ ts1 : List CalendarTeam, ts1.length = ts.length →
      ({ getT (ts1.map (rename f g)) i with t1 := (getT (ts1.map (rename f g)) T).name } :
      CalendarTeam) = rename f g { getT ts1 i with t1 := (getT ts1 T).name } := by
    intro ts1 h1
    rw [getT_map f g ts1 T (by omega), getT_map f g ts1 i (by omega)]; rfl
  unfold assignT2
  simp only
  rw [e1, ← List.map_set, e2 _ (by simp), ← List.map_set]

theorem undoT1_rename (hf0 : f "" = "") (ts : List CalendarTeam) (T i : Nat)
    (hT : T < ts.length) (hi : i < ts.length) :
    undoT1 (ts.map (rename f g)) T i = (undoT1 ts T i).map (rename f g) := by
  have e1 : ({ getT (ts.map (rename f g)) T with t1 := "" } : CalendarTeam) =
      rename f g { getT ts T with t1 := "" } := by
    rw [getT_map f g ts T hT]; simp [rename, hf0]
  have e2 : ∀ ts1 : List CalendarTeam, ts1.length = ts.length →
      ({ getT (ts1.map (rename f g)) i with t2 := "" } : CalendarTeam) =
        rename f g { getT ts1 i with t2 := "" } := by
    intro ts1 h1
    rw [getT_map f g ts1 i (by omega)]; simp [rename, hf0]
  unfold undoT1
  simp only
  rw [e1, ← List.map_set, e2 _ (by simp), ← List.map_set]

theorem undoT2_rename (hf0 : f "" = "") (ts : List CalendarTeam) (T i : Nat)
    (hT : T < ts.length) (hi : i < ts.length) :
    undoT2 (ts.map (rename f g)) T i = (undoT2 ts T i).map (rename f g) := by
  have e1 : ({ getT (ts.map (rename f g)) T with t2 := "" } : CalendarTeam) =
      rename f g { getT ts T with t2 := "" } := by
    rw [getT_map f g ts T hT]; simp [rename, hf0]
  have e2 : ∀ ts1 : List CalendarTeam, ts1.length = ts.length →
      ({ getT (ts1.map (rename f g)) i with t1 := "" } : CalendarTeam) =
        rename f g { getT ts1 i with t1 := "" } := by
    intro ts1 h1
    rw [getT_map f g ts1 i (by omega)]; simp [rename, hf0]
  unfold undoT2
  simp only
  rw [e1, ← List.map_set, e2 _ (by simp), ← List.map_set]

theorem tryT1_rename (hf : Function.Injective f) (hf0 : f "" = "")
    (hg : Function.Injective g) (next next2 : List CalendarTeam → Outcome) (n : Nat)
    (hn : ∀ ts, ts.length = n → Returns n (next ts))
    (hr : ∀ ts, ts.length = n → next2 (ts.map (rename f g)) = renameOutcome f g (next ts))
    (T : Nat) (hT : T < n) (cands : List Nat) (hc : ∀ i ∈ cands, i < n)
    (ts : List CalendarTeam) (hl : ts.length = n) :
    tryT1 next2 T cands (ts.map (rename f g)) = renameOutcome f g (tryT1 next T cands ts) := by
  induction cands generalizing ts with
  | nil => simp [tryT1, renameOutcome]
  | cons i rest ih =>
    have hi : i < n := hc i (List.mem_cons_self _ _)
    have ih2 := ih (fun j hj => hc j (List.mem_cons_of_mem _ hj))
    have hTl : T < ts.length := by omega
    have hil : i < ts.length := by omega
    unfold tryT1
    simp only [t2_getT_map f g hf0, ne_eq, rename_eq_empty f hf hf0,
      assignT1_rename f g ts T i hTl hil, lookahead_rename f g hf hf0 hg]
    by_cases h2 : (getT ts i).t2 = ""
    · simp only [h2, not_true_eq_false, if_false]
      by_cases hla : lookahead (assignT1 ts T i) = true
      · simp only [hla, if_true]
        obtain ⟨b, out, hx, hlen⟩ := hn (assignT1 ts T i) (by rw [length_assignT1, hl])
        rw [hr _ (by rw [length_assignT1, hl]), hx]
        cases b
        · simp only [renameOutcome, Option.map_some']
          rw [undoT1_rename f g hf0 out T i (by omega) (by omega)]
          exact ih2 _ (by rw [length_undoT1, hlen])
        · simp [renameOutcome]
      · simp only [hla, Bool.false_eq_true, if_false]
        rw [undoT1_rename f g hf0 _ T i (by rw [length_assignT1]; omega)
            (by rw [length_assignT1]; omega)]
        exact ih2 _ (by rw [length_undoT1, length_assignT1, hl])
    · simp only [h2, not_false_eq_true, if_true]
      exact ih2 ts hl

theorem tryT2_rename (hf : Function.Injective f) (hf0 : f "" = "")
    (hg : Function.Injective g) (next next2 : List CalendarTeam → Outcome) (n : Nat)
    (hn : ∀ ts, ts.length = n → Returns n (next ts))
    (hr : ∀ ts, ts.length = n → next2 (ts.map (rename f g)) = renameOutcome f g (next ts))
    (T : Nat) (hT : T < n) (cands : List Nat) (hc : ∀ i ∈ cands, i < n)
    (ts : List CalendarTeam) (hl : ts.length = n) :
    tryT2 next2 T cands (ts.map (rename f g)) = renameOutcome f g (tryT2 next T cands ts) := by
  induction cands generalizing ts with
  | nil => simp [tryT2, renameOutcome]
  | cons i rest ih =>
    have hi : i < n := hc i (List.mem_cons_self _ _)
    have ih2 := ih (fun j hj => hc j (List.mem_cons_of_mem _ hj))
    have hTl : T < ts.length := by omega
    have hil : i < ts.length := by omega
    unfold tryT2
    simp only [t1_getT_map f g hf0, ne_eq, rename_eq_empty f hf hf0,
      assignT2_rename f g ts T i hTl hil, lookahead_rename f g hf hf0 hg]
    by_cases h2 : (getT ts i).t1 = ""
    · simp only [h2, not_true_eq_false, if_false]
      by_cases hla : lookahead (assignT2 ts T i) = true
      · simp only [hla, if_true]
        obtain ⟨b, out, hx, hlen⟩ := hn (assignT2 ts T i) (by rw [length_assignT2, hl])
        rw [hr _ (by rw [length_assignT2, hl]), hx]
        cases b
        · simp only [renameOutcome, Option.map_some']
          rw [undoT2_rename f g hf0 out T i (by omega) (by omega)]
          exact ih2 _ (by rw [length_undoT2, hlen])
        · simp [renameOutcome]
      · simp only [hla, Bool.false_eq_true, if_false]
        rw [undoT2_rename f g hf0 _ T i (by rw [length_assignT2]; omega)
            (by rw [length_assignT2]; omega)]
        exact ih2 _ (by rw [length_undoT2, length_assignT2, hl])
    · simp only [h2, not_false_eq_true, if_true]
      exact ih2 ts hl

theorem lt_of_mem_findPossibleOpponents (team : CalendarTeam) (ts : List CalendarTeam)
    (slot : String) (i : Nat) (h : i ∈ findPossibleOpponents team ts slot) : i < ts.length :=
  ((mem_candidateIndices team ts slot i).mp ((mem_findPossibleOpponents team ts slot i).mp h)).1

theorem tryTeam_rename (hf : Function.Injective f) (hf0 : f "" = "")
    (hg : Function.Injective g) (next next2 : List CalendarTeam → Outcome) (n : Nat)
    (hn : ∀ ts, ts.length = n → Returns n (next ts))
    (hr : ∀ ts, ts.length = n → next2 (ts.map (rename f g)) = renameOutcome f g (next ts))
    (T : Nat) (hT : T < n) (ts : List CalendarTeam) (hl : ts.length = n) :
    tryTeam next2 T (ts.map (rename f g)) = renameOutcome f g (tryTeam next T ts) := by
  have hTl : T < ts.length := by omega
  have key2 : ∀ out : List CalendarTeam, out.length = n →
      (if (getT (out.map (rename f g)) T).t2 = "" then
        tryT2 next2 T (findPossibleOpponents (getT (out.map (rename f g)) T)
          (out.map (rename f g)) "t2") (out.map (rename f g))
      else some (false, out.map (rename f g))) =
      renameOutcome f g (if (getT out T).t2 = "" then
        tryT2 next T (findPossibleOpponents (getT out T) out "t2") out
      else some (false, out)) := by
    intro out hout
    rw [t2_getT_map f g hf0, getT_map f g out T (by omega),
      findPossibleOpponents_rename f g hf hf0 hg]
    simp only [rename_eq_empty f hf hf0]
    split
    · exact tryT2_rename f g hf hf0 hg next next2 n hn hr T hT _
        (fun i hi => by
          have := lt_of_mem_findPossibleOpponents _ _ _ _ hi
          omega) out hout
    · simp [renameOutcome]
  unfold tryTeam
  rw [t1_getT_map f g hf0, getT_map f g ts T hTl, findPossibleOpponents_rename f g hf hf0 hg]
  simp only [rename_eq_empty f hf hf0]
  by_cases h1 : (getT ts T).t1 = ""
  · simp only [h1, if_true]
    have hc : ∀ i ∈ findPossibleOpponents (getT ts T) ts "t1", i < n := fun i hi => by
      have := lt_of_mem_findPossibleOpponents _ _ _ _ hi
      omega
    rw [tryT1_rename f g hf hf0 hg next next2 n hn hr T hT _ hc ts hl]
    obtain ⟨b, out, hx, hlen⟩ := tryT1_returns next n hn T
      (findPossibleOpponents (getT ts T) ts "t1") ts hl
    rw [hx]
    cases b
    · simp only [renameOutcome, Option.map_some']
      exact key2 out hlen
    · simp [renameOutcome]
  · simp only [h1, if_false]
    exact key2 ts hl

theorem orderLoop_rename (hf : Function.Injective f) (hf0 : f "" = "")
    (hg : Function.Injective g) (next next2 : List CalendarTeam → Outcome) (n : Nat)
    (hn : ∀ ts, ts.length = n → Returns n (next ts))
    (hr : ∀ ts, ts.length = n → next2 (ts.map (rename f g)) = renameOutcome f g (next ts))
    (order : List Nat) (ho : ∀ t ∈ order, t < n) (ts : List CalendarTeam) (hl : ts.length = n) :
    orderLoop next2 order (ts.map (rename f g)) = renameOutcome f g (orderLoop next order ts) := by
  induction order with
  | nil => exact hr ts hl
  | cons t rest ih =>
    unfold orderLoop
    simp only [t1_getT_map f g hf0, t2_getT_map f g hf0, ne_eq, rename_eq_empty f hf hf0]
    split
    · exact ih (fun j hj => ho j (List.mem_cons_of_mem _ hj))
    · exact tryTeam_rename f g hf hf0 hg next next2 n hn hr t (ho t (List.mem_cons_self _ _)) ts hl

theorem assignMatchesBT_rename (hf : Function.Injective f) (hf0 : f "" = "")
    (hg : Function.Injective g) (fuel : Nat) (ts : List CalendarTeam) (idx : Nat)
    (hidx : idx ≤ ts.length) (hfuel : ts.length - idx < fuel) :
    assignMatchesBT fuel (ts.map (rename f g)) idx =
      renameOutcome f g (assignMatchesBT fuel ts idx) := by
  induction fuel generalizing ts idx with
  | zero => omega
  | succ fuel ih =>
    unfold assignMatchesBT
    rw [List.length_map, finalCheck_rename f g hf hf0, teamOrder_rename f g hf hf0]
    split
    · simp [renameOutcome]
    · apply orderLoop_rename f g hf hf0 hg _ _ ts.length
      · intro ts2 h2
        have := assignMatchesBT_returns fuel ts2 (idx + 1) (by omega) (by omega)
        rw [h2] at this
        exact this
      · intro ts2 h2
        exact ih ts2 (idx + 1) (by omega) (by omega)
      · exact fun t ht => (mem_teamOrder ts idx t ht).2
      · rfl

theorem solve_rename (hf : Function.Injective f) (hf0 : f "" = "")
    (hg : Function.Injective g) (ts : List CalendarTeam) :
    solve (ts.map (rename f g)) = renameOutcome f g (solve ts) := by
  unfold solve
  rw [List.length_map]
  exact assignMatchesBT_rename f g hf hf0 hg _ ts 0 (Nat.zero_le _) (by omega)

end RenamingDriver

/-! ### Scenarios -/

theorem exists_renaming (teams : List CalendarTeam) (ns cs : List String)
    (hn : NamesOK teams) (he : SlotsEmpty teams)
    (hc : (teams.map (fun t => t.country)).Nodup)
    (hns : ns.Nodup) (hns0 : "" ∉ ns) (hcs : cs.Nodup)
    (hl1 : ns.length = teams.length) (hl2 : cs.length = teams.length) :
    ∃ f g : String → String, Function.Injective f ∧ f "" = "" ∧ Function.Injective g ∧
      teams.map (rename f g) = freshTeams ns cs := by
  obtain ⟨σ, hσfix, hσ⟩ := exists_perm_matching (teams.map (fun t => t.name)) ns hn.1 hns
    (by simp [hl1])
  obtain ⟨τ, -, hτ⟩ := exists_perm_matching (teams.map (fun t => t.country)) cs hc hcs
    (by simp [hl2])
  have h0 : σ "" = "" := by
    apply hσfix _ _ hns0
    intro h
    obtain ⟨t, ht, hte⟩ := List.mem_map.mp h
    exact hn.2 t ht hte
  refine ⟨σ, τ, σ.injective, h0, τ.injective, ?_⟩
  apply List.ext_getElem
  · simp [freshTeams, hl1, hl2]
  · intro i h1 h2
    have hi : i < teams.length := by simpa using h1
    have e1 := hσ i (by simpa using hi) (by omega)
    have e2 := hτ i (by simpa using hi) (by omega)
    simp only [List.get_eq_getElem, List.getElem_map] at e1 e2
    have hs := he teams[i] (List.getElem_mem hi)
    simp only [freshTeams, List.getElem_map, List.getElem_zipWith, rename, e1, e2, hs.1, hs.2, h0]

theorem pairedAt_rename (f g : String → String) (hf : Function.Injective f) (hf0 : f "" = "")
    (ts : List CalendarTeam) (i j : Nat) :
    pairedAt (ts.map (rename f g)) i j = pairedAt ts i j := by
  simp only [pairedAt, name_getT_map f g hf0, t1_getT_map f g hf0, t2_getT_map f g hf0,
    hf.eq_iff]

theorem realisedPairs_rename (f g : String → String) (hf : Function.Injective f)
    (hf0 : f "" = "") (ts : List CalendarTeam) :
    realisedPairs (ts.map (rename f g)) = realisedPairs ts := by
  simp only [realisedPairs, pairedAt_rename f g hf hf0, List.length_map]

theorem Inv_hosts_one (ts : List CalendarTeam) (hinv : Inv ts)
    (hfill : ∀ t ∈ ts, t.t1 ≠ "" ∧ t.t2 ≠ "") :
    (∀ A ∈ ts, ∃! B, B ∈ ts ∧ A.t1 = B.name) ∧ (∀ A ∈ ts, ∃! B, B ∈ ts ∧ A.t2 = B.name) := by
  have huniq : ∀ B ∈ ts, ∀ C ∈ ts, B.name = C.name → C = B := by
    intro B hB C hC hbc
    obtain ⟨b, hb, rfl⟩ := exists_index ts B hB
    obtain ⟨c, hc, rfl⟩ := exists_index ts C hC
    rw [hinv.nameInj b c hb hc hbc]
  have hmem : ∀ a, a < ts.length → getT ts a ∈ ts := by
    intro a ha
    rw [getT_of_lt ts a ha]
    exact List.getElem_mem _
  constructor
  · intro A hA
    have hA1 := (hfill A hA).1
    obtain ⟨a, ha, rfl⟩ := exists_index ts A hA
    rcases hinv.closed1 a ha with h | ⟨b, hb, h⟩
    · exact absurd h hA1
    · refine ⟨getT ts b, ⟨hmem b hb, h⟩, ?_⟩
      rintro C ⟨hC, hCn⟩
      exact huniq _ (hmem b hb) C hC (h.symm.trans hCn)
  · intro A hA
    have hA2 := (hfill A hA).2
    obtain ⟨a, ha, rfl⟩ := exists_index ts A hA
    rcases hinv.closed2 a ha with h | ⟨b, hb, h⟩
    · exact absurd h hA2
    · refine ⟨getT ts b, ⟨hmem b hb, h⟩, ?_⟩
      rintro C ⟨hC, hCn⟩
      exact huniq _ (hmem b hb) C hC (h.symm.trans hCn)

/-- With ties in index order (`teamOrder`): on four teams with pairwise distinct non-empty
names, pairwise distinct countries and empty slots the call returns `true`; in the result
every team hosts exactly one team and is the guest of exactly one team, and exactly 4 of the
6 unordered pairs are realised. -/
theorem four_distinct_index (teams : List CalendarTeam) (hlen : teams.length = 4)
    (hn : NamesOK teams) (he : SlotsEmpty teams)
    (hc : (teams.map (fun t => t.country)).Nodup) :
    ∃ out, solve teams = some (true, out) ∧
      (∀ A ∈ out, ∃! B, B ∈ out ∧ A.t1 = B.name) ∧
      (∀ A ∈ out, ∃! B, B ∈ out ∧ A.t2 = B.name) ∧
      realisedPairs out = 4 := by
  obtain ⟨f, g, hf, hf0, hg, hmap⟩ := exists_renaming teams ["a", "b", "c", "d"]
    ["A", "B", "C", "D"] hn he hc (by decide) (by decide) (by decide) (by simp [hlen])
    (by simp [hlen])
  have hs := solve_rename f g hf hf0 hg teams
  rw [hmap] at hs
  obtain ⟨b, out, hx, -⟩ := solve_returns teams
  rw [hx] at hs
  have hcanon : ∃ res, solve (freshTeams ["a", "b", "c", "d"] ["A", "B", "C", "D"]) =
      some (true, res) ∧ realisedPairs res = 4 := by
    refine ⟨[⟨"a", "A", "b", "d"⟩, ⟨"b", "B", "c", "a"⟩, ⟨"c", "C", "d", "b"⟩,
      ⟨"d", "D", "a", "c"⟩], by decide, by decide⟩
  obtain ⟨res, hres, hcount⟩ := hcanon
  rw [hres] at hs
  simp only [renameOutcome, Option.map_some', Option.some.injEq, Prod.mk.injEq] at hs
  obtain ⟨hb, hout⟩ := hs
  subst hb
  have hst := solve_true teams out hx
  have hinv := Inv_reach teams out hst.1 (Inv_of_empty teams hn he)
  have hone := Inv_hosts_one out hinv (finalCheck_filled out hst.2)
  refine ⟨out, hx, hone.1, hone.2, ?_⟩
  rw [← realisedPairs_rename f g hf hf0 out, ← hout]
  exact hcount

/-- With ties in index order (`teamOrder`): on nine teams with pairwise distinct non-empty
names, pairwise distinct countries and empty slots the call returns `true`. -/
theorem nine_distinct_index (teams : List CalendarTeam) (hlen : teams.length = 9)
    (hn : NamesOK teams) (he : SlotsEmpty teams)
    (hc : (teams.map (fun t => t.country)).Nodup) :
    ∃ out, solve teams = some (true, out) := by
  obtain ⟨f, g, hf, hf0, hg, hmap⟩ := exists_renaming teams
    ["a", "b", "c", "d", "e", "f", "g", "h", "i"] ["A", "B", "C", "D", "E", "F", "G", "H", "I"]
    hn he hc (by decide) (by decide) (by decide) (by simp [hlen]) (by simp [hlen])
  have hs := solve_rename f g hf hf0 hg teams
  rw [hmap] at hs
  obtain ⟨b, out, hx, -⟩ := solve_returns teams
  rw [hx] at hs
  have hcanon : (solve (freshTeams ["a", "b", "c", "d", "e", "f", "g", "h", "i"]
      ["A", "B", "C", "D", "E", "F", "G", "H", "I"])).map Prod.fst = some true := by
    decide
  rw [hs] at hcanon
  simp only [renameOutcome, Option.map_some', Option.some.injEq] at hcanon
  subst hcanon
  exact ⟨out, hx⟩

theorem fields_step (ts ts2 : List CalendarTeam) (hs : Step ts ts2) (k : Nat) :
    (getT ts2 k).name = (getT ts k).name ∧ (getT ts2 k).country = (getT ts k).country := by
  cases hs with
  | host T i => exact ⟨name_assignT1 ts T i k, country_assignT1 ts T i k⟩
  | guest T i => exact ⟨name_assignT2 ts T i k, country_assignT2 ts T i k⟩

theorem fields_reach (ts out : List CalendarTeam) (hr : Reach ts out) (k : Nat) :
    (getT out k).name = (getT ts k).name ∧ (getT out k).country = (getT ts k).country := by
  induction hr with
  | refl => exact ⟨rfl, rfl⟩
  | tail _ hs ih =>
    have := fields_step _ _ hs k
    exact ⟨this.1.trans ih.1, this.2.trans ih.2⟩

/-- C10 (scenario 4): on four teams with pairwise distinct non-empty names and empty slots,
three of which share one country while the team at index `x` has another one, the call
returns `false` (and leaves the collection as it was). -/
theorem scenario_three_one (teams : List CalendarTeam) (hlen : teams.length = 4)
    (hn : NamesOK teams) (he : SlotsEmpty teams) (x : Nat) (hx : x < 4)
    (hsame : ∀ a, a < 4 → ∀ b, b < 4 → a ≠ x → b ≠ x →
      (getT teams a).country = (getT teams b).country)
    (_hdiff : ∀ a, a < 4 → a ≠ x → (getT teams a).country ≠ (getT teams x).country) :
    solve teams = some (false, teams) := by
  obtain ⟨b, out, hsol, hol⟩ := solve_returns teams
  cases b
  · rw [hsol, solve_false teams out hsol]
  · exfalso
    have hst := solve_true teams out hsol
    have hinv := Inv_reach teams out hst.1 (Inv_of_empty teams hn he)
    have hfill := finalCheck_filled out hst.2
    have hfld := fields_reach teams out hst.1
    have hmem : ∀ a, a < out.length → getT out a ∈ out := by
      intro a ha
      rw [getT_of_lt out a ha]
      exact List.getElem_mem _
    have hhost : ∀ a, a < 4 → a ≠ x → (getT out a).t1 = (getT out x).name := by
      intro a ha hax
      have hal : a < out.length := by omega
      rcases hinv.closed1 a hal with h | ⟨b, hb, h⟩
      · exact absurd h (hfill _ (hmem a hal)).1
      · have hne := hinv.excl a b hal hb h
        rw [(hfld a).2, (hfld b).2] at hne
        by_cases hbx : b = x
        · rw [h, hbx]
        · exact absurd (hsame a ha b (by omega) hax hbx) hne
    have hpick : ∃ a c, a < 4 ∧ c < 4 ∧ a ≠ c ∧ a ≠ x ∧ c ≠ x := by
      rcases Nat.lt_or_ge x 2 with h | h
      · exact ⟨2, 3, by omega, by omega, by omega, by omega, by omega⟩
      · exact ⟨0, 1, by omega, by omega, by omega, by omega, by omega⟩
    obtain ⟨a, c, ha, hc, hac, hax, hcx⟩ := hpick
    have h1 := (hinv.mirror a x (by omega) (by omega)).mp (hhost a ha hax)
    have h2 := (hinv.mirror c x (by omega) (by omega)).mp (hhost c hc hcx)
    exact hac (hinv.nameInj a c (by omega) (by omega) (h1.symm.trans h2))

/-! ### Concrete runs -/

/-- Witness of C1 on `demo3`. -/
theorem mirror_symmetry_witness :
    NamesOK demo3 ∧ SlotsEmpty demo3 ∧ solve demo3 = some (true, demo3Out) ∧
      ∀ A ∈ demo3Out, ∀ B ∈ demo3Out, (A.t1 = B.name ↔ B.t2 = A.name) :=
  ⟨by decide, by decide, by decide,
    mirror_symmetry demo3 demo3Out (by decide) (by decide) (by decide)⟩

/-- Witness of C2 on `demo3`. -/
theorem group_exclusion_witness :
    NamesOK demo3 ∧ SlotsEmpty demo3 ∧ solve demo3 = some (true, demo3Out) ∧
      ∀ A ∈ demo3Out, ∀ B ∈ demo3Out,
        (A.t1 = B.name ∨ A.t2 = B.name) → A.country ≠ B.country :=
  ⟨by decide, by decide, by decide,
    group_exclusion demo3 demo3Out (by decide) (by decide) (by decide)⟩

/-- Witness of C3 on `demo3`. -/
theorem no_duplicate_pairing_witness :
    NamesOK demo3 ∧ SlotsEmpty demo3 ∧ solve demo3 = some (true, demo3Out) ∧
      ((∀ A ∈ demo3Out, A.t1 ≠ A.t2) ∧
        ∀ A ∈ demo3Out, ∀ B ∈ demo3Out, ¬ (A.t1 = B.name ∧ B.t1 = A.name)) :=
  ⟨by decide, by decide, by decide,
    no_duplicate_pairing demo3 demo3Out (by decide) (by decide) (by decide)⟩

/-- Witness of C4 on `demo3`. -/
theorem success_complete_witness :
    solve demo3 = some (true, demo3Out) ∧ ∀ A ∈ demo3Out, A.t1 ≠ "" ∧ A.t2 ≠ "" :=
  ⟨by decide, success_complete demo3 demo3Out (by decide)⟩

/-- Witness of C5 on `demo31`, a collection on which the driver fails. -/
theorem no_self_pairing_witness :
    NamesOK demo31 ∧ SlotsEmpty demo31 ∧
      ∃ b out, solve demo31 = some (b, out) ∧ ∀ A ∈ out, A.t1 ≠ A.name ∧ A.t2 ≠ A.name :=
  ⟨by decide, by decide, no_self_pairing demo31 (by decide) (by decide)⟩

/-- Witness of C6 on `demo4`, at `idx = 0` with more fuel than needed. -/
theorem termination_witness :
    (0 ≤ demo4.length ∧ demo4.length - 0 < 7) ∧
      ∃ b out, assignMatchesBT (demo4.length - 0 + 1) demo4 0 = some (b, out) ∧
        out.length = demo4.length ∧ assignMatchesBT 7 demo4 0 = some (b, out) :=
  ⟨by decide, termination demo4 0 (by decide) 7 (by decide)⟩

/-- Witness of C10 on `demo31`: the lone team is at index 2. -/
theorem scenario_three_one_witness :
    (demo31.length = 4 ∧ NamesOK demo31 ∧ SlotsEmpty demo31) ∧
      solve demo31 = some (false, demo31) :=
  ⟨by decide, scenario_three_one demo31 (by decide) (by decide) (by decide) 2 (by decide)
    (by decide) (by decide)⟩

/-! ### Completeness of the search

With ties in index order: a branch on which the first team of `teamOrder` is always given a
partner that passes `lookahead` makes the driver return `true`; such a branch is then built
from a schedule laid out along the index order. -/

theorem tryT1_finds (next : List CalendarTeam → Outcome) (n : Nat)
    (hs : ∀ ts, Sound ts (next ts)) (hr : ∀ ts, ts.length = n → Returns n (next ts))
    (T i : Nat) (cands : List Nat) (ts : List CalendarTeam) (hl : ts.length = n)
    (h1 : (getT ts T).t1 = "") (hi : i ∈ cands) (h2 : (getT ts i).t2 = "")
    (hla : lookahead (assignT1 ts T i) = true)
    (hwin : ∃ out, next (assignT1 ts T i) = some (true, out)) :
    ∃ out, tryT1 next T cands ts = some (true, out) := by
  induction cands with
  | nil => simp at hi
  | cons c rest ih =>
    unfold tryT1
    by_cases hc2 : (getT ts c).t2 = ""
    · simp only [hc2, ne_eq, not_true_eq_false, if_false]
      have hundo := undoT1_assignT1 ts T c h1 hc2
      by_cases hci : c = i
      · subst hci
        obtain ⟨out, hout⟩ := hwin
        simp only [hla, if_true, hout]
        exact ⟨out, rfl⟩
      · have hir : i ∈ rest := by
          rcases List.mem_cons.mp hi with h | h
          · exact absurd h.symm hci
          · exact h
        by_cases hl2 : lookahead (assignT1 ts T c) = true
        · simp only [hl2, if_true]
          obtain ⟨b, out, hx, -⟩ := hr (assignT1 ts T c) (by rw [length_assignT1, hl])
          have hsd := hs (assignT1 ts T c)
          rw [hx] at hsd ⊢
          cases b
          · simp only [Sound] at hsd
            simp only
            rw [hsd, hundo]
            exact ih hir
          · exact ⟨out, rfl⟩
        · simp only [hl2, Bool.false_eq_true, if_false]
          rw [hundo]
          exact ih hir
    · simp only [ne_eq, hc2, not_false_eq_true, if_true]
      have hir : i ∈ rest := by
        rcases List.mem_cons.mp hi with h | h
        · subst h; exact absurd h2 hc2
        · exact h
      exact ih hir

theorem tryT2_finds (next : List CalendarTeam → Outcome) (n : Nat)
    (hs : ∀ ts, Sound ts (next ts)) (hr : ∀ ts, ts.length = n → Returns n (next ts))
    (T i : Nat) (cands : List Nat) (ts : List CalendarTeam) (hl : ts.length = n)
    (h1 : (getT ts T).t2 = "") (hi : i ∈ cands) (h2 : (getT ts i).t1 = "")
    (hla : lookahead (assignT2 ts T i) = true)
    (hwin : ∃ out, next (assignT2 ts T i) = some (true, out)) :
    ∃ out, tryT2 next T cands ts = some (true, out) := by
  induction cands with
  | nil => simp at hi
  | cons c rest ih =>
    unfold tryT2
    by_cases hc2 : (getT ts c).t1 = ""
    · simp only [hc2, ne_eq, not_true_eq_false, if_false]
      have hundo := undoT2_assignT2 ts T c h1 hc2
      by_cases hci : c = i
      · subst hci
        obtain ⟨out, hout⟩ := hwin
        simp only [hla, if_true, hout]
        exact ⟨out, rfl⟩
      · have hir : i ∈ rest := by
          rcases List.mem_cons.mp hi with h | h
          · exact absurd h.symm hci
          · exact h
        by_cases hl2 : lookahead (assignT2 ts T c) = true
        · simp only [hl2, if_true]
          obtain ⟨b, out, hx, -⟩ := hr (assignT2 ts T c) (by rw [length_assignT2, hl])
          have hsd := hs (assignT2 ts T c)
          rw [hx] at hsd ⊢
          cases b
          · simp only [Sound] at hsd
            simp only
            rw [hsd, hundo]
            exact ih hir
          · exact ⟨out, rfl⟩
        · simp only [hl2, Bool.false_eq_true, if_false]
          rw [hundo]
          exact ih hir
    · simp only [ne_eq, hc2, not_false_eq_true, if_true]
      have hir : i ∈ rest := by
        rcases List.mem_cons.mp hi with h | h
        · subst h; exact absurd h2 hc2
        · exact h
      exact ih hir

theorem candidate_slot (team : CalendarTeam) (ts : List CalendarTeam) (i : Nat) :
    (i ∈ findPossibleOpponents team ts "t1" → (getT ts i).t2 = "") ∧
      (i ∈ findPossibleOpponents team ts "t2" → (getT ts i).t1 = "") := by
  constructor
  · intro h
    rw [mem_findPossibleOpponents, mem_candidateIndices, isCandidate_iff] at h
    obtain ⟨-, -, -, -, -, -, -, hs⟩ := h
    rcases hs with ⟨-, h⟩ | ⟨h, -⟩
    · exact h
    · exact absurd h (by decide)
  · intro h
    rw [mem_findPossibleOpponents, mem_candidateIndices, isCandidate_iff] at h
    obtain ⟨-, -, -, -, -, -, -, hs⟩ := h
    rcases hs with ⟨h, -⟩ | ⟨-, h⟩
    · exact absurd h (by decide)
    · exact h

theorem wins_true (ts : List CalendarTeam) (idx : Nat) (hw : Wins ts idx) :
    ∀ fuel, ts.length - idx < fuel → ∃ out, assignMatchesBT fuel ts idx = some (true, out) := by
  induction hw with
  | done ts hf =>
    intro fuel hfuel
    cases fuel with
    | zero => omega
    | succ fuel =>
      refine ⟨ts, ?_⟩
      simp [assignMatchesBT, hf]
  | host ts idx T i rest hord h1 hc hla _ ih =>
    intro fuel hfuel
    have hT := mem_teamOrder ts idx T (by rw [hord]; exact List.mem_cons_self _ _)
    cases fuel with
    | zero => omega
    | succ fuel =>
      have hne : idx ≠ ts.length := by omega
      have hs : ∀ ts2, Sound ts2 (assignMatchesBT fuel ts2 (idx + 1)) :=
        fun ts2 => assignMatchesBT_sound fuel ts2 (idx + 1)
      have hr : ∀ ts2 : List CalendarTeam, ts2.length = ts.length →
          Returns ts.length (assignMatchesBT fuel ts2 (idx + 1)) := by
        intro ts2 h2
        have := assignMatchesBT_returns fuel ts2 (idx + 1) (by omega) (by omega)
        rw [h2] at this
        exact this
      have hwin := ih fuel (by rw [length_assignT1]; omega)
      obtain ⟨out, hout⟩ := tryT1_finds _ ts.length hs hr T i _ ts rfl h1 hc
        ((candidate_slot _ ts i).1 hc) hla hwin
      refine ⟨out, ?_⟩
      unfold assignMatchesBT
      rw [if_neg hne, hord]
      unfold orderLoop
      rw [if_neg (by simp [h1])]
      unfold tryTeam
      simp only [h1, if_true, hout]
  | guest ts idx T i rest hord h2 hc hla _ ih =>
    intro fuel hfuel
    have hT := mem_teamOrder ts idx T (by rw [hord]; exact List.mem_cons_self _ _)
    cases fuel with
    | zero => omega
    | succ fuel =>
      have hne : idx ≠ ts.length := by omega
      have hs : ∀ ts2, Sound ts2 (assignMatchesBT fuel ts2 (idx + 1)) :=
        fun ts2 => assignMatchesBT_sound fuel ts2 (idx + 1)
      have hr : ∀ ts2 : List CalendarTeam, ts2.length = ts.length →
          Returns ts.length (assignMatchesBT fuel ts2 (idx + 1)) := by
        intro ts2 h2
        have := assignMatchesBT_returns fuel ts2 (idx + 1) (by omega) (by omega)
        rw [h2] at this
        exact this
      have hwin := ih fuel (by rw [length_assignT2]; omega)
      obtain ⟨out, hout⟩ := tryT2_finds _ ts.length hs hr T i _ ts rfl h2 hc
        ((candidate_slot _ ts i).2 hc) hla hwin
      unfold assignMatchesBT
      rw [if_neg hne, hord]
      unfold orderLoop
      rw [if_neg (by simp [h2])]
      unfold tryTeam
      by_cases h1 : (getT ts T).t1 = ""
      · simp only [h1, if_true]
        obtain ⟨b, out1, hx, -⟩ := tryT1_returns _ ts.length hr T
          (findPossibleOpponents (getT ts T) ts "t1") ts rfl
        have hsd := tryT1_sound _ hs T (findPossibleOpponents (getT ts T) ts "t1") ts hT.2 h1
          (fun _ h => h)
        rw [hx] at hsd ⊢
        cases b
        · simp only [Sound] at hsd
          subst hsd
          simp only [h2, if_true]
          exact ⟨out, hout⟩
        · exact ⟨out1, rfl⟩
      · simp only [h1, if_false, h2, if_true]
        exact ⟨out, hout⟩

theorem insertionSort_head (f : Nat → Nat) (pre post : List Nat) (m : Nat)
    (h1 : ∀ x ∈ pre, f m < f x) (h2 : ∀ x ∈ post, f m ≤ f x) :
    ∃ t, (pre ++ m :: post).insertionSort (fun a b => f a ≤ f b) = m :: t := by
  induction pre with
  | nil =>
    simp only [List.nil_append, List.insertionSort]
    have hall : ∀ x ∈ post.insertionSort (fun a b => f a ≤ f b), f m ≤ f x := by
      intro x hx
      exact h2 x ((List.mem_insertionSort _).mp hx)
    cases hp : post.insertionSort (fun a b => f a ≤ f b) with
    | nil => exact ⟨[], rfl⟩
    | cons b t =>
      refine ⟨b :: t, ?_⟩
      have hb : f m ≤ f b := hall b (by rw [hp]; exact List.mem_cons_self _ _)
      simp [List.orderedInsert, hb]
  | cons a pre ih =>
    obtain ⟨t, ht⟩ := ih (fun x hx => h1 x (List.mem_cons_of_mem _ hx))
    have ha : ¬ f a ≤ f m := by
      have := h1 a (List.mem_cons_self _ _)
      omega
    refine ⟨List.orderedInsert (fun a b => f a ≤ f b) a t, ?_⟩
    rw [List.cons_append, List.insertionSort, ht]
    simp [List.orderedInsert, ha]

theorem teamOrder_head (ts : List CalendarTeam) (idx m : Nat) (h1 : idx ≤ m)
    (h2 : m < ts.length)
    (hlt : ∀ i, idx ≤ i → i < m → (getT ts m).matchesAssigned < (getT ts i).matchesAssigned)
    (hle : ∀ i, m < i → i < ts.length →
      (getT ts m).matchesAssigned ≤ (getT ts i).matchesAssigned) :
    ∃ rest, teamOrder ts idx = m :: rest := by
  unfold teamOrder
  have hsplit : List.range' idx (ts.length - idx) =
      List.range' idx (m - idx) ++ m :: List.range' (m + 1) (ts.length - m - 1) := by
    have e1 : ts.length - idx = ((ts.length - m - 1) + 1) + (m - idx) := by omega
    have e2 : idx + (m - idx) = m := by omega
    have e3 := List.range'_append_1 idx (m - idx) ((ts.length - m - 1) + 1)
    rw [e1, ← e3, e2, List.range'_succ]
  rw [hsplit]
  apply insertionSort_head (fun a => (getT ts a).matchesAssigned)
  · intro x hx
    rw [List.mem_range'_1] at hx
    exact hlt x hx.1 (by omega)
  · intro x hx
    rw [List.mem_range'_1] at hx
    exact hle x (by omega) (by omega)

theorem ext_getT (l1 l2 : List CalendarTeam) (hl : l1.length = l2.length)
    (h : ∀ i, i < l1.length → getT l1 i = getT l2 i) : l1 = l2 := by
  apply List.ext_getElem hl
  intro i h1 h2
  rw [← getT_of_lt l1 i h1, ← getT_of_lt l2 i h2]
  exact h i h1

theorem length_stateOf (ts : List CalendarTeam) (h g : Nat → Nat) (sel : Nat → Bool) :
    (stateOf ts h g sel).length = ts.length := by
  simp [stateOf]

theorem getT_stateOf (ts : List CalendarTeam) (h g : Nat → Nat) (sel : Nat → Bool) (i : Nat)
    (hi : i < ts.length) :
    getT (stateOf ts h g sel) i =
      ⟨(getT ts i).name, (getT ts i).country,
        if sel i = true then (getT ts (h i)).name else "",
        if sel (g i) = true then (getT ts (g i)).name else ""⟩ := by
  rw [getT_of_lt _ i (by rw [length_stateOf]; exact hi)]
  simp [stateOf]

theorem stateOf_congr (ts : List CalendarTeam) (h g : Nat → Nat) (sel sel2 : Nat → Bool)
    (hg : ∀ i, i < ts.length → g i < ts.length)
    (hs : ∀ i, i < ts.length → sel i = sel2 i) :
    stateOf ts h g sel = stateOf ts h g sel2 := by
  apply ext_getT
  · simp [length_stateOf]
  · intro i hi
    rw [length_stateOf] at hi
    rw [getT_stateOf ts h g sel i hi, getT_stateOf ts h g sel2 i hi, hs i hi, hs (g i) (hg i hi)]

theorem stateOf_empty (ts : List CalendarTeam) (h g : Nat → Nat) (he : SlotsEmpty ts) :
    stateOf ts h g (fun _ => false) = ts := by
  apply ext_getT
  · simp [length_stateOf]
  · intro i hi
    rw [length_stateOf] at hi
    rw [getT_stateOf ts h g _ i hi]
    have hm : getT ts i ∈ ts := by
      rw [getT_of_lt ts i hi]; exact List.getElem_mem _
    have := he _ hm
    cases hx : getT ts i
    rw [hx] at this
    simp_all

theorem team_ext (a b : CalendarTeam) (h1 : a.name = b.name) (h2 : a.country = b.country)
    (h3 : a.t1 = b.t1) (h4 : a.t2 = b.t2) : a = b := by
  cases a; cases b; simp_all

theorem assignT1_stateOf (ts : List CalendarTeam) (h g : Nat → Nat) (inU : Nat → Bool)
    (L : Nat) (hp : PlanOK ts h g inU L) (sel : Nat → Bool) (T : Nat) (hT : T < ts.length) :
    assignT1 (stateOf ts h g sel) T (h T) = stateOf ts h g (Function.update sel T true) := by
  have hX := hp.hlt T hT
  apply ext_getT
  · simp [length_stateOf, length_assignT1]
  · intro i hi
    rw [length_assignT1, length_stateOf] at hi
    apply team_ext
    · rw [name_assignT1, getT_stateOf ts h g _ i hi, getT_stateOf ts h g _ i hi]
    · rw [country_assignT1, getT_stateOf ts h g _ i hi, getT_stateOf ts h g _ i hi]
    · rw [t1_assignT1 _ T (h T) i (by rw [length_stateOf]; exact hT),
        getT_stateOf ts h g _ i hi, getT_stateOf ts h g _ i hi,
        getT_stateOf ts h g _ (h T) hX]
      by_cases hiT : i = T
      · subst hiT; simp
      · simp [hiT, Function.update_apply]
    · rw [t2_assignT1 _ T (h T) i (by rw [length_stateOf]; exact hX),
        getT_stateOf ts h g _ i hi, getT_stateOf ts h g _ i hi,
        getT_stateOf ts h g _ T hT]
      by_cases hiX : i = h T
      · subst hiX
        rw [hp.gh T hT]
        simp
      · have hgi : g i ≠ T := by
          intro hc
          apply hiX
          rw [← hc, hp.hg i hi]
        simp [hiX, hgi, Function.update_apply]

theorem assignT2_stateOf (ts : List CalendarTeam) (h g : Nat → Nat) (inU : Nat → Bool)
    (L : Nat) (hp : PlanOK ts h g inU L) (sel : Nat → Bool) (T : Nat) (hT : T < ts.length) :
    assignT2 (stateOf ts h g sel) T (g T) = stateOf ts h g (Function.update sel (g T) true) := by
  have hY := hp.glt T hT
  apply ext_getT
  · simp [length_stateOf, length_assignT2]
  · intro i hi
    rw [length_assignT2, length_stateOf] at hi
    apply team_ext
    · rw [name_assignT2, getT_stateOf ts h g _ i hi, getT_stateOf ts h g _ i hi]
    · rw [country_assignT2, getT_stateOf ts h g _ i hi, getT_stateOf ts h g _ i hi]
    · rw [t1_assignT2 _ T (g T) i (by rw [length_stateOf]; exact hY),
        getT_stateOf ts h g _ i hi, getT_stateOf ts h g _ i hi,
        getT_stateOf ts h g _ T hT]
      by_cases hiY : i = g T
      · subst hiY
        simp [hp.hg T hT]
      · simp [hiY, Function.update_apply]
    · rw [t2_assignT2 _ T (g T) i (by rw [length_stateOf]; exact hT),
        getT_stateOf ts h g _ i hi, getT_stateOf ts h g _ i hi,
        getT_stateOf ts h g _ (g T) hY]
      by_cases hiT : i = T
      · subst hiT; simp
      · have hgi : g i ≠ g T := by
          intro hc
          apply hiT
          rw [← hp.hg i hi, hc, hp.hg T hT]
        simp [hiT, hgi, Function.update_apply]

section Plan

variable (ts : List CalendarTeam) (h g : Nat → Nat) (inU : Nat → Bool) (L : Nat)

theorem plan_h_ne (hp : PlanOK ts h g inU L) (i : Nat) (hi : i < ts.length) : h i ≠ i := by
  intro hc
  have := hp.cty i hi
  rw [hc] at this
  exact this rfl

theorem plan_g_ne (hp : PlanOK ts h g inU L) (i : Nat) (hi : i < ts.length) : g i ≠ i := by
  intro hc
  have := plan_h_ne ts h g inU L hp (g i) (hp.glt i hi)
  rw [hp.hg i hi] at this
  exact this hc.symm

theorem plan_h_ne_g (hp : PlanOK ts h g inU L) (i : Nat) (hi : i < ts.length) :
    h i ≠ g i := by
  intro hc
  apply hp.no2 i hi
  rw [hc, hp.hg i hi]

theorem plan_gg_ne (hp : PlanOK ts h g inU L) (i : Nat) (hi : i < ts.length) :
    g (g i) ≠ i := by
  intro hc
  apply plan_h_ne_g ts h g inU L hp i hi
  have := congrArg h hc
  rw [hp.hg (g i) (hp.glt i hi)] at this
  exact this.symm

theorem cand_host (hp : PlanOK ts h g inU L)
    (hinj : ∀ a b, a < ts.length → b < ts.length →
      (getT ts a).name = (getT ts b).name → a = b)
    (hne : ∀ a, a < ts.length → (getT ts a).name ≠ "")
    (sel : Nat → Bool) (i : Nat) (hi : i < ts.length) (hsel : sel i = false) :
    h i ∈ findPossibleOpponents (getT (stateOf ts h g sel) i) (stateOf ts h g sel) "t1" := by
  have hX := hp.hlt i hi
  rw [mem_findPossibleOpponents, mem_candidateIndices, isCandidate_iff, length_stateOf,
    getT_stateOf ts h g sel i hi, getT_stateOf ts h g sel (h i) hX]
  simp only [hsel, hp.gh i hi, Bool.false_eq_true, if_false]
  refine ⟨hX, ?_, hp.cty i hi, ?_, ?_, ?_, ?_, ?_⟩
  · exact fun hc => plan_h_ne ts h g inU L hp i hi (hinj _ _ hX hi hc)
  · exact fun hc => hne _ hX hc.symm
  · split
    · exact fun hc => plan_h_ne_g ts h g inU L hp i hi (hinj _ _ (hp.glt i hi) hX hc).symm
    · exact fun hc => hne _ hX hc.symm
  · split
    · exact fun hc => hp.no2 i hi (hinj _ _ (hp.hlt _ hX) hi hc)
    · exact fun hc => hne _ hi hc.symm
  · exact fun hc => hne _ hi hc.symm
  · simp

theorem cand_guest (hp : PlanOK ts h g inU L)
    (hinj : ∀ a b, a < ts.length → b < ts.length →
      (getT ts a).name = (getT ts b).name → a = b)
    (hne : ∀ a, a < ts.length → (getT ts a).name ≠ "")
    (sel : Nat → Bool) (i : Nat) (hi : i < ts.length) (hsel : sel (g i) = false) :
    g i ∈ findPossibleOpponents (getT (stateOf ts h g sel) i) (stateOf ts h g sel) "t2" := by
  have hY := hp.glt i hi
  rw [mem_findPossibleOpponents, mem_candidateIndices, isCandidate_iff, length_stateOf,
    getT_stateOf ts h g sel i hi, getT_stateOf ts h g sel (g i) hY]
  simp only [hsel, hp.hg i hi, Bool.false_eq_true, if_false]
  refine ⟨hY, ?_, ?_, ?_, ?_, ?_, ?_, ?_⟩
  · exact fun hc => plan_g_ne ts h g inU L hp i hi (hinj _ _ hY hi hc)
  · have := hp.cty (g i) hY
    rw [hp.hg i hi] at this
    exact fun hc => this hc.symm
  · split
    · exact fun hc => plan_h_ne_g ts h g inU L hp i hi (hinj _ _ (hp.hlt i hi) hY hc)
    · exact fun hc => hne _ hY hc.symm
  · exact fun hc => hne _ hY hc.symm
  · exact fun hc => hne _ hi hc.symm
  · split
    · exact fun hc => plan_gg_ne ts h g inU L hp i hi (hinj _ _ (hp.glt _ hY) hi hc)
    · exact fun hc => hne _ hi hc.symm
  · simp

end Plan

section Plan2

variable (ts : List CalendarTeam) (h g : Nat → Nat) (inU : Nat → Bool) (L : Nat)

theorem duplicateMatch_stateOf (hp : PlanOK ts h g inU L)
    (hinj : ∀ a b, a < ts.length → b < ts.length →
      (getT ts a).name = (getT ts b).name → a = b)
    (hne : ∀ a, a < ts.length → (getT ts a).name ≠ "")
    (sel : Nat → Bool) : duplicateMatch (stateOf ts h g sel) = false := by
  rw [Bool.eq_false_iff]
  intro hd
  unfold duplicateMatch at hd
  rw [List.any_eq_true] at hd
  obtain ⟨i, hi, hd⟩ := hd
  rw [List.any_eq_true] at hd
  obtain ⟨j, hj, hd⟩ := hd
  rw [length_stateOf, List.mem_range] at hi hj
  rw [Bool.and_eq_true, decide_eq_true_eq, decide_eq_true_eq,
    getT_stateOf ts h g sel i hi, getT_stateOf ts h g sel j hj] at hd
  simp only at hd
  rcases hd.2 with ⟨h1, h2⟩ | ⟨h1, h2⟩
  · by_cases si : sel i = true
    · by_cases sj : sel j = true
      · simp only [si, sj, if_true] at h1 h2
        have e1 := hinj _ _ (hp.hlt i hi) hj h1
        have e2 := hinj _ _ (hp.hlt j hj) hi h2
        apply hp.no2 i hi
        rw [e1, e2]
      · simp only [sj, if_false] at h2
        exact hne _ hi h2.symm
    · simp only [si, if_false] at h1
      exact hne _ hj h1.symm
  · by_cases si : sel (g i) = true
    · by_cases sj : sel (g j) = true
      · simp only [si, sj, if_true] at h1 h2
        have e1 := hinj _ _ (hp.glt i hi) hj h1
        have e2 := hinj _ _ (hp.glt j hj) hi h2
        apply plan_gg_ne ts h g inU L hp i hi
        rw [e1, e2]
      · simp only [sj, if_false] at h2
        exact hne _ hi h2.symm
    · simp only [si, if_false] at h1
      exact hne _ hj h1.symm

theorem t1_stateOf (sel : Nat → Bool) (i : Nat) (hi : i < ts.length) :
    (getT (stateOf ts h g sel) i).t1 = if sel i = true then (getT ts (h i)).name else "" := by
  rw [getT_stateOf ts h g sel i hi]

theorem t2_stateOf (sel : Nat → Bool) (i : Nat) (hi : i < ts.length) :
    (getT (stateOf ts h g sel) i).t2 =
      if sel (g i) = true then (getT ts (g i)).name else "" := by
  rw [getT_stateOf ts h g sel i hi]

theorem lookahead_stateOf (hp : PlanOK ts h g inU L)
    (hinj : ∀ a b, a < ts.length → b < ts.length →
      (getT ts a).name = (getT ts b).name → a = b)
    (hne : ∀ a, a < ts.length → (getT ts a).name ≠ "")
    (sel : Nat → Bool) : lookahead (stateOf ts h g sel) = true := by
  have hany : (stateOf ts h g sel).any (lookaheadFails (stateOf ts h g sel)) = false := by
    rw [Bool.eq_false_iff]
    intro hd
    rw [List.any_eq_true] at hd
    obtain ⟨t, ht, hf⟩ := hd
    obtain ⟨i, hi, rfl⟩ := exists_index _ t ht
    rw [length_stateOf] at hi
    have hch := cand_host ts h g inU L hp hinj hne sel i hi
    have hcg := cand_guest ts h g inU L hp hinj hne sel i hi
    have e1 := t1_stateOf ts h g sel i hi
    have e2 := t2_stateOf ts h g sel i hi
    have c1 : ¬ ((getT (stateOf ts h g sel) i).t1 ≠ "" ∧
        (getT (stateOf ts h g sel) i).t1 = (getT (stateOf ts h g sel) i).t2) := by
      rintro ⟨ha, hb⟩
      rw [e1, e2] at hb
      rw [e1] at ha
      by_cases si : sel i = true
      · by_cases sg : sel (g i) = true
        · simp only [si, sg, if_true] at hb
          exact plan_h_ne_g ts h g inU L hp i hi (hinj _ _ (hp.hlt i hi) (hp.glt i hi) hb)
        · simp only [si, sg, if_true, if_false] at hb
          exact hne _ (hp.hlt i hi) hb
      · simp only [si, if_false] at ha
        exact ha rfl
    have c2 : ¬ ((getT (stateOf ts h g sel) i).t1 = "" ∧
        findPossibleOpponents (getT (stateOf ts h g sel) i) (stateOf ts h g sel) "t1" = []) := by
      rintro ⟨ha, hb⟩
      rw [e1] at ha
      by_cases si : sel i = true
      · simp only [si, if_true] at ha
        exact hne _ (hp.hlt i hi) ha
      · have := hch (by simpa using si)
        rw [hb] at this
        simp at this
    have c3 : ¬ ((getT (stateOf ts h g sel) i).t2 = "" ∧
        findPossibleOpponents (getT (stateOf ts h g sel) i) (stateOf ts h g sel) "t2" = []) := by
      rintro ⟨ha, hb⟩
      rw [e2] at ha
      by_cases sg : sel (g i) = true
      · simp only [sg, if_true] at ha
        exact hne _ (hp.glt i hi) ha
      · have := hcg (by simpa using sg)
        rw [hb] at this
        simp at this
    unfold lookaheadFails at hf
    rw [if_neg c1, if_neg c2, if_neg c3] at hf
    exact absurd hf (by simp)
  unfold lookahead
  rw [hany, duplicateMatch_stateOf ts h g inU L hp hinj hne sel]
  rfl

theorem finalCheck_stateOf (hp : PlanOK ts h g inU L)
    (hinj : ∀ a b, a < ts.length → b < ts.length →
      (getT ts a).name = (getT ts b).name → a = b)
    (hne : ∀ a, a < ts.length → (getT ts a).name ≠ "")
    (sel : Nat → Bool) (hall : ∀ i, i < ts.length → sel i = true) :
    finalCheck (stateOf ts h g sel) = true := by
  have hany : (stateOf ts h g sel).any (fun t => decide (t.t1 = "" ∨ t.t2 = "")) = false := by
    rw [Bool.eq_false_iff]
    intro hd
    rw [List.any_eq_true] at hd
    obtain ⟨t, ht, hf⟩ := hd
    obtain ⟨i, hi, rfl⟩ := exists_index _ t ht
    rw [length_stateOf] at hi
    rw [getT_stateOf ts h g sel i hi] at hf
    simp [hall i hi, hall (g i) (hp.glt i hi), hne _ (hp.hlt i hi), hne _ (hp.glt i hi)] at hf
  unfold finalCheck
  rw [hany, duplicateMatch_stateOf ts h g inU L hp hinj hne sel]
  rfl

theorem matches_stateOf (hp : PlanOK ts h g inU L)
    (hne : ∀ a, a < ts.length → (getT ts a).name ≠ "")
    (sel : Nat → Bool) (i : Nat) (hi : i < ts.length) :
    (getT (stateOf ts h g sel) i).matchesAssigned =
      (if sel i = true then 1 else 0) + (if sel (g i) = true then 1 else 0) := by
  rw [getT_stateOf ts h g sel i hi]
  unfold CalendarTeam.matchesAssigned
  simp only
  by_cases si : sel i = true <;> by_cases sg : sel (g i) = true <;>
    simp [si, sg, hne _ (hp.hlt i hi), hne _ (hp.glt i hi)]

end Plan2

section Play

variable (ts : List CalendarTeam) (h g : Nat → Nat) (inU : Nat → Bool) (L : Nat)

theorem update_true_mono (sel : Nat → Bool) (a i : Nat) (hs : sel i = true) :
    Function.update sel a true i = true := by
  rw [Function.update_apply]
  split
  · rfl
  · exact hs

theorem wins_phase2 (hp : PlanOK ts h g inU L)
    (hinj : ∀ a b, a < ts.length → b < ts.length →
      (getT ts a).name = (getT ts b).name → a = b)
    (hne : ∀ a, a < ts.length → (getT ts a).name ≠ "") :
    ∀ d j (sel : Nat → Bool), j + d = ts.length → L ≤ j →
      (∀ i, i < ts.length →
        (sel i = true ↔ (inU i = true ∨ (if L ≤ i then i else h i) < j))) →
      Wins (stateOf ts h g sel) j := by
  intro d
  induction d with
  | zero =>
    intro j sel hj _ hinv
    have hall : ∀ i, i < ts.length → sel i = true := by
      intro i hi
      rw [hinv i hi]
      right
      have := hp.hlt i hi
      split <;> omega
    have := Wins.done _ (finalCheck_stateOf ts h g inU L hp hinj hne sel hall)
    rw [length_stateOf] at this
    have hj2 : j = ts.length := by omega
    rw [hj2]
    exact this
  | succ d ih =>
    intro j sel hj hLj hinv
    have hjN : j < ts.length := by omega
    -- every team from `j` on has exactly one match
    have hone : ∀ i, j ≤ i → i < ts.length →
        (getT (stateOf ts h g sel) i).matchesAssigned = 1 := by
      intro i hji hi
      rw [matches_stateOf ts h g inU L hp hne sel i hi]
      by_cases hu : inU i = true
      · have s1 : sel i = true := (hinv i hi).mpr (Or.inl hu)
        have hgV := hp.upper i (by omega) hi hu
        have hgl := hp.glt i hi
        have hcut := hp.cut (g i) hgl hgV
        rw [hp.hg i hi] at hcut
        have hglt : g i < L := hcut.mpr (by omega)
        have s2 : ¬ sel (g i) = true := by
          rw [hinv (g i) hgl]
          rintro (hc | hc)
          · rw [hgV] at hc; exact absurd hc (by simp)
          · rw [if_neg (by omega), hp.hg i hi] at hc
            omega
        simp [s1, s2]
      · have hu2 : inU i = false := by simpa using hu
        have s1 : ¬ sel i = true := by
          rw [hinv i hi]
          rintro (hc | hc)
          · exact hu hc
          · rw [if_pos (by omega)] at hc
            omega
        have s2 : sel (g i) = true :=
          (hinv (g i) (hp.glt i hi)).mpr (Or.inl (hp.gV i hi hu2))
        simp [s1, s2]
    obtain ⟨rest, hord⟩ := teamOrder_head (stateOf ts h g sel) j j (le_refl _)
      (by rw [length_stateOf]; exact hjN) (fun i h1 h2 => by omega)
      (fun i h1 h2 => by
        rw [length_stateOf] at h2
        rw [hone j (le_refl _) hjN, hone i (by omega) h2])
    by_cases hu : inU j = true
    · -- `j` is hosted along its cut match
      have hgV := hp.upper j hLj hjN hu
      have hgl := hp.glt j hjN
      have hcut := hp.cut (g j) hgl hgV
      rw [hp.hg j hjN] at hcut
      have hglt : g j < L := hcut.mpr hLj
      have sg : sel (g j) = false := by
        rw [Bool.eq_false_iff]
        intro hsel
        rcases (hinv (g j) hgl).mp hsel with hc | hc
        · rw [hgV] at hc; exact absurd hc (by simp)
        · rw [if_neg (by omega), hp.hg j hjN] at hc
          omega
      have ht2 : (getT (stateOf ts h g sel) j).t2 = "" := by
        rw [t2_stateOf ts h g sel j hjN, sg]; rfl
      refine Wins.guest _ j j (g j) rest hord ht2
        (cand_guest ts h g inU L hp hinj hne sel j hjN sg) ?_ ?_
      · rw [assignT2_stateOf ts h g inU L hp sel j hjN]
        exact lookahead_stateOf ts h g inU L hp hinj hne _
      · rw [assignT2_stateOf ts h g inU L hp sel j hjN]
        apply ih (j + 1) _ (by omega) (by omega)
        intro i hi
        rw [Function.update_apply]
        by_cases hig : i = g j
        · subst hig
          simp only [if_true, true_iff]
          right
          rw [if_neg (by omega), hp.hg j hjN]
          omega
        · rw [if_neg hig, hinv i hi]
          constructor
          · rintro (hc | hc)
            · exact Or.inl hc
            · exact Or.inr (by omega)
          · rintro (hc | hc)
            · exact Or.inl hc
            · by_cases hui : inU i = true
              · exact Or.inl hui
              · right
                have hui2 : inU i = false := by simpa using hui
                by_cases hLi : L ≤ i
                · rw [if_pos hLi] at hc ⊢
                  have : i ≠ j := by
                    intro hij
                    rw [hij] at hui
                    exact hui hu
                  omega
                · rw [if_neg hLi] at hc ⊢
                  have : h i ≠ j := by
                    intro hij
                    apply hig
                    rw [← hij, hp.gh i hi]
                  omega
    · -- `j` hosts along its cut match
      have hu2 : inU j = false := by simpa using hu
      have sj : sel j = false := by
        rw [Bool.eq_false_iff]
        intro hsel
        rcases (hinv j hjN).mp hsel with hc | hc
        · exact hu hc
        · rw [if_pos hLj] at hc
          omega
      have ht1 : (getT (stateOf ts h g sel) j).t1 = "" := by
        rw [t1_stateOf ts h g sel j hjN, sj]; rfl
      refine Wins.host _ j j (h j) rest hord ht1
        (cand_host ts h g inU L hp hinj hne sel j hjN sj) ?_ ?_
      · rw [assignT1_stateOf ts h g inU L hp sel j hjN]
        exact lookahead_stateOf ts h g inU L hp hinj hne _
      · rw [assignT1_stateOf ts h g inU L hp sel j hjN]
        apply ih (j + 1) _ (by omega) (by omega)
        intro i hi
        rw [Function.update_apply]
        by_cases hij : i = j
        · subst hij
          simp only [if_true, true_iff]
          right
          rw [if_pos hLj]
          omega
        · rw [if_neg hij, hinv i hi]
          constructor
          · rintro (hc | hc)
            · exact Or.inl hc
            · exact Or.inr (by omega)
          · rintro (hc | hc)
            · exact Or.inl hc
            · by_cases hui : inU i = true
              · exact Or.inl hui
              · right
                have hui2 : inU i = false := by simpa using hui
                by_cases hLi : L ≤ i
                · rw [if_pos hLi] at hc ⊢
                  omega
                · rw [if_neg hLi] at hc ⊢
                  have : h i ≠ j := by
                    intro hc2
                    have := hp.vU i hi hui2
                    rw [hc2, hu2] at this
                    exact absurd this (by simp)
                  omega

end Play

section Play1

variable (ts : List CalendarTeam) (h g : Nat → Nat) (inU : Nat → Bool) (L : Nat)

theorem plan_L_le (hp : PlanOK ts h g inU L) : L ≤ ts.length := by
  have := Finset.card_filter_le (Finset.range ts.length) (fun i => inU i = true)
  rw [hp.cardU, Finset.card_range] at this
  exact this

theorem filter_update (sel : Nat → Bool) (a n : Nat) (ha : a < n) (hs : sel a = false) :
    ((Finset.range n).filter (fun i => Function.update sel a true i = true)).card =
      ((Finset.range n).filter (fun i => sel i = true)).card + 1 := by
  have e : (Finset.range n).filter (fun i => Function.update sel a true i = true) =
      insert a ((Finset.range n).filter (fun i => sel i = true)) := by
    ext i
    simp only [Finset.mem_filter, Finset.mem_range, Finset.mem_insert, Function.update_apply]
    by_cases hia : i = a
    · subst hia; simp [ha]
    · simp [hia]
  rw [e, Finset.card_insert_of_not_mem]
  simp [hs]

theorem exists_uncovered (hp : PlanOK ts h g inU L) (sel : Nat → Bool) (j : Nat)
    (hcard : ((Finset.range ts.length).filter (fun i => sel i = true)).card = j)
    (hj : 2 * j < ts.length) :
    ∃ i, i < ts.length ∧ sel i = false ∧ sel (g i) = false := by
  classical
  set S := (Finset.range ts.length).filter (fun i => sel i = true) with hS
  have hC : (S ∪ S.image h).card < (Finset.range ts.length).card := by
    have h1 := Finset.card_union_le S (S.image h)
    have h2 := Finset.card_image_le (s := S) (f := h)
    rw [Finset.card_range]
    omega
  have hsub : S ∪ S.image h ⊆ Finset.range ts.length := by
    intro x hx
    rw [Finset.mem_union] at hx
    rcases hx with hx | hx
    · exact (Finset.mem_filter.mp hx).1
    · obtain ⟨y, hy, rfl⟩ := Finset.mem_image.mp hx
      exact Finset.mem_range.mpr (hp.hlt y (Finset.mem_range.mp (Finset.mem_filter.mp hy).1))
  obtain ⟨i, hi, hni⟩ := Finset.exists_of_ssubset
    (Finset.ssubset_iff_subset_ne.mpr ⟨hsub, fun he => by rw [he] at hC; exact lt_irrefl _ hC⟩)
  have hiN := Finset.mem_range.mp hi
  refine ⟨i, hiN, ?_, ?_⟩
  · rw [Bool.eq_false_iff]
    intro hc
    exact hni (Finset.mem_union_left _ (Finset.mem_filter.mpr ⟨hi, hc⟩))
  · rw [Bool.eq_false_iff]
    intro hc
    apply hni
    apply Finset.mem_union_right
    refine Finset.mem_image.mpr ⟨g i, Finset.mem_filter.mpr
      ⟨Finset.mem_range.mpr (hp.glt i hiN), hc⟩, hp.hg i hiN⟩

end Play1

section Play1b

variable (ts : List CalendarTeam) (h g : Nat → Nat) (inU : Nat → Bool) (L : Nat)

theorem wins_phase1 (hp : PlanOK ts h g inU L)
    (hinj : ∀ a b, a < ts.length → b < ts.length →
      (getT ts a).name = (getT ts b).name → a = b)
    (hne : ∀ a, a < ts.length → (getT ts a).name ≠ "") :
    ∀ d j (sel : Nat → Bool), j + d = L →
      (∀ i, i < ts.length → sel i = true → inU i = true) →
      ((Finset.range ts.length).filter (fun i => sel i = true)).card = j →
      (∀ i, i < j → i < ts.length → (sel i = true ∨ sel (g i) = true)) →
      Wins (stateOf ts h g sel) j := by
  intro d
  induction d with
  | zero =>
    intro j sel hj hsub hcard _
    have hjL : j = L := by omega
    subst hjL
    have hLN := plan_L_le ts h g inU j hp
    have heq : (Finset.range ts.length).filter (fun i => sel i = true) =
        (Finset.range ts.length).filter (fun i => inU i = true) := by
      apply Finset.eq_of_subset_of_card_le
      · intro i hi
        rw [Finset.mem_filter] at hi ⊢
        exact ⟨hi.1, hsub i (Finset.mem_range.mp hi.1) hi.2⟩
      · rw [hcard, hp.cardU]
    apply wins_phase2 ts h g inU j hp hinj hne (ts.length - j) j sel (by omega) (le_refl _)
    intro i hi
    have hiff : sel i = true ↔ inU i = true := by
      have := Finset.ext_iff.mp heq i
      simp only [Finset.mem_filter, Finset.mem_range, hi, true_and] at this
      exact this
    rw [hiff]
    constructor
    · exact fun hc => Or.inl hc
    · rintro (hc | hc)
      · exact hc
      · by_cases hu : inU i = true
        · exact hu
        · exfalso
          have hu2 : inU i = false := by simpa using hu
          by_cases hLi : j ≤ i
          · rw [if_pos hLi] at hc; omega
          · rw [if_neg hLi] at hc
            have := (hp.cut i hi hu2).mp (by omega)
            omega
  | succ d ih =>
    intro j sel hj hsub hcard hcov
    have hhalf := hp.half
    have hex := exists_uncovered ts h g inU L hp sel j hcard (by omega)
    classical
    have hT := Nat.find_spec hex
    have hmin : ∀ i, i < Nat.find hex → ¬ (i < ts.length ∧ sel i = false ∧ sel (g i) = false) :=
      fun i hi => Nat.find_min hex hi
    generalize Nat.find hex = T at hT hmin
    obtain ⟨hTN, hsT, hsgT⟩ := hT
    have hjT : j ≤ T := by
      by_contra hc
      rcases hcov T (by omega) hTN with hc2 | hc2
      · rw [hsT] at hc2; exact absurd hc2 (by simp)
      · rw [hsgT] at hc2; exact absurd hc2 (by simp)
    have hm0 : (getT (stateOf ts h g sel) T).matchesAssigned = 0 := by
      rw [matches_stateOf ts h g inU L hp hne sel T hTN]
      simp [hsT, hsgT]
    obtain ⟨rest, hord⟩ := teamOrder_head (stateOf ts h g sel) j T hjT
      (by rw [length_stateOf]; exact hTN)
      (fun i h1 h2 => by
        have hiN : i < ts.length := by omega
        rw [hm0, matches_stateOf ts h g inU L hp hne sel i hiN]
        have := hmin i h2
        by_cases si : sel i = true
        · simp [si]
        · by_cases sg : sel (g i) = true
          · simp [sg]
          · exact absurd ⟨hiN, by simpa using si, by simpa using sg⟩ this)
      (fun i _ _ => by rw [hm0]; exact Nat.zero_le _)
    have hcovnew : ∀ (a : Nat), (a = T ∨ g T = a) → a < ts.length → sel a = false →
        ∀ i, i < j + 1 → i < ts.length →
        (Function.update sel a true i = true ∨ Function.update sel a true (g i) = true) := by
      intro a haT _ _ i hi hiN
      by_cases hij : i < j
      · rcases hcov i hij hiN with hc | hc
        · exact Or.inl (update_true_mono sel a i hc)
        · exact Or.inr (update_true_mono sel a (g i) hc)
      · by_cases hcv : sel i = true ∨ sel (g i) = true
        · rcases hcv with hc | hc
          · exact Or.inl (update_true_mono sel a i hc)
          · exact Or.inr (update_true_mono sel a (g i) hc)
        · have hiT : T ≤ i := by
            by_contra hlt
            have hlt2 : i < T := by omega
            apply hmin i hlt2
            refine ⟨hiN, ?_, ?_⟩
            · rw [Bool.eq_false_iff]; exact fun hc => hcv (Or.inl hc)
            · rw [Bool.eq_false_iff]; exact fun hc => hcv (Or.inr hc)
          have hiT2 : i = T := by omega
          subst hiT2
          rcases haT with ha | ha
          · left; rw [ha]; simp
          · right; rw [ha]; simp
    by_cases hu : inU T = true
    · have ht1 : (getT (stateOf ts h g sel) T).t1 = "" := by
        rw [t1_stateOf ts h g sel T hTN, hsT]; rfl
      refine Wins.host _ j T (h T) rest hord ht1
        (cand_host ts h g inU L hp hinj hne sel T hTN hsT) ?_ ?_
      · rw [assignT1_stateOf ts h g inU L hp sel T hTN]
        exact lookahead_stateOf ts h g inU L hp hinj hne _
      · rw [assignT1_stateOf ts h g inU L hp sel T hTN]
        apply ih (j + 1) _ (by omega)
        · intro i hi hs
          rw [Function.update_apply] at hs
          by_cases hiT : i = T
          · rw [hiT]; exact hu
          · rw [if_neg hiT] at hs
            exact hsub i hi hs
        · rw [filter_update sel T ts.length hTN hsT, hcard]
        · exact hcovnew T (Or.inl rfl) hTN hsT
    · have hu2 : inU T = false := by simpa using hu
      have hgl := hp.glt T hTN
      have ht2 : (getT (stateOf ts h g sel) T).t2 = "" := by
        rw [t2_stateOf ts h g sel T hTN, hsgT]; rfl
      refine Wins.guest _ j T (g T) rest hord ht2
        (cand_guest ts h g inU L hp hinj hne sel T hTN hsgT) ?_ ?_
      · rw [assignT2_stateOf ts h g inU L hp sel T hTN]
        exact lookahead_stateOf ts h g inU L hp hinj hne _
      · rw [assignT2_stateOf ts h g inU L hp sel T hTN]
        apply ih (j + 1) _ (by omega)
        · intro i hi hs
          rw [Function.update_apply] at hs
          by_cases hiT : i = g T
          · rw [hiT]; exact hp.gV T hTN hu2
          · rw [if_neg hiT] at hs
            exact hsub i hi hs
        · rw [filter_update sel (g T) ts.length hgl hsgT, hcard]
        · exact hcovnew (g T) (Or.inr rfl) hgl hsgT

theorem wins_plan (hp : PlanOK ts h g inU L) (hn : NamesOK ts) (he : SlotsEmpty ts) :
    Wins ts 0 := by
  have hinv := Inv_of_empty ts hn he
  have := wins_phase1 ts h g inU L hp hinv.nameInj hinv.nameNe L 0 (fun _ => false)
    (by omega) (fun i _ hs => absurd hs (by simp)) (by simp) (fun i hi => by omega)
  rw [stateOf_empty ts h g he] at this
  exact this

theorem solve_of_plan (hp : PlanOK ts h g inU L) (hn : NamesOK ts) (he : SlotsEmpty ts) :
    ∃ out, solve ts = some (true, out) :=
  wins_true ts 0 (wins_plan ts h g inU L hp hn he) _ (by omega)

end Play1b

/-! ### A plan for every feasible collection

If no country has more than half of the teams, Hall's theorem pairs the upper half of the
teams with the lower half and then chains the pairs into the matches of a plan. -/

theorem before_asymm (c : Nat → String) (N : Nat) (x y : String)
    (h1 : before c N x y) (h2 : before c N y x) : False := by
  unfold before at h1 h2
  rcases h1 with h1 | ⟨h1, h1b⟩ <;> rcases h2 with h2 | ⟨h2, h2b⟩
  · omega
  · omega
  · omega
  · exact lt_asymm h1b h2b

theorem before_total (c : Nat → String) (N : Nat) (x y : String) (hxy : x ≠ y) :
    before c N x y ∨ before c N y x := by
  unfold before
  rcases Nat.lt_trichotomy (classSize c N x) (classSize c N y) with h | h | h
  · exact Or.inr (Or.inl h)
  · rcases lt_or_gt_of_ne hxy with h2 | h2
    · exact Or.inl (Or.inr ⟨h, h2⟩)
    · exact Or.inr (Or.inr ⟨h.symm, h2⟩)
  · exact Or.inl (Or.inl h)

/-- The teams of country `x` split into those below `L` and those from `L` on. -/
theorem classSize_split (c : Nat → String) (N L : Nat) (hL : L ≤ N) (x : String) :
    classSize c N x = ((Finset.range L).filter (fun i => c i = x)).card +
      ((Finset.Ico L N).filter (fun i => c i = x)).card := by
  unfold classSize
  rw [← Finset.card_union_of_disjoint]
  · congr 1
    ext i
    simp only [Finset.mem_filter, Finset.mem_range, Finset.mem_union, Finset.mem_Ico]
    constructor
    · rintro ⟨h1, h2⟩
      by_cases h : i < L
      · exact Or.inl ⟨h, h2⟩
      · exact Or.inr ⟨⟨by omega, h1⟩, h2⟩
    · rintro (⟨h1, h2⟩ | ⟨⟨_, h1⟩, h2⟩)
      · exact ⟨by omega, h2⟩
      · exact ⟨h1, h2⟩
  · rw [Finset.disjoint_left]
    intro i h1 h2
    simp only [Finset.mem_filter, Finset.mem_range, Finset.mem_Ico] at h1 h2
    omega

/-- Hall's condition on a part of the indices extends to all indices when the other indices
get private values. -/
theorem hall_extend (P : ℕ → Prop) [DecidablePred P] (t : ℕ → Finset ℕ) (B : ℕ)
    (hin : ∀ a, P a → ∀ d ∈ t a, d < B)
    (hcore : ∀ s : Finset ℕ, (∀ a ∈ s, P a) → s.card ≤ (s.biUnion t).card) :
    ∀ s : Finset ℕ, s.card ≤ (s.biUnion (fun a => if P a then t a else {B + a})).card := by
  intro s
  classical
  have hsplit : s.card = (s.filter P).card + (s.filter (fun a => ¬ P a)).card :=
    (Finset.filter_card_add_filter_neg_card_eq_card P).symm
  have h1 := hcore (s.filter P) (fun a ha => (Finset.mem_filter.mp ha).2)
  have h2 : ((s.filter (fun a => ¬ P a)).image (fun a => B + a)).card =
      (s.filter (fun a => ¬ P a)).card :=
    Finset.card_image_of_injective _ (fun a b hab => by simpa using hab)
  have hdisj : Disjoint ((s.filter P).biUnion t)
      ((s.filter (fun a => ¬ P a)).image (fun a => B + a)) := by
    rw [Finset.disjoint_left]
    intro d hd1 hd2
    obtain ⟨a, ha, hda⟩ := Finset.mem_biUnion.mp hd1
    obtain ⟨b, _, hb⟩ := Finset.mem_image.mp hd2
    have := hin a (Finset.mem_filter.mp ha).2 d hda
    omega
  have hsub : ((s.filter P).biUnion t) ∪
      ((s.filter (fun a => ¬ P a)).image (fun a => B + a)) ⊆
      s.biUnion (fun a => if P a then t a else {B + a}) := by
    intro d hd
    rw [Finset.mem_union] at hd
    rw [Finset.mem_biUnion]
    rcases hd with hd | hd
    · obtain ⟨a, ha, hda⟩ := Finset.mem_biUnion.mp hd
      rw [Finset.mem_filter] at ha
      exact ⟨a, ha.1, by rw [if_pos ha.2]; exact hda⟩
    · obtain ⟨b, hb, hdb⟩ := Finset.mem_image.mp hd
      rw [Finset.mem_filter] at hb
      exact ⟨b, hb.1, by rw [if_neg hb.2]; simp [hdb]⟩
  have h3 := Finset.card_le_card hsub
  rw [Finset.card_union_of_disjoint hdisj, h2] at h3
  omega

theorem hall_cut_core (c : ℕ → String) (N : ℕ) (hstar : ∀ x, 2 * classSize c N x ≤ N)
    (s : Finset ℕ) (hs : ∀ a ∈ s, (N + 1) / 2 ≤ a ∧ a < N) :
    s.card ≤ (s.biUnion (fun a =>
      (Finset.range ((N + 1) / 2)).filter (fun d => c d ≠ c a))).card := by
  classical
  have hL : (N + 1) / 2 ≤ N := by omega
  have hsIco : s ⊆ Finset.Ico ((N + 1) / 2) N := by
    intro a ha
    exact Finset.mem_Ico.mpr (hs a ha)
  by_cases hmono : ∀ a ∈ s, ∀ b ∈ s, c a = c b
  · rcases s.eq_empty_or_nonempty with he | ⟨a0, ha0⟩
    · simp [he]
    · have hsx : s ⊆ (Finset.Ico ((N + 1) / 2) N).filter (fun i => c i = c a0) := by
        intro a ha
        exact Finset.mem_filter.mpr ⟨hsIco ha, hmono a ha a0 ha0⟩
      have h1 := Finset.card_le_card hsx
      have h2 := classSize_split c N ((N + 1) / 2) hL (c a0)
      have h3 := hstar (c a0)
      have h4 := Finset.filter_card_add_filter_neg_card_eq_card
        (s := Finset.range ((N + 1) / 2)) (fun d => c d = c a0)
      rw [Finset.card_range] at h4
      have h5 : (Finset.range ((N + 1) / 2)).filter (fun d => c d ≠ c a0) ⊆
          s.biUnion (fun a => (Finset.range ((N + 1) / 2)).filter (fun d => c d ≠ c a)) := by
        intro d hd
        exact Finset.mem_biUnion.mpr ⟨a0, ha0, hd⟩
      have h6 := Finset.card_le_card h5
      have h8 : ((Finset.range ((N + 1) / 2)).filter (fun a => ¬ c a = c a0)).card =
          ((Finset.range ((N + 1) / 2)).filter (fun d => c d ≠ c a0)).card := rfl
      omega
  · push_neg at hmono
    obtain ⟨a, ha, b, hb, hab⟩ := hmono
    have h5 : Finset.range ((N + 1) / 2) ⊆
        s.biUnion (fun a => (Finset.range ((N + 1) / 2)).filter (fun d => c d ≠ c a)) := by
      intro d hd
      rw [Finset.mem_biUnion]
      by_cases hda : c d = c a
      · exact ⟨b, hb, Finset.mem_filter.mpr ⟨hd, fun h => hab (hda.symm.trans h)⟩⟩
      · exact ⟨a, ha, Finset.mem_filter.mpr ⟨hd, hda⟩⟩
    have h6 := Finset.card_le_card h5
    have h7 := Finset.card_le_card hsIco
    rw [Finset.card_range] at h6
    rw [Nat.card_Ico] at h7
    omega

/-- A map on a set `A` extends to a map that sends each image outside `A` back to a member of
`A` it comes from and leaves the other numbers outside `A` alone. -/
theorem exists_involution (A : ℕ → Prop) (f : ℕ → ℕ) :
    ∃ mate : ℕ → ℕ, (∀ i, A i → mate i = f i) ∧
      (∀ i, ¬ A i → (∃ a, A a ∧ f a = i) → A (mate i) ∧ f (mate i) = i) ∧
      (∀ i, ¬ A i → (¬ ∃ a, A a ∧ f a = i) → mate i = i) := by
  classical
  refine ⟨fun i => if A i then f i
    else if hx : ∃ a, A a ∧ f a = i then Classical.choose hx else i, ?_, ?_, ?_⟩
  · intro i hi
    simp only [if_pos hi]
  · intro i hi hx
    simp only [if_neg hi, dif_pos hx]
    exact Classical.choose_spec hx
  · intro i hi hx
    simp only [if_neg hi, dif_neg hx]

/-- Every team from `L = (N+1)/2` on can be paired with a team below `L` of another country,
different teams with different partners; `mate` is the pairing, the teams below `L` that are
left over being their own mates. -/
theorem exists_mate (c : ℕ → String) (N : ℕ) (hstar : ∀ x, 2 * classSize c N x ≤ N) :
    ∃ mate : ℕ → ℕ,
      (∀ i, i < N → mate i < N) ∧ (∀ i, i < N → mate (mate i) = i) ∧
      (∀ i, (N + 1) / 2 ≤ i → i < N → mate i < (N + 1) / 2) ∧
      (∀ i, i < (N + 1) / 2 → mate i = i ∨ (N + 1) / 2 ≤ mate i) ∧
      (∀ i, i < N → mate i ≠ i → c (mate i) ≠ c i) := by
  classical
  have hL : (N + 1) / 2 ≤ N := by omega
  obtain ⟨f, hf, hft⟩ := (Finset.all_card_le_biUnion_card_iff_exists_injective _).mp
    (hall_extend (fun a => (N + 1) / 2 ≤ a ∧ a < N)
      (fun a => (Finset.range ((N + 1) / 2)).filter (fun d => c d ≠ c a)) N
      (fun a _ d hd => by
        have := Finset.mem_range.mp (Finset.mem_filter.mp hd).1
        omega)
      (fun s hs => hall_cut_core c N hstar s hs))
  have hfA : ∀ a, (N + 1) / 2 ≤ a ∧ a < N → f a < (N + 1) / 2 ∧ c (f a) ≠ c a := by
    intro a h
    have := hft a
    rw [if_pos h, Finset.mem_filter, Finset.mem_range] at this
    exact this
  obtain ⟨mate, m1, m2, m3⟩ := exists_involution (fun a => (N + 1) / 2 ≤ a ∧ a < N) f
  refine ⟨mate, ?_, ?_, ?_, ?_, ?_⟩
  · intro i hi
    by_cases hA : (N + 1) / 2 ≤ i ∧ i < N
    · rw [m1 i hA]
      have := (hfA i hA).1
      omega
    · by_cases hx : ∃ a, ((N + 1) / 2 ≤ a ∧ a < N) ∧ f a = i
      · exact (m2 i hA hx).1.2
      · rw [m3 i hA hx]
        exact hi
  · intro i hi
    by_cases hA : (N + 1) / 2 ≤ i ∧ i < N
    · have hfi := hfA i hA
      have hn : ¬ ((N + 1) / 2 ≤ f i ∧ f i < N) := by omega
      have h2 := m2 (f i) hn ⟨i, hA, rfl⟩
      rw [m1 i hA]
      exact hf h2.2
    · by_cases hx : ∃ a, ((N + 1) / 2 ≤ a ∧ a < N) ∧ f a = i
      · have h2 := m2 i hA hx
        rw [m1 _ h2.1]
        exact h2.2
      · rw [m3 i hA hx, m3 i hA hx]
  · intro i h1 h2
    rw [m1 i ⟨h1, h2⟩]
    exact (hfA i ⟨h1, h2⟩).1
  · intro i hi
    have hA : ¬ ((N + 1) / 2 ≤ i ∧ i < N) := by omega
    by_cases hx : ∃ a, ((N + 1) / 2 ≤ a ∧ a < N) ∧ f a = i
    · exact Or.inr (m2 i hA hx).1.1
    · exact Or.inl (m3 i hA hx)
  · intro i hi hne
    by_cases hA : (N + 1) / 2 ≤ i ∧ i < N
    · rw [m1 i hA]
      exact (hfA i hA).2
    · by_cases hx : ∃ a, ((N + 1) / 2 ≤ a ∧ a < N) ∧ f a = i
      · have h2 := m2 i hA hx
        have h3 := (hfA _ h2.1).2
        rw [h2.2] at h3
        exact fun hc => h3 hc.symm
      · exact absurd (m3 i hA hx) hne

section Counting

variable {c : ℕ → String} {N : ℕ} {mate : ℕ → ℕ}

theorem inV_mate (hm : MateOK c N mate) (u : ℕ) (hu : u < N) (hU : ¬ inV c N mate u)
    (hr : mate u ≠ u) : inV c N mate (mate u) := by
  refine ⟨by rw [hm.inv u hu]; exact fun h => hr h.symm, ?_⟩
  rw [hm.inv u hu]
  rcases before_total c N (c (mate u)) (c u) (hm.col u hu hr) with h | h
  · exact h
  · exact absurd ⟨hr, h⟩ hU

theorem not_inV_mate (hm : MateOK c N mate) (v : ℕ) (hv : v < N) (hV : inV c N mate v) :
    ¬ inV c N mate (mate v) := by
  intro h
  have h2 := h.2
  rw [hm.inv v hv] at h2
  exact before_asymm c N _ _ hV.2 h2

theorem not_inV_mate_iff (hm : MateOK c N mate) (v : ℕ) (hv : v < N) :
    ¬ inV c N mate (mate v) ↔ (inV c N mate v ∨ mate v = v) := by
  constructor
  · intro h
    by_cases hf : mate v = v
    · exact Or.inr hf
    · left
      by_contra hV
      exact h (inV_mate hm v hv hV hf)
  · rintro (h | h)
    · exact not_inV_mate hm v hv h
    · rw [h]
      exact fun hV => hV.1 h

/-- Counting along the pairing: as many teams have a mate with a property as have it. -/
theorem card_filter_mate (hm : MateOK c N mate) (P : ℕ → Prop) [DecidablePred P] :
    ((Finset.range N).filter (fun i => P (mate i))).card =
      ((Finset.range N).filter (fun i => P i)).card := by
  apply Finset.card_bij (fun i _ => mate i)
  · intro a ha
    rw [Finset.mem_filter, Finset.mem_range] at ha ⊢
    exact ⟨hm.lt a ha.1, ha.2⟩
  · intro a ha b hb hab
    rw [Finset.mem_filter, Finset.mem_range] at ha hb
    rw [← hm.inv a ha.1, ← hm.inv b hb.1, hab]
  · intro b hb
    rw [Finset.mem_filter, Finset.mem_range] at hb
    refine ⟨mate b, ?_, hm.inv b hb.1⟩
    rw [Finset.mem_filter, Finset.mem_range, hm.inv b hb.1]
    exact ⟨hm.lt b hb.1, hb.2⟩

/-- The teams without a mate: none for an even number of teams, one for an odd number. -/
theorem fix_card (hm : MateOK c N mate) :
    ((Finset.range N).filter (fun i => mate i = i)).card + N = 2 * ((N + 1) / 2) := by
  have h1 := card_filter_mate hm (fun a => (N + 1) / 2 ≤ a)
  have h2 : (Finset.range N).filter (fun i => (N + 1) / 2 ≤ mate i) =
      (Finset.range N).filter (fun i => i < (N + 1) / 2 ∧ mate i ≠ i) := by
    apply Finset.filter_congr
    intro i hi
    rw [Finset.mem_range] at hi
    constructor
    · intro h
      have h3 : i < (N + 1) / 2 := by
        by_contra h4
        have := hm.down i (by omega) hi
        omega
      exact ⟨h3, by omega⟩
    · rintro ⟨h3, h4⟩
      rcases hm.up i h3 with h5 | h5
      · exact absurd h5 h4
      · exact h5
  have h3 : ((Finset.range N).filter (fun i => (N + 1) / 2 ≤ i)).card = N - (N + 1) / 2 := by
    have := Finset.filter_card_add_filter_neg_card_eq_card (s := Finset.range N)
      (fun i => (N + 1) / 2 ≤ i)
    have h4 : (Finset.range N).filter (fun i => ¬ (N + 1) / 2 ≤ i) =
        Finset.range ((N + 1) / 2) := by
      ext i
      simp only [Finset.mem_filter, Finset.mem_range]
      omega
    rw [h4, Finset.card_range, Finset.card_range] at this
    omega
  have h5 : (Finset.range N).filter (fun i => mate i = i) =
      (Finset.range ((N + 1) / 2)).filter (fun i => mate i = i) := by
    ext i
    simp only [Finset.mem_filter, Finset.mem_range]
    constructor
    · rintro ⟨h6, h7⟩
      refine ⟨?_, h7⟩
      by_contra h8
      have := hm.down i (by omega) h6
      omega
    · rintro ⟨h6, h7⟩
      exact ⟨by omega, h7⟩
  have h6 : (Finset.range N).filter (fun i => i < (N + 1) / 2 ∧ mate i ≠ i) =
      (Finset.range ((N + 1) / 2)).filter (fun i => ¬ mate i = i) := by
    ext i
    simp only [Finset.mem_filter, Finset.mem_range]
    constructor
    · rintro ⟨_, h7, h8⟩
      exact ⟨h7, h8⟩
    · rintro ⟨h7, h8⟩
      exact ⟨by omega, h7, h8⟩
  have h7 := Finset.filter_card_add_filter_neg_card_eq_card (s := Finset.range ((N + 1) / 2))
    (fun i => mate i = i)
  rw [Finset.card_range] at h7
  rw [h2, h6] at h1
  rw [h5]
  omega

end Counting

section Counting2

variable {c : ℕ → String} {N : ℕ} {mate : ℕ → ℕ}

/-- Half of the teams, rounded up, do not host their mate. -/
theorem U_card (hm : MateOK c N mate) :
    ((Finset.range N).filter (fun i => ¬ inV c N mate i)).card = (N + 1) / 2 := by
  have h1 := Finset.filter_card_add_filter_neg_card_eq_card (s := Finset.range N)
    (fun i => inV c N mate i)
  rw [Finset.card_range] at h1
  have h2 := card_filter_mate hm (fun u => ¬ inV c N mate u ∧ mate u ≠ u)
  have h3 : (Finset.range N).filter (fun i => ¬ inV c N mate (mate i) ∧ mate (mate i) ≠ mate i)
      = (Finset.range N).filter (fun i => inV c N mate i) := by
    apply Finset.filter_congr
    intro i hi
    rw [Finset.mem_range] at hi
    rw [not_inV_mate_iff hm i hi, hm.inv i hi]
    constructor
    · rintro ⟨h4 | h4, h5⟩
      · exact h4
      · exact absurd h4.symm h5
    · intro h4
      exact ⟨Or.inl h4, fun h5 => h4.1 h5.symm⟩
  have h4 := Finset.filter_card_add_filter_neg_card_eq_card
    (s := (Finset.range N).filter (fun i => ¬ inV c N mate i)) (fun i => mate i = i)
  rw [Finset.filter_filter, Finset.filter_filter] at h4
  have h5 : (Finset.range N).filter (fun i => ¬ inV c N mate i ∧ mate i = i) =
      (Finset.range N).filter (fun i => mate i = i) := by
    apply Finset.filter_congr
    intro i _
    exact ⟨fun h => h.2, fun h => ⟨fun hV => hV.1 h, h⟩⟩
  have h6 := fix_card hm
  rw [h3] at h2
  rw [h5] at h4
  have h7 : (Finset.range N).filter (fun i => ¬ inV c N mate i ∧ ¬ mate i = i) =
      (Finset.range N).filter (fun u => ¬ inV c N mate u ∧ mate u ≠ u) := rfl
  rw [h7] at h4
  omega

/-- Among the teams that do not host their mate, those of country `x` and those whose mate is
of country `x` are together at most half of the teams, rounded up. -/
theorem SE_card (hm : MateOK c N mate) (x : String) (hx : 2 * classSize c N x ≤ N) :
    ((Finset.range N).filter (fun i => ¬ inV c N mate i ∧ c i = x)).card +
      ((Finset.range N).filter (fun i => ¬ inV c N mate i ∧ c (mate i) = x)).card ≤
      (N + 1) / 2 := by
  have h1 := card_filter_mate hm (fun v => ¬ inV c N mate (mate v) ∧ c v = x)
  have h2 : (Finset.range N).filter (fun i => ¬ inV c N mate (mate (mate i)) ∧ c (mate i) = x)
      = (Finset.range N).filter (fun i => ¬ inV c N mate i ∧ c (mate i) = x) := by
    apply Finset.filter_congr
    intro i hi
    rw [Finset.mem_range] at hi
    rw [hm.inv i hi]
  have h3 : (Finset.range N).filter (fun v => ¬ inV c N mate (mate v) ∧ c v = x) ⊆
      (Finset.range N).filter (fun v => inV c N mate v ∧ c v = x) ∪
        (Finset.range N).filter (fun v => mate v = v) := by
    intro v hv
    rw [Finset.mem_filter, Finset.mem_range] at hv
    rw [Finset.mem_union, Finset.mem_filter, Finset.mem_filter, Finset.mem_range]
    rcases (not_inV_mate_iff hm v hv.1).mp hv.2.1 with h | h
    · exact Or.inl ⟨hv.1, h, hv.2.2⟩
    · exact Or.inr ⟨hv.1, h⟩
  have h4 := (Finset.card_le_card h3).trans (Finset.card_union_le _ _)
  have h5 := Finset.filter_card_add_filter_neg_card_eq_card
    (s := (Finset.range N).filter (fun i => c i = x)) (fun i => inV c N mate i)
  rw [Finset.filter_filter, Finset.filter_filter] at h5
  have h6 : (Finset.range N).filter (fun i => c i = x ∧ inV c N mate i) =
      (Finset.range N).filter (fun v => inV c N mate v ∧ c v = x) := by
    apply Finset.filter_congr
    intro i _
    exact and_comm
  have h7 : (Finset.range N).filter (fun i => c i = x ∧ ¬ inV c N mate i) =
      (Finset.range N).filter (fun i => ¬ inV c N mate i ∧ c i = x) := by
    apply Finset.filter_congr
    intro i _
    exact and_comm
  have h8 := fix_card hm
  rw [h6, h7] at h5
  rw [h2] at h1
  unfold classSize at hx
  omega

theorem classSize_pos (c : ℕ → String) (N i : ℕ) (hi : i < N) : 1 ≤ classSize c N (c i) := by
  unfold classSize
  apply Finset.card_pos.mpr
  exact ⟨i, by rw [Finset.mem_filter, Finset.mem_range]; exact ⟨hi, rfl⟩⟩

theorem classSize_two (c : ℕ → String) (N : ℕ) (x y : String) (hxy : x ≠ y) :
    classSize c N x + classSize c N y +
      ((Finset.range N).filter (fun i => c i ≠ x ∧ c i ≠ y)).card = N := by
  unfold classSize
  have h1 := Finset.filter_card_add_filter_neg_card_eq_card (s := Finset.range N)
    (fun i => c i = x)
  have h2 := Finset.filter_card_add_filter_neg_card_eq_card
    (s := (Finset.range N).filter (fun i => ¬ c i = x)) (fun i => c i = y)
  rw [Finset.filter_filter, Finset.filter_filter, Finset.card_range] at *
  have h3 : (Finset.range N).filter (fun i => ¬ c i = x ∧ c i = y) =
      (Finset.range N).filter (fun i => c i = y) := by
    apply Finset.filter_congr
    intro i _
    exact ⟨fun h => h.2, fun h => ⟨fun h4 => hxy (h4.symm.trans h), h⟩⟩
  have h4 : (Finset.range N).filter (fun i => ¬ c i = x ∧ ¬ c i = y) =
      (Finset.range N).filter (fun i => c i ≠ x ∧ c i ≠ y) := rfl
  rw [h3] at h2
  rw [h4] at h2
  omega

theorem classSize_three (c : ℕ → String) (N : ℕ) (x y z : String) (hxy : x ≠ y) (hzx : z ≠ x)
    (hzy : z ≠ y) : classSize c N x + classSize c N y + classSize c N z ≤ N := by
  have h1 := classSize_two c N x y hxy
  have h2 : classSize c N z ≤ ((Finset.range N).filter (fun i => c i ≠ x ∧ c i ≠ y)).card := by
    unfold classSize
    apply Finset.card_le_card
    intro i hi
    rw [Finset.mem_filter] at hi ⊢
    exact ⟨hi.1, by rw [hi.2]; exact hzx, by rw [hi.2]; exact hzy⟩
  omega

/-- A country with half of the teams cannot be the guest country of one match of the pairing
and the host country of another. -/
theorem tight (hm : MateOK c N mate) (x : String) (hx : (N + 1) / 2 ≤ classSize c N x)
    (u : ℕ) (hu : u < N) (hU : ¬ inV c N mate u) (hr : mate u ≠ u) (hcu : c u = x)
    (w : ℕ) (hw : w < N) (hW : ¬ inV c N mate w) (hrw : mate w ≠ w) (hcw : c (mate w) = x) :
    False := by
  have b1 := (inV_mate hm u hu hU hr).2
  have b2 := (inV_mate hm w hw hW hrw).2
  rw [hm.inv u hu, hcu] at b1
  rw [hm.inv w hw, hcw] at b2
  have n1 : c (mate u) ≠ x := by rw [← hcu]; exact hm.col u hu hr
  have n2 : c w ≠ x := by
    intro h
    exact hm.col w hw hrw (hcw.trans h.symm)
  have s1 := classSize_two c N x (c (mate u)) (Ne.symm n1)
  by_cases hz : c w = c (mate u)
  · rw [hz] at b2
    exact before_asymm c N _ _ b1 b2
  · have s2 := classSize_three c N x (c (mate u)) (c w) (Ne.symm n1) n2 hz
    have s3 := classSize_pos c N w hw
    unfold before at b1
    omega

/-- If one team that does not host its mate is of country `x`, and the mates of all the
others are too, then `x` has half of the teams. -/
theorem class_ge_start (hm : MateOK c N mate) (x : String) (u0 : ℕ) (hu0 : u0 < N)
    (hU0 : ¬ inV c N mate u0) (hc0 : c u0 = x)
    (hall : ∀ w, w < N → ¬ inV c N mate w → w ≠ u0 → c (mate w) = x) :
    (N + 1) / 2 ≤ classSize c N x := by
  have hmem : u0 ∈ (Finset.range N).filter (fun i => ¬ inV c N mate i) := by
    rw [Finset.mem_filter, Finset.mem_range]; exact ⟨hu0, hU0⟩
  have h1 : (((Finset.range N).filter (fun i => ¬ inV c N mate i)).erase u0).card + 1 =
      (N + 1) / 2 := by
    rw [Finset.card_erase_of_mem hmem, U_card hm]
    have := Finset.card_pos.mpr ⟨u0, hmem⟩
    rw [U_card hm] at this
    omega
  have h2 : ((((Finset.range N).filter (fun i => ¬ inV c N mate i)).erase u0).image mate).card
      = (((Finset.range N).filter (fun i => ¬ inV c N mate i)).erase u0).card := by
    apply Finset.card_image_of_injOn
    intro a ha b hb hab
    have ha2 := Finset.mem_range.mp (Finset.mem_filter.mp (Finset.mem_of_mem_erase ha)).1
    have hb2 := Finset.mem_range.mp (Finset.mem_filter.mp (Finset.mem_of_mem_erase hb)).1
    rw [← hm.inv a ha2, ← hm.inv b hb2, hab]
  have h3 : u0 ∉ (((Finset.range N).filter (fun i => ¬ inV c N mate i)).erase u0).image mate := by
    intro h
    obtain ⟨w, hw, hwu⟩ := Finset.mem_image.mp h
    rw [Finset.mem_erase, Finset.mem_filter, Finset.mem_range] at hw
    have h4 : mate u0 = w := by rw [← hwu, hm.inv w hw.2.1]
    have h5 : mate u0 ≠ u0 := by rw [h4]; exact hw.1
    have h6 := inV_mate hm u0 hu0 hU0 h5
    rw [h4] at h6
    exact hw.2.2 h6
  have h4 : insert u0 ((((Finset.range N).filter (fun i => ¬ inV c N mate i)).erase u0).image
      mate) ⊆ (Finset.range N).filter (fun i => c i = x) := by
    intro a ha
    rw [Finset.mem_insert] at ha
    rw [Finset.mem_filter, Finset.mem_range]
    rcases ha with ha | ha
    · rw [ha]; exact ⟨hu0, hc0⟩
    · obtain ⟨w, hw, hwa⟩ := Finset.mem_image.mp ha
      rw [Finset.mem_erase, Finset.mem_filter, Finset.mem_range] at hw
      rw [← hwa]
      exact ⟨hm.lt w hw.2.1, hall w hw.2.1 hw.2.2 hw.1⟩
  have h5 := Finset.card_le_card h4
  rw [Finset.card_insert_of_not_mem h3, h2] at h5
  unfold classSize
  omega

/-- If the mate of a team that does not host it is of country `x`, and all the other teams
that do not host their mate are too, then `x` has half of the teams. -/
theorem class_ge_end (hm : MateOK c N mate) (x : String) (j : ℕ) (hj : j < N)
    (hUj : ¬ inV c N mate j) (hr : mate j ≠ j) (hcj : c (mate j) = x)
    (hall : ∀ w, w < N → ¬ inV c N mate w → w ≠ j → c w = x) :
    (N + 1) / 2 ≤ classSize c N x := by
  have hmem : j ∈ (Finset.range N).filter (fun i => ¬ inV c N mate i) := by
    rw [Finset.mem_filter, Finset.mem_range]; exact ⟨hj, hUj⟩
  have h1 : (((Finset.range N).filter (fun i => ¬ inV c N mate i)).erase j).card + 1 =
      (N + 1) / 2 := by
    rw [Finset.card_erase_of_mem hmem, U_card hm]
    have := Finset.card_pos.mpr ⟨j, hmem⟩
    rw [U_card hm] at this
    omega
  have h3 : mate j ∉ ((Finset.range N).filter (fun i => ¬ inV c N mate i)).erase j := by
    intro h
    rw [Finset.mem_erase, Finset.mem_filter] at h
    exact h.2.2 (inV_mate hm j hj hUj hr)
  have h4 : insert (mate j) (((Finset.range N).filter (fun i => ¬ inV c N mate i)).erase j) ⊆
      (Finset.range N).filter (fun i => c i = x) := by
    intro a ha
    rw [Finset.mem_insert] at ha
    rw [Finset.mem_filter, Finset.mem_range]
    rcases ha with ha | ha
    · rw [ha]; exact ⟨hm.lt j hj, hcj⟩
    · rw [Finset.mem_erase, Finset.mem_filter, Finset.mem_range] at ha
      exact ⟨ha.2.1, hall a ha.2.1 ha.2.2 ha.1⟩
  have h5 := Finset.card_le_card h4
  rw [Finset.card_insert_of_not_mem h3] at h5
  unfold classSize
  omega

/-- A country with half of the teams leaves no team without a mate. -/
theorem all_real (hm : MateOK c N mate) (x : String) (hx : (N + 1) / 2 ≤ classSize c N x)
    (hstar : 2 * classSize c N x ≤ N) (i : ℕ) (hi : i < N) : mate i ≠ i := by
  intro h
  have h1 := fix_card hm
  have h2 : 1 ≤ ((Finset.range N).filter (fun i => mate i = i)).card :=
    Finset.card_pos.mpr ⟨i, by rw [Finset.mem_filter, Finset.mem_range]; exact ⟨hi, h⟩⟩
  omega

end Counting2

section Hall2

variable {c : ℕ → String} {N : ℕ} {mate : ℕ → ℕ}

theorem exists_other (hm : MateOK c N mate) (hN : 3 ≤ N) (j : ℕ) :
    ∃ w, w < N ∧ ¬ inV c N mate w ∧ w ≠ j := by
  have h1 := U_card hm
  have h2 := Finset.pred_card_le_card_erase
    (s := (Finset.range N).filter (fun i => ¬ inV c N mate i)) (a := j)
  have h3 : 0 < (((Finset.range N).filter (fun i => ¬ inV c N mate i)).erase j).card := by
    omega
  obtain ⟨w, hw⟩ := Finset.card_pos.mp h3
  rw [Finset.mem_erase, Finset.mem_filter, Finset.mem_range] at hw
  exact ⟨w, hw.2.1, hw.2.2, hw.1⟩

theorem mem_succ_sets (S : Finset ℕ) (w : ℕ) :
    w ∈ S.biUnion (fun u => (Finset.range N).filter
        (fun w => ¬ inV c N mate w ∧ w ≠ u ∧ c (mate w) ≠ c u)) ↔
      ∃ u ∈ S, w < N ∧ ¬ inV c N mate w ∧ w ≠ u ∧ c (mate w) ≠ c u := by
  rw [Finset.mem_biUnion]
  constructor
  · rintro ⟨u, hu, h⟩
    rw [Finset.mem_filter, Finset.mem_range] at h
    exact ⟨u, hu, h⟩
  · rintro ⟨u, hu, h⟩
    exact ⟨u, hu, by rw [Finset.mem_filter, Finset.mem_range]; exact h⟩

/-- Hall's condition for the second choice, when the teams of `S` are all of one country. -/
theorem hall_succ_one (hm : MateOK c N mate) (hstar : ∀ x, 2 * classSize c N x ≤ N)
    (hN : 3 ≤ N) (S : Finset ℕ) (hS : ∀ u ∈ S, u < N ∧ ¬ inV c N mate u)
    (hA : ∀ u1 ∈ S, ∀ u2 ∈ S, c u1 = c u2) :
    S.card ≤ (S.biUnion (fun u => (Finset.range N).filter
      (fun w => ¬ inV c N mate w ∧ w ≠ u ∧ c (mate w) ≠ c u))).card := by
  rcases S.eq_empty_or_nonempty with he | ⟨u0, hu0⟩
  · rw [he]; simp
  by_cases h1 : ∃ u ∈ S, u ≠ u0
  · obtain ⟨u1, hu1, hne⟩ := h1
    have hQ : (Finset.range N).filter (fun w => ¬ inV c N mate w ∧ ¬ c (mate w) = c u0) ⊆
        S.biUnion (fun u => (Finset.range N).filter
          (fun w => ¬ inV c N mate w ∧ w ≠ u ∧ c (mate w) ≠ c u)) := by
      intro w hw
      rw [Finset.mem_filter, Finset.mem_range] at hw
      rw [mem_succ_sets]
      by_cases hwu : w = u0
      · refine ⟨u1, hu1, hw.1, hw.2.1, ?_, ?_⟩
        · rw [hwu]; exact Ne.symm hne
        · rw [hA u1 hu1 u0 hu0]; exact hw.2.2
      · exact ⟨u0, hu0, hw.1, hw.2.1, hwu, hw.2.2⟩
    have hE : S ⊆ (Finset.range N).filter (fun i => ¬ inV c N mate i ∧ c i = c u0) := by
      intro u hu
      rw [Finset.mem_filter, Finset.mem_range]
      exact ⟨(hS u hu).1, (hS u hu).2, hA u hu u0 hu0⟩
    have h2 := Finset.filter_card_add_filter_neg_card_eq_card
      (s := (Finset.range N).filter (fun i => ¬ inV c N mate i))
      (fun w => c (mate w) = c u0)
    rw [Finset.filter_filter, Finset.filter_filter, U_card hm] at h2
    have h3 := SE_card hm (c u0) (hstar (c u0))
    have h4 := Finset.card_le_card hQ
    have h5 := Finset.card_le_card hE
    omega
  · have hone : S.card ≤ 1 := by
      apply Finset.card_le_one.mpr
      intro a ha b hb
      have h2 : a = u0 := by
        by_contra h
        exact h1 ⟨a, ha, h⟩
      have h3 : b = u0 := by
        by_contra h
        exact h1 ⟨b, hb, h⟩
      rw [h2, h3]
    have hpos : 0 < (S.biUnion (fun u => (Finset.range N).filter
        (fun w => ¬ inV c N mate w ∧ w ≠ u ∧ c (mate w) ≠ c u))).card := by
      apply Finset.card_pos.mpr
      by_contra hemp
      have hall : ∀ w, w < N → ¬ inV c N mate w → w ≠ u0 → c (mate w) = c u0 := by
        intro w hw hW hwu
        by_contra hcw
        exact hemp ⟨w, (mem_succ_sets S w).mpr ⟨u0, hu0, hw, hW, hwu, hcw⟩⟩
      have hge := class_ge_start hm (c u0) u0 (hS u0 hu0).1 (hS u0 hu0).2 rfl hall
      obtain ⟨w, hw, hW, hwu⟩ := exists_other hm hN u0
      exact tight hm (c u0) hge u0 (hS u0 hu0).1 (hS u0 hu0).2
        (all_real hm (c u0) hge (hstar _) u0 (hS u0 hu0).1) rfl
        w hw hW (all_real hm (c u0) hge (hstar _) w hw) (hall w hw hW hwu)
    omega

/-- Hall's condition for the second choice, when `S` has teams of two countries. -/
theorem hall_succ_two (hm : MateOK c N mate) (hstar : ∀ x, 2 * classSize c N x ≤ N)
    (hN : 3 ≤ N) (S : Finset ℕ) (hS : ∀ u ∈ S, u < N ∧ ¬ inV c N mate u)
    (u1 u2 : ℕ) (hu1 : u1 ∈ S) (hu2 : u2 ∈ S) (hB : c u1 ≠ c u2) :
    S.card ≤ (S.biUnion (fun u => (Finset.range N).filter
      (fun w => ¬ inV c N mate w ∧ w ≠ u ∧ c (mate w) ≠ c u))).card := by
  have hSU : S ⊆ (Finset.range N).filter (fun i => ¬ inV c N mate i) := by
    intro u hu
    rw [Finset.mem_filter, Finset.mem_range]
    exact hS u hu
  have hUS : ∀ w, w < N → ¬ inV c N mate w → w ∉ S →
      w ∈ S.biUnion (fun u => (Finset.range N).filter
        (fun w => ¬ inV c N mate w ∧ w ≠ u ∧ c (mate w) ≠ c u)) := by
    intro w hw hW hwS
    rw [mem_succ_sets]
    by_cases h : c (mate w) = c u1
    · exact ⟨u2, hu2, hw, hW, fun e => hwS (e ▸ hu2), by rw [h]; exact hB⟩
    · exact ⟨u1, hu1, hw, hW, fun e => hwS (e ▸ hu1), h⟩
  have hbad : ∀ j ∈ S, j ∉ S.biUnion (fun u => (Finset.range N).filter
      (fun w => ¬ inV c N mate w ∧ w ≠ u ∧ c (mate w) ≠ c u)) →
      ∀ u ∈ S, u ≠ j → c u = c (mate j) := by
    intro j hj hjR u hu huj
    by_contra hcu
    exact hjR ((mem_succ_sets S j).mpr ⟨u, hu, (hS j hj).1, (hS j hj).2, Ne.symm huj,
      fun e => hcu e.symm⟩)
  have huniq : ∀ j1 ∈ S, ∀ j2 ∈ S,
      j1 ∉ S.biUnion (fun u => (Finset.range N).filter
        (fun w => ¬ inV c N mate w ∧ w ≠ u ∧ c (mate w) ≠ c u)) →
      j2 ∉ S.biUnion (fun u => (Finset.range N).filter
        (fun w => ¬ inV c N mate w ∧ w ≠ u ∧ c (mate w) ≠ c u)) → j1 = j2 := by
    intro j1 hj1 j2 hj2 hb1 hb2
    by_contra hne
    have e1 : c j2 = c (mate j1) := hbad j1 hj1 hb1 j2 hj2 (Ne.symm hne)
    have e2 : c j1 = c (mate j2) := hbad j2 hj2 hb2 j1 hj1 hne
    by_cases hs : c (mate j1) = c (mate j2)
    · have hall : ∀ u ∈ S, c u = c (mate j1) := by
        intro u hu
        by_cases huj : u = j1
        · rw [huj, e2, hs]
        · exact hbad j1 hj1 hb1 u hu huj
      exact hB ((hall u1 hu1).trans (hall u2 hu2).symm)
    · have r1 : mate j1 ≠ j1 := by
        intro h
        rw [h, e2] at hs
        exact hs rfl
      have r2 : mate j2 ≠ j2 := by
        intro h
        rw [h, e1] at hs
        exact hs rfl
      have b1 := (inV_mate hm j1 (hS j1 hj1).1 (hS j1 hj1).2 r1).2
      have b2 := (inV_mate hm j2 (hS j2 hj2).1 (hS j2 hj2).2 r2).2
      rw [hm.inv j1 (hS j1 hj1).1, e2] at b1
      rw [hm.inv j2 (hS j2 hj2).1, e1] at b2
      exact before_asymm c N _ _ b1 b2
  by_cases hlt : S.card < (N + 1) / 2
  · have hsub : (Finset.range N).filter (fun i => ¬ inV c N mate i) \
        (S \ S.biUnion (fun u => (Finset.range N).filter
          (fun w => ¬ inV c N mate w ∧ w ≠ u ∧ c (mate w) ≠ c u))) ⊆
        S.biUnion (fun u => (Finset.range N).filter
          (fun w => ¬ inV c N mate w ∧ w ≠ u ∧ c (mate w) ≠ c u)) := by
      intro w hw
      rw [Finset.mem_sdiff, Finset.mem_filter, Finset.mem_range, Finset.mem_sdiff] at hw
      by_cases hwS : w ∈ S
      · by_contra hwR
        exact hw.2 ⟨hwS, hwR⟩
      · exact hUS w hw.1.1 hw.1.2 hwS
    have hone : (S \ S.biUnion (fun u => (Finset.range N).filter
        (fun w => ¬ inV c N mate w ∧ w ≠ u ∧ c (mate w) ≠ c u))).card ≤ 1 := by
      apply Finset.card_le_one.mpr
      intro a ha b hb
      rw [Finset.mem_sdiff] at ha hb
      exact huniq a ha.1 b hb.1 ha.2 hb.2
    have h1 := Finset.le_card_sdiff
      (S \ S.biUnion (fun u => (Finset.range N).filter
        (fun w => ¬ inV c N mate w ∧ w ≠ u ∧ c (mate w) ≠ c u)))
      ((Finset.range N).filter (fun i => ¬ inV c N mate i))
    have h2 := Finset.card_le_card hsub
    rw [U_card hm] at h1
    omega
  · have hEq : S = (Finset.range N).filter (fun i => ¬ inV c N mate i) :=
      Finset.eq_of_subset_of_card_le hSU (by rw [U_card hm]; omega)
    apply Finset.card_le_card
    intro j hj
    by_contra hjR
    by_cases hr : mate j = j
    · have hall : ∀ u ∈ S, c u = c j := by
        intro u hu
        by_cases huj : u = j
        · rw [huj]
        · rw [hbad j hj hjR u hu huj, hr]
      exact hB ((hall u1 hu1).trans (hall u2 hu2).symm)
    · have hall : ∀ w, w < N → ¬ inV c N mate w → w ≠ j → c w = c (mate j) := by
        intro w hw hW hwj
        refine hbad j hj hjR w ?_ hwj
        rw [hEq, Finset.mem_filter, Finset.mem_range]
        exact ⟨hw, hW⟩
      have hge := class_ge_end hm (c (mate j)) j (hS j hj).1 (hS j hj).2 hr rfl hall
      obtain ⟨w, hw, hW, hwj⟩ := exists_other hm hN j
      exact tight hm (c (mate j)) hge w hw hW (all_real hm _ hge (hstar _) w hw)
        (hall w hw hW hwj) j (hS j hj).1 (hS j hj).2 hr rfl

/-- Hall's condition for the second choice: any set of teams that do not host their mate
has at least as many teams, not hosting their mate either, whose mate one of them can host
(another team, of another country). -/
theorem hall_succ_core (hm : MateOK c N mate) (hstar : ∀ x, 2 * classSize c N x ≤ N)
    (hN : 3 ≤ N) (S : Finset ℕ) (hS : ∀ u ∈ S, u < N ∧ ¬ inV c N mate u) :
    S.card ≤ (S.biUnion (fun u => (Finset.range N).filter
      (fun w => ¬ inV c N mate w ∧ w ≠ u ∧ c (mate w) ≠ c u))).card := by
  by_cases hB : ∃ u1 ∈ S, ∃ u2 ∈ S, c u1 ≠ c u2
  · obtain ⟨u1, hu1, u2, hu2, hne⟩ := hB
    exact hall_succ_two hm hstar hN S hS u1 u2 hu1 hu2 hne
  · apply hall_succ_one hm hstar hN S hS
    intro u1 hu1 u2 hu2
    by_contra h
    exact hB ⟨u1, hu1, u2, hu2, h⟩

end Hall2

section Hall2b

variable {c : ℕ → String} {N : ℕ} {mate : ℕ → ℕ}

/-- The second choice: a map `σ` of the teams that do not host their mate onto themselves,
with its inverse `τ`, that sends every team to another one whose mate it can host. -/
theorem exists_succ (hm : MateOK c N mate) (hstar : ∀ x, 2 * classSize c N x ≤ N)
    (hN : 3 ≤ N) :
    ∃ σ τ : ℕ → ℕ,
      (∀ u, u < N → ¬ inV c N mate u →
        σ u < N ∧ ¬ inV c N mate (σ u) ∧ σ u ≠ u ∧ c (mate (σ u)) ≠ c u) ∧
      (∀ u, u < N → ¬ inV c N mate u →
        τ u < N ∧ ¬ inV c N mate (τ u) ∧ σ (τ u) = u) ∧
      (∀ u, u < N → ¬ inV c N mate u → τ (σ u) = u) := by
  classical
  obtain ⟨f, hf, hft⟩ := (Finset.all_card_le_biUnion_card_iff_exists_injective _).mp
    (hall_extend (fun u => u < N ∧ ¬ inV c N mate u)
      (fun u => (Finset.range N).filter
        (fun w => ¬ inV c N mate w ∧ w ≠ u ∧ c (mate w) ≠ c u)) N
      (fun a _ d hd => Finset.mem_range.mp (Finset.mem_filter.mp hd).1)
      (fun s hs => hall_succ_core hm hstar hN s hs))
  have hfU : ∀ u, u < N ∧ ¬ inV c N mate u →
      f u < N ∧ ¬ inV c N mate (f u) ∧ f u ≠ u ∧ c (mate (f u)) ≠ c u := by
    intro u h
    have := hft u
    rw [if_pos h, Finset.mem_filter, Finset.mem_range] at this
    exact this
  have himg : ((Finset.range N).filter (fun i => ¬ inV c N mate i)).image f =
      (Finset.range N).filter (fun i => ¬ inV c N mate i) := by
    apply Finset.eq_of_subset_of_card_le
    · intro w hw
      obtain ⟨u, hu, huw⟩ := Finset.mem_image.mp hw
      rw [Finset.mem_filter, Finset.mem_range] at hu ⊢
      rw [← huw]
      exact ⟨(hfU u hu).1, (hfU u hu).2.1⟩
    · rw [Finset.card_image_of_injective _ hf]
  have hsurj : ∀ u, u < N ∧ ¬ inV c N mate u → ∃ w, (w < N ∧ ¬ inV c N mate w) ∧ f w = u := by
    intro u hu
    have h1 : u ∈ ((Finset.range N).filter (fun i => ¬ inV c N mate i)).image f := by
      rw [himg, Finset.mem_filter, Finset.mem_range]
      exact hu
    obtain ⟨w, hw, hwu⟩ := Finset.mem_image.mp h1
    rw [Finset.mem_filter, Finset.mem_range] at hw
    exact ⟨w, hw, hwu⟩
  refine ⟨f, fun u => if hx : ∃ w, (w < N ∧ ¬ inV c N mate w) ∧ f w = u
    then Classical.choose hx else u, ?_, ?_, ?_⟩
  · intro u h1 h2
    exact hfU u ⟨h1, h2⟩
  · intro u h1 h2
    have hx := hsurj u ⟨h1, h2⟩
    simp only [dif_pos hx]
    exact ⟨(Classical.choose_spec hx).1.1, (Classical.choose_spec hx).1.2,
      (Classical.choose_spec hx).2⟩
  · intro u h1 h2
    have hx : ∃ w, (w < N ∧ ¬ inV c N mate w) ∧ f w = f u := ⟨u, ⟨h1, h2⟩, rfl⟩
    simp only [dif_pos hx]
    exact hf (Classical.choose_spec hx).2

theorem fixed_unique (hm : MateOK c N mate) (i w : ℕ) (hi : i < N) (hw : w < N)
    (h1 : mate i = i) (h2 : mate w = w) : i = w := by
  by_contra hne
  have h3 := fix_card hm
  have h4 : 1 < ((Finset.range N).filter (fun i => mate i = i)).card := by
    rw [Finset.one_lt_card]
    exact ⟨i, by rw [Finset.mem_filter, Finset.mem_range]; exact ⟨hi, h1⟩,
      w, by rw [Finset.mem_filter, Finset.mem_range]; exact ⟨hw, h2⟩, hne⟩
  omega

end Hall2b

section Plan

variable {c : ℕ → String} {N : ℕ} {mate : ℕ → ℕ}

theorem mate_mem_U (hm : MateOK c N mate) (i : ℕ) (hi : i < N)
    (h : ¬ (¬ inV c N mate i ∧ mate i ≠ i)) : ¬ inV c N mate (mate i) := by
  rw [not_inV_mate_iff hm i hi]
  by_cases hV : inV c N mate i
  · exact Or.inl hV
  · right
    by_contra hr
    exact h ⟨hV, hr⟩

theorem mate_not_end (hm : MateOK c N mate) (w : ℕ) (hw : w < N) (hW : ¬ inV c N mate w) :
    ¬ (¬ inV c N mate (mate w) ∧ mate (mate w) ≠ mate w) := by
  rintro ⟨h1, h2⟩
  rcases (not_inV_mate_iff hm w hw).mp h1 with h3 | h3
  · exact hW h3
  · rw [h3, h3] at h2
    exact h2 rfl

/-- The two choices give a plan: a team that hosts its mate is hosted by the team before it in
the second choice, a team that does not host its mate hosts the mate of the next one. -/
theorem plan_of_choices (ts : List CalendarTeam) (mate σ τ : ℕ → ℕ)
    (hm : MateOK (fun i => (getT ts i).country) ts.length mate)
    (hσ : ∀ u, u < ts.length → ¬ inV (fun i => (getT ts i).country) ts.length mate u →
      σ u < ts.length ∧ ¬ inV (fun i => (getT ts i).country) ts.length mate (σ u) ∧ σ u ≠ u ∧
        (getT ts (mate (σ u))).country ≠ (getT ts u).country)
    (hτ : ∀ u, u < ts.length → ¬ inV (fun i => (getT ts i).country) ts.length mate u →
      τ u < ts.length ∧ ¬ inV (fun i => (getT ts i).country) ts.length mate (τ u) ∧
        σ (τ u) = u)
    (hτσ : ∀ u, u < ts.length → ¬ inV (fun i => (getT ts i).country) ts.length mate u →
      τ (σ u) = u) :
    PlanOK ts
      (fun i => if inV (fun i => (getT ts i).country) ts.length mate i then mate i
        else mate (σ i))
      (fun z => if ¬ inV (fun i => (getT ts i).country) ts.length mate z ∧ mate z ≠ z
        then mate z else τ (mate z))
      (fun i => decide (¬ inV (fun i => (getT ts i).country) ts.length mate i))
      ((ts.length + 1) / 2) := by
  refine ⟨?_, ?_, ?_, ?_, ?_, ?_, ?_, ?_, ?_, ?_, ?_, ?_⟩
  · intro i hi
    split_ifs with hV
    · exact hm.lt i hi
    · exact hm.lt _ (hσ i hi hV).1
  · intro i hi
    split_ifs with hE
    · exact hm.lt i hi
    · exact (hτ _ (hm.lt i hi) (mate_mem_U hm i hi hE)).1
  · intro i hi
    by_cases hV : inV (fun i => (getT ts i).country) ts.length mate i
    · rw [if_pos hV, if_pos ⟨not_inV_mate hm i hi hV, by rw [hm.inv i hi]; exact Ne.symm hV.1⟩,
        hm.inv i hi]
    · have hs := hσ i hi hV
      rw [if_neg hV, if_neg (mate_not_end hm _ hs.1 hs.2.1), hm.inv _ hs.1]
      exact hτσ i hi hV
  · intro i hi
    by_cases hE : ¬ inV (fun i => (getT ts i).country) ts.length mate i ∧ mate i ≠ i
    · rw [if_pos hE, if_pos (inV_mate hm i hi hE.1 hE.2), hm.inv i hi]
    · have hU := mate_mem_U hm i hi hE
      have ht := hτ _ (hm.lt i hi) hU
      rw [if_neg hE, if_neg ht.2.1, ht.2.2, hm.inv i hi]
  · intro i hi
    split_ifs with hV
    · exact hm.col i hi hV.1
    · exact (hσ i hi hV).2.2.2
  · intro i hi
    by_cases hV : inV (fun i => (getT ts i).country) ts.length mate i
    · have hU := not_inV_mate hm i hi hV
      have hs := hσ _ (hm.lt i hi) hU
      rw [if_pos hV, if_neg hU]
      intro h
      apply hs.2.2.1
      rw [← hm.inv _ hs.1, h]
    · have hs := hσ i hi hV
      rw [if_neg hV]
      by_cases hV2 : inV (fun i => (getT ts i).country) ts.length mate (mate (σ i))
      · rw [if_pos hV2, hm.inv _ hs.1]
        exact hs.2.2.1
      · rw [if_neg hV2]
        have hfix : mate (σ i) = σ i := by
          rcases (not_inV_mate_iff hm _ hs.1).mp hV2 with h | h
          · exact absurd h hs.2.1
          · exact h
        rw [hfix]
        have hs2 := hσ _ hs.1 hs.2.1
        intro h
        have h3 : σ (σ i) = mate i := by
          have h5 := hm.inv _ hs2.1
          rw [h] at h5
          exact h5.symm
        have h4 : mate i = i := by
          by_contra hr
          have := inV_mate hm i hi hV hr
          rw [← h3] at this
          exact hs2.2.1 this
        exact hs.2.2.1 (fixed_unique hm (σ i) i hs.1 hi hfix h4)
  · intro i hi hU
    simp only [decide_eq_false_iff_not, not_not] at hU
    simp only [if_pos hU, decide_eq_true_eq]
    exact not_inV_mate hm i hi hU
  · intro i hi hU
    simp only [decide_eq_false_iff_not, not_not] at hU
    simp only [if_pos hU]
    constructor
    · intro h
      rcases hm.up i h with h1 | h1
      · exact absurd h1 hU.1
      · exact h1
    · intro h
      by_contra h1
      have := hm.down i (by omega) hi
      omega
  · intro i hi hU
    simp only [decide_eq_false_iff_not, not_not] at hU
    have hE : ¬ (¬ inV (fun i => (getT ts i).country) ts.length mate i ∧ mate i ≠ i) :=
      fun h => h.1 hU
    simp only [if_neg hE, decide_eq_true_eq]
    exact (hτ _ (hm.lt i hi) (not_inV_mate hm i hi hU)).2.1
  · intro i hL hi hU
    simp only [decide_eq_true_eq] at hU
    have hr : mate i ≠ i := by
      have := hm.down i hL hi
      omega
    simp only [if_pos (And.intro hU hr), decide_eq_false_iff_not, not_not]
    exact inV_mate hm i hi hU hr
  · rw [← U_card hm]
    congr 1
    apply Finset.filter_congr
    intro i _
    simp only [decide_eq_true_eq]
  · omega

/-- If no country has more than half of the teams and there are at least three teams, the
collection has a plan. -/
theorem plan_exists (ts : List CalendarTeam) (hN : 3 ≤ ts.length)
    (hstar : ∀ x, 2 * classSize (fun i => (getT ts i).country) ts.length x ≤ ts.length) :
    ∃ h g inU, PlanOK ts h g inU ((ts.length + 1) / 2) := by
  obtain ⟨mate, m1, m2, m3, m4, m5⟩ :=
    exists_mate (fun i => (getT ts i).country) ts.length hstar
  have hm : MateOK (fun i => (getT ts i).country) ts.length mate := ⟨m1, m2, m3, m4, m5⟩
  obtain ⟨σ, τ, hσ, hτ, hτσ⟩ := exists_succ hm hstar hN
  exact ⟨_, _, _, plan_of_choices ts mate σ τ hm hσ hτ hτσ⟩

end Plan

/-! ### From a valid schedule to a successful search -/

/-- In a valid schedule no country has more than half of the teams: hosting sends the teams
of a country to different teams of other countries. -/
theorem schedule_half (teams sched : List CalendarTeam) (hn : NamesOK teams)
    (he : SlotsEmpty teams) (hv : ValidSchedule teams sched) (x : String) :
    2 * classSize (fun i => (getT teams i).country) teams.length x ≤ teams.length := by
  obtain ⟨_, hsame, _, hr1, _, _, _, hmir, hex, _⟩ := hv
  have hinj := (Inv_of_empty teams hn he).nameInj
  have hex1 : ∀ i, ∃ j, i < teams.length →
      j < teams.length ∧ (getT sched i).t1 = (getT sched j).name := by
    intro i
    by_cases hi : i < teams.length
    · obtain ⟨j, hj⟩ := hr1 i hi
      exact ⟨j, fun _ => hj⟩
    · exact ⟨0, fun h => absurd h hi⟩
  choose h hh using hex1
  have h1 := Finset.filter_card_add_filter_neg_card_eq_card (s := Finset.range teams.length)
    (fun i => (getT teams i).country = x)
  rw [Finset.card_range] at h1
  have h2 : ((Finset.range teams.length).filter (fun i => (getT teams i).country = x)).card ≤
      ((Finset.range teams.length).filter (fun i => ¬ (getT teams i).country = x)).card := by
    apply Finset.card_le_card_of_injOn h
    · intro i hi
      rw [Finset.mem_filter, Finset.mem_range] at hi ⊢
      refine ⟨(hh i hi.1).1, ?_⟩
      have h3 := hex i hi.1 (h i) (hh i hi.1).1 (Or.inl (hh i hi.1).2)
      rw [(hsame i hi.1).2, (hsame _ (hh i hi.1).1).2, hi.2] at h3
      exact fun h4 => h3 h4.symm
    · intro a ha b hb hab
      rw [Finset.mem_coe, Finset.mem_filter, Finset.mem_range] at ha hb
      apply hinj a b ha.1 hb.1
      have h3 := hmir a ha.1 (h a) (hh a ha.1).1 (hh a ha.1).2
      have h4 := hmir b hb.1 (h b) (hh b hb.1).1 (hh b hb.1).2
      rw [hab] at h3
      rw [← (hsame a ha.1).1, ← (hsame b hb.1).1, ← h3, ← h4]
  show 2 * ((Finset.range teams.length).filter
    (fun i => (getT teams i).country = x)).card ≤ teams.length
  omega

/-- A valid schedule needs at least three teams, unless there is no team at all. -/
theorem schedule_three (teams sched : List CalendarTeam) (hn : NamesOK teams)
    (he : SlotsEmpty teams) (hv : ValidSchedule teams sched) (h0 : teams.length ≠ 0) :
    3 ≤ teams.length := by
  have hstar := schedule_half teams sched hn he hv
  obtain ⟨_, hsame, _, hr1, _, _, _, hmir, hex, hnd⟩ := hv
  have hinj := (Inv_of_empty teams hn he).nameInj
  have hne : ∀ i, i < teams.length → ∀ j, j < teams.length →
      (getT sched i).t1 = (getT sched j).name → j ≠ i := by
    intro i hi j hj hij e
    have h3 := hex i hi j hj (Or.inl hij)
    rw [e] at h3
    exact h3 rfl
  by_contra hlt
  obtain ⟨j0, hj0, e0⟩ := hr1 0 (by omega)
  have n0 := hne 0 (by omega) j0 hj0 e0
  have hj01 : j0 = 1 := by omega
  obtain ⟨j1, hj1, e1⟩ := hr1 1 (by omega)
  have n1 := hne 1 (by omega) j1 hj1 e1
  have hj10 : j1 = 0 := by omega
  rw [hj01] at e0
  rw [hj10] at e1
  exact (hnd 0 (by omega) 1 (by omega)).1 ⟨e0, e1⟩

/-- With ties in index order (`teamOrder`): whenever a valid schedule exists, the driver
returns `true`. -/
theorem solve_of_schedule (teams sched : List CalendarTeam) (hn : NamesOK teams)
    (he : SlotsEmpty teams) (hv : ValidSchedule teams sched) :
    ∃ out, solve teams = some (true, out) := by
  by_cases h0 : teams.length = 0
  · rw [List.length_eq_zero] at h0
    rw [h0]
    exact ⟨[], rfl⟩
  · obtain ⟨h, g, inU, hp⟩ := plan_exists teams (schedule_three teams sched hn he hv h0)
      (schedule_half teams sched hn he hv)
    exact solve_of_plan teams h g inU _ hp hn he

/-! ### Inputs on which the search fails at once -/

/-- A team of the collection whose `t2` is empty and that has no candidate for it makes
`lookahead` fail. -/
theorem lookahead_false_t2 (ts : List CalendarTeam) (T : Nat) (hT : T < ts.length)
    (h2 : (getT ts T).t2 = "") (hc : findPossibleOpponents (getT ts T) ts "t2" = []) :
    lookahead ts = false := by
  have hmem : getT ts T ∈ ts := by
    rw [getT_of_lt ts T hT]
    exact List.getElem_mem _
  have hf : lookaheadFails ts (getT ts T) = true := by
    unfold lookaheadFails
    split_ifs <;> simp_all
  have hany : ts.any (lookaheadFails ts) = true := List.any_eq_true.mpr ⟨_, hmem, hf⟩
  unfold lookahead
  rw [if_pos hany]

/-- A team of the collection whose `t1` is empty and that has no candidate for it makes
`lookahead` fail. -/
theorem lookahead_false_t1 (ts : List CalendarTeam) (T : Nat) (hT : T < ts.length)
    (h1 : (getT ts T).t1 = "") (hc : findPossibleOpponents (getT ts T) ts "t1" = []) :
    lookahead ts = false := by
  have hmem : getT ts T ∈ ts := by
    rw [getT_of_lt ts T hT]
    exact List.getElem_mem _
  have hf : lookaheadFails ts (getT ts T) = true := by
    unfold lookaheadFails
    split_ifs <;> simp_all
  have hany : ts.any (lookaheadFails ts) = true := List.any_eq_true.mpr ⟨_, hmem, hf⟩
  unfold lookahead
  rw [if_pos hany]

/-- When no assignment can be kept, the driver started on a non-empty collection with empty
slots returns `false` and leaves the collection as it was. -/
theorem solve_no_step (teams : List CalendarTeam) (h0 : teams ≠ []) (he : SlotsEmpty teams)
    (hns : ∀ X, ¬ Step teams X) : solve teams = some (false, teams) := by
  obtain ⟨b, out, hs, _⟩ := solve_returns teams
  cases b
  · rw [hs, solve_false teams out hs]
  · exfalso
    obtain ⟨hr, hf⟩ := solve_true teams out hs
    rcases Relation.ReflTransGen.cases_head hr with h | ⟨X, hX, _⟩
    · obtain ⟨t, rest, rfl⟩ := List.exists_cons_of_ne_nil h0
      rw [← h] at hf
      exact (finalCheck_filled _ hf t (List.mem_cons_self _ _)).1
        (he t (List.mem_cons_self _ _)).1
    · exact hns X hX

theorem getT_mem (ts : List CalendarTeam) (i : Nat) (hi : i < ts.length) : getT ts i ∈ ts := by
  rw [getT_of_lt ts i hi]
  exact List.getElem_mem _

/-- In a collection of one country the candidate list is always empty. -/
theorem same_country_no_candidate (teams : List CalendarTeam)
    (hc : ∀ a ∈ teams, ∀ b ∈ teams, a.country = b.country) (t : CalendarTeam) (ht : t ∈ teams)
    (slot : String) : findPossibleOpponents t teams slot = [] := by
  rw [List.eq_nil_iff_forall_not_mem]
  intro i hi
  rw [mem_findPossibleOpponents, mem_candidateIndices, isCandidate_iff] at hi
  exact hi.2.2.1 (hc _ (getT_mem teams i hi.1) t ht)

theorem same_country_no_step (teams : List CalendarTeam)
    (hc : ∀ a ∈ teams, ∀ b ∈ teams, a.country = b.country) (X : List CalendarTeam) :
    ¬ Step teams X := by
  intro hs
  cases hs with
  | host T i hT _ hi _ _ =>
    rw [same_country_no_candidate teams hc _ (getT_mem teams T hT)] at hi
    exact List.not_mem_nil _ hi
  | guest T i hT _ hi _ _ =>
    rw [same_country_no_candidate teams hc _ (getT_mem teams T hT)] at hi
    exact List.not_mem_nil _ hi

/-- With fewer than three teams no assignment passes `lookahead`: the team that was given an
opponent has no candidate left for its other slot. -/
theorem small_no_step (teams : List CalendarTeam) (hN : teams.length < 3)
    (he : SlotsEmpty teams) (X : List CalendarTeam) : ¬ Step teams X := by
  intro hs
  cases hs with
  | host T i hT _ hi _ hla =>
    have hiN := lt_of_mem_findPossibleOpponents _ _ _ _ hi
    rw [mem_findPossibleOpponents, mem_candidateIndices, isCandidate_iff] at hi
    have hne : i ≠ T := fun e => hi.2.1 (by rw [e])
    have hlf : lookahead (assignT1 teams T i) = false := by
      apply lookahead_false_t2 _ T (by rw [length_assignT1]; exact hT)
      · rw [t2_assignT1 teams T i T hiN, if_neg (Ne.symm hne)]
        exact (he _ (getT_mem teams T hT)).2
      · rw [List.eq_nil_iff_forall_not_mem]
        intro k hk
        have hkN := lt_of_mem_findPossibleOpponents _ _ _ _ hk
        rw [length_assignT1] at hkN
        rw [mem_findPossibleOpponents, mem_candidateIndices, isCandidate_iff] at hk
        have hkT : k ≠ T := fun e => hk.2.1 (by rw [e])
        have hki : k = i := by omega
        apply hk.2.2.2.1
        rw [t1_assignT1 teams T i T hT, if_pos rfl, name_assignT1, hki]
    rw [hlf] at hla
    exact Bool.false_ne_true hla
  | guest T i hT _ hi _ hla =>
    have hiN := lt_of_mem_findPossibleOpponents _ _ _ _ hi
    rw [mem_findPossibleOpponents, mem_candidateIndices, isCandidate_iff] at hi
    have hne : i ≠ T := fun e => hi.2.1 (by rw [e])
    have hlf : lookahead (assignT2 teams T i) = false := by
      apply lookahead_false_t1 _ T (by rw [length_assignT2]; exact hT)
      · rw [t1_assignT2 teams T i T hiN, if_neg (Ne.symm hne)]
        exact (he _ (getT_mem teams T hT)).1
      · rw [List.eq_nil_iff_forall_not_mem]
        intro k hk
        have hkN := lt_of_mem_findPossibleOpponents _ _ _ _ hk
        rw [length_assignT2] at hkN
        rw [mem_findPossibleOpponents, mem_candidateIndices, isCandidate_iff] at hk
        have hkT : k ≠ T := fun e => hk.2.1 (by rw [e])
        have hki : k = i := by omega
        apply hk.2.2.2.2.1
        rw [t2_assignT2 teams T i T hT, if_pos rfl, name_assignT2, hki]
    rw [hlf] at hla
    exact Bool.false_ne_true hla

/-- C11 (scenario 2 generalised): in a collection of at least one team with every slot empty
in which all teams have the same country, `findPossibleOpponents` returns the empty list for
every team and every slot, and the driver returns `false` (leaving the collection as it
was). -/
theorem same_country_fails (teams : List CalendarTeam) (hN : 1 ≤ teams.length)
    (he : SlotsEmpty teams) (hc : ∀ a ∈ teams, ∀ b ∈ teams, a.country = b.country) :
    (∀ t ∈ teams, ∀ slot, findPossibleOpponents t teams slot = []) ∧
      solve teams = some (false, teams) := by
  refine ⟨fun t ht slot => same_country_no_candidate teams hc t ht slot, ?_⟩
  apply solve_no_step teams _ he (same_country_no_step teams hc)
  intro h
  rw [h] at hN
  exact absurd hN (by decide)

/-- Witness of C11 on three English teams. -/
theorem same_country_fails_witness :
    (1 ≤ demoSame.length ∧ SlotsEmpty demoSame ∧
      ∀ a ∈ demoSame, ∀ b ∈ demoSame, a.country = b.country) ∧
    ((∀ t ∈ demoSame, ∀ slot, findPossibleOpponents t demoSame slot = []) ∧
      solve demoSame = some (false, demoSame)) :=
  ⟨by decide, same_country_fails demoSame (by decide) (by decide) (by decide)⟩

/-- C15 (counterexample): on the empty collection, which has fewer than two countries and
fewer than three teams, the driver returns `true`. -/
theorem infeasible_empty_counterexample :
    SlotsEmpty ([] : List CalendarTeam) ∧
      (∀ a ∈ ([] : List CalendarTeam), ∀ b ∈ ([] : List CalendarTeam), a.country = b.country) ∧
      ([] : List CalendarTeam).length < 3 ∧ solve [] = some (true, []) :=
  ⟨by decide, by decide, by decide, by decide⟩

/-- C15 (amended): for every collection of at least one team with every slot empty in which
all teams have the same country, or which has fewer than three teams, the driver returns
`false` (leaving the collection as it was). -/
theorem infeasible_fails (teams : List CalendarTeam) (h0 : teams ≠ []) (he : SlotsEmpty teams)
    (h : (∀ a ∈ teams, ∀ b ∈ teams, a.country = b.country) ∨ teams.length < 3) :
    solve teams = some (false, teams) := by
  rcases h with h | h
  · exact solve_no_step teams h0 he (same_country_no_step teams h)
  · exact solve_no_step teams h0 he (small_no_step teams h he)

/-- Witness of C15 (amended) on two teams of two countries. -/
theorem infeasible_fails_witness :
    (demo2 ≠ [] ∧ SlotsEmpty demo2 ∧
      ((∀ a ∈ demo2, ∀ b ∈ demo2, a.country = b.country) ∨ demo2.length < 3)) ∧
    solve demo2 = some (false, demo2) :=
  ⟨by decide, infeasible_fails demo2 (by decide) (by decide) (Or.inr (by decide))⟩

/-- C19 (rollback on failure): for every collection and every `idx ≤ N` the call returns
(with fuel for the `N - idx` levels of recursion), and if it returns `false` the collection
after the call is the collection before the call. -/
theorem rollback_on_failure (fuel : Nat) (teams : List CalendarTeam) (idx : Nat)
    (hidx : idx ≤ teams.length) (hfuel : teams.length - idx < fuel) :
    ∃ b out, assignMatchesBT fuel teams idx = some (b, out) ∧ (b = false → out = teams) := by
  obtain ⟨b, out, hs, _⟩ := assignMatchesBT_returns fuel teams idx hidx hfuel
  refine ⟨b, out, hs, ?_⟩
  intro hb
  have h := assignMatchesBT_sound fuel teams idx
  rw [hs, hb] at h
  exact h

/-- Witness of C19 on `demo31`, where the search fails after tentative assignments. -/
theorem rollback_on_failure_witness :
    (0 ≤ demo31.length ∧ demo31.length - 0 < 5) ∧
      ∃ b out, assignMatchesBT 5 demo31 0 = some (b, out) ∧ (b = false → out = demo31) :=
  ⟨by decide, rollback_on_failure 5 demo31 0 (by decide) (by decide)⟩

/-! ### The candidate finder, the oracle and the ranking -/

theorem findPossibleOpponents_perm (team : CalendarTeam) (ts : List CalendarTeam)
    (slot : String) :
    (findPossibleOpponents team ts slot).Perm (candidateIndices team ts slot) := by
  unfold findPossibleOpponents
  have h1 := (List.perm_insertionSort keyLe
    ((candidateIndices team ts slot).map (sortKey ts slot))).map (fun tup => tup.2.2)
  have h2 : ((candidateIndices team ts slot).map (sortKey ts slot)).map (fun tup => tup.2.2) =
      candidateIndices team ts slot := by
    rw [List.map_map]
    conv_rhs => rw [← List.map_id (candidateIndices team ts slot)]
    rfl
  rw [h2] at h1
  exact h1

theorem candidateIndices_nodup (team : CalendarTeam) (ts : List CalendarTeam) (slot : String) :
    (candidateIndices team ts slot).Nodup :=
  (List.nodup_range _).filter _

/-- C13 (candidate finder membership): for every collection, target team `T` and slot tag
`s` in `t1`, `t2`, an index `i` occurs in `findPossibleOpponents T teams s` exactly when
`teams[i]` has another name and another country than `T`, neither names the other in a slot,
and the mirrored slot of `teams[i]` is empty; every index occurs once, and the list is a
rearrangement of the list returned by the function of `src/bppstart.cpp`. -/
theorem candidate_membership (teams : List CalendarTeam) (T : CalendarTeam) (s : String)
    (hs : s = "t1" ∨ s = "t2") :
    (∀ i, i ∈ findPossibleOpponents T teams s ↔
      i < teams.length ∧ (getT teams i).name ≠ T.name ∧ (getT teams i).country ≠ T.country ∧
      (T.t1 ≠ (getT teams i).name ∧ T.t2 ≠ (getT teams i).name) ∧
      ((getT teams i).t1 ≠ T.name ∧ (getT teams i).t2 ≠ T.name) ∧
      (if s = "t1" then (getT teams i).t2 = "" else (getT teams i).t1 = "")) ∧
    (findPossibleOpponents T teams s).Nodup ∧
    (findPossibleOpponents T teams s).Perm (Bppstart.findPossibleOpponents T teams s) := by
  refine ⟨?_, ?_, findPossibleOpponents_perm T teams s⟩
  · intro i
    rw [mem_findPossibleOpponents, mem_candidateIndices, isCandidate_iff]
    rcases hs with hs | hs <;> subst hs <;> simp <;> tauto
  · exact (findPossibleOpponents_perm T teams s).nodup_iff.mpr (candidateIndices_nodup T teams s)

/-- Witness of C13: the candidates for the host slot of Ajax in `demoDeg`. -/
theorem candidate_membership_witness :
    ("t1" = "t1" ∨ "t1" = "t2") ∧
    ((∀ i, i ∈ findPossibleOpponents (getT demoDeg 2) demoDeg "t1" ↔
      i < demoDeg.length ∧ (getT demoDeg i).name ≠ (getT demoDeg 2).name ∧
      (getT demoDeg i).country ≠ (getT demoDeg 2).country ∧
      ((getT demoDeg 2).t1 ≠ (getT demoDeg i).name ∧
        (getT demoDeg 2).t2 ≠ (getT demoDeg i).name) ∧
      ((getT demoDeg i).t1 ≠ (getT demoDeg 2).name ∧
        (getT demoDeg i).t2 ≠ (getT demoDeg 2).name) ∧
      (if "t1" = "t1" then (getT demoDeg i).t2 = "" else (getT demoDeg i).t1 = "")) ∧
    (findPossibleOpponents (getT demoDeg 2) demoDeg "t1").Nodup ∧
    (findPossibleOpponents (getT demoDeg 2) demoDeg "t1").Perm
      (Bppstart.findPossibleOpponents (getT demoDeg 2) demoDeg "t1")) :=
  ⟨Or.inl rfl, candidate_membership demoDeg (getT demoDeg 2) "t1" (Or.inl rfl)⟩

theorem any_lookaheadFails_iff (teams : List CalendarTeam) :
    teams.any (lookaheadFails teams) = true ↔
      ∃ i, i < teams.length ∧
        (((getT teams i).t1 ≠ "" ∧ (getT teams i).t1 = (getT teams i).t2) ∨
          ((getT teams i).t1 = "" ∧ findPossibleOpponents (getT teams i) teams "t1" = []) ∨
          ((getT teams i).t2 = "" ∧ findPossibleOpponents (getT teams i) teams "t2" = [])) := by
  rw [List.any_eq_true]
  constructor
  · rintro ⟨t, ht, hf⟩
    obtain ⟨i, hi, rfl⟩ := exists_index teams t ht
    refine ⟨i, hi, ?_⟩
    unfold lookaheadFails at hf
    by_cases h1 : (getT teams i).t1 ≠ "" ∧ (getT teams i).t1 = (getT teams i).t2
    · exact Or.inl h1
    · by_cases h2 : (getT teams i).t1 = "" ∧ findPossibleOpponents (getT teams i) teams "t1" = []
      · exact Or.inr (Or.inl h2)
      · by_cases h3 : (getT teams i).t2 = "" ∧
            findPossibleOpponents (getT teams i) teams "t2" = []
        · exact Or.inr (Or.inr h3)
        · rw [if_neg h1, if_neg h2, if_neg h3] at hf
          exact absurd hf Bool.false_ne_true
  · rintro ⟨i, hi, h⟩
    refine ⟨getT teams i, getT_mem teams i hi, ?_⟩
    unfold lookaheadFails
    by_cases h1 : (getT teams i).t1 ≠ "" ∧ (getT teams i).t1 = (getT teams i).t2
    · rw [if_pos h1]
    · by_cases h2 : (getT teams i).t1 = "" ∧ findPossibleOpponents (getT teams i) teams "t1" = []
      · rw [if_neg h1, if_pos h2]
      · by_cases h3 : (getT teams i).t2 = "" ∧
            findPossibleOpponents (getT teams i) teams "t2" = []
        · rw [if_neg h1, if_neg h2, if_pos h3]
        · rcases h with h | h | h
          · exact absurd h h1
          · exact absurd h h2
          · exact absurd h h3

theorem duplicateMatch_iff (teams : List CalendarTeam) :
    duplicateMatch teams = true ↔
      ∃ i j, i < teams.length ∧ j < teams.length ∧ i ≠ j ∧
        (((getT teams i).t1 = (getT teams j).name ∧ (getT teams j).t1 = (getT teams i).name) ∨
          ((getT teams i).t2 = (getT teams j).name ∧
            (getT teams j).t2 = (getT teams i).name)) := by
  unfold duplicateMatch
  simp only [List.any_eq_true, List.mem_range, Bool.and_eq_true, decide_eq_true_eq]
  constructor
  · rintro ⟨i, hi, j, hj, hij, h⟩
    exact ⟨i, j, hi, hj, by omega, h⟩
  · rintro ⟨i, j, hi, hj, hij, h⟩
    rcases Nat.lt_or_gt_of_ne hij with hlt | hlt
    · exact ⟨i, hi, j, hj, hlt, h⟩
    · refine ⟨j, hj, i, hi, hlt, ?_⟩
      rcases h with h | h
      · exact Or.inl ⟨h.2, h.1⟩
      · exact Or.inr ⟨h.2, h.1⟩

/-- C14 (feasibility oracle): `lookahead teams` returns `true` exactly when none of these
holds: (a) a team has `t1` non-empty and equal to `t2`; (b) a team has `t1` empty and no
candidate for `t1`; (c) a team has `t2` empty and no candidate for `t2`; (d) two different
teams host each other, or are the guests of each other. -/
theorem lookahead_iff (teams : List CalendarTeam) :
    lookahead teams = true ↔
      ¬ ((∃ i, i < teams.length ∧ (getT teams i).t1 ≠ "" ∧
            (getT teams i).t1 = (getT teams i).t2) ∨
        (∃ i, i < teams.length ∧ (getT teams i).t1 = "" ∧
            findPossibleOpponents (getT teams i) teams "t1" = []) ∨
        (∃ i, i < teams.length ∧ (getT teams i).t2 = "" ∧
            findPossibleOpponents (getT teams i) teams "t2" = []) ∨
        (∃ i j, i < teams.length ∧ j < teams.length ∧ i ≠ j ∧
          (((getT teams i).t1 = (getT teams j).name ∧
              (getT teams j).t1 = (getT teams i).name) ∨
            ((getT teams i).t2 = (getT teams j).name ∧
              (getT teams j).t2 = (getT teams i).name)))) := by
  have hA := any_lookaheadFails_iff teams
  have hB := duplicateMatch_iff teams
  unfold lookahead
  constructor
  · intro h
    by_cases h1 : teams.any (lookaheadFails teams) = true
    · rw [if_pos h1] at h
      exact absurd h Bool.false_ne_true
    · by_cases h2 : duplicateMatch teams = true
      · rw [if_neg h1, if_pos h2] at h
        exact absurd h Bool.false_ne_true
      · rintro (⟨i, hi, ha⟩ | ⟨i, hi, hb⟩ | ⟨i, hi, hc⟩ | hd)
        · exact h1 (hA.mpr ⟨i, hi, Or.inl ha⟩)
        · exact h1 (hA.mpr ⟨i, hi, Or.inr (Or.inl hb)⟩)
        · exact h1 (hA.mpr ⟨i, hi, Or.inr (Or.inr hc)⟩)
        · exact h2 (hB.mpr hd)
  · intro h
    have h1 : ¬ teams.any (lookaheadFails teams) = true := by
      intro h1
      obtain ⟨i, hi, ha | hb | hc⟩ := hA.mp h1
      · exact h (Or.inl ⟨i, hi, ha⟩)
      · exact h (Or.inr (Or.inl ⟨i, hi, hb⟩))
      · exact h (Or.inr (Or.inr (Or.inl ⟨i, hi, hc⟩)))
    have h2 : ¬ duplicateMatch teams = true := fun h2 =>
      h (Or.inr (Or.inr (Or.inr (hB.mp h2))))
    rw [if_neg h1, if_neg h2]

/-- The `degree` of the source is the remaining degree of the ranking. -/
theorem degree_eq_remainingDegree (teams : List CalendarTeam) (s : String)
    (hs : s = "t1" ∨ s = "t2") (c : Nat) : degree teams s c = remainingDegree teams s c := by
  unfold degree remainingDegree
  congr 1
  apply List.filter_congr
  intro j _
  unfold degreeCounts oppositeSlotEmpty pairedAt
  rcases hs with hs | hs <;> subst hs <;> split_ifs <;> simp_all

theorem keyLe_total (a b : Nat × Nat × Nat) : keyLe a b ∨ keyLe b a := by
  unfold keyLe
  omega

theorem keyLe_trans (a b c : Nat × Nat × Nat) (h1 : keyLe a b) (h2 : keyLe b c) :
    keyLe a c := by
  unfold keyLe at *
  omega

theorem sortedKeys_pairwise (l : List (Nat × Nat × Nat)) :
    (l.insertionSort keyLe).Pairwise keyLe :=
  @List.sorted_insertionSort _ keyLe _ ⟨keyLe_total⟩ ⟨keyLe_trans⟩ l

/-- The list returned by `findPossibleOpponents` ascends strictly in the key of the source. -/
theorem findPossibleOpponents_sorted (team : CalendarTeam) (ts : List CalendarTeam)
    (slot : String) :
    (findPossibleOpponents team ts slot).Pairwise
      (fun a b => keyLt (sortKey ts slot a) (sortKey ts slot b)) := by
  have hnd : (findPossibleOpponents team ts slot).Nodup :=
    (findPossibleOpponents_perm team ts slot).nodup_iff.mpr
      (candidateIndices_nodup team ts slot)
  unfold findPossibleOpponents at hnd ⊢
  rw [List.pairwise_map]
  rw [List.Nodup, List.pairwise_map] at hnd
  have hs := sortedKeys_pairwise ((candidateIndices team ts slot).map (sortKey ts slot))
  have hkey : ∀ x ∈ ((candidateIndices team ts slot).map (sortKey ts slot)).insertionSort keyLe,
      sortKey ts slot x.2.2 = x := by
    intro x hx
    rw [List.mem_insertionSort] at hx
    obtain ⟨j, _, rfl⟩ := List.mem_map.mp hx
    rfl
  refine List.Pairwise.imp_of_mem ?_ (hs.and hnd)
  intro a b ha hb hab
  rw [hkey a ha, hkey b hb]
  obtain ⟨h1, h2⟩ := hab
  unfold keyLe at h1
  unfold keyLt
  omega

/-- C16 (heuristic order): for every collection, team `T` and slot `s` in `t1`, `t2`, the
list returned by `findPossibleOpponents` is a rearrangement of the index-ascending list of
the legal candidates, and it ascends strictly in the lexicographic key (`matchesAssigned`,
remaining degree, index); so candidates with equal `matchesAssigned` and equal degree come in
ascending index order. -/
theorem heuristic_order (teams : List CalendarTeam) (T : CalendarTeam) (s : String)
    (hs : s = "t1" ∨ s = "t2") :
    (findPossibleOpponents T teams s).Perm (candidateIndices T teams s) ∧
    (candidateIndices T teams s).Pairwise (fun a b => a < b) ∧
    (findPossibleOpponents T teams s).Pairwise
      (fun a b => keyLt (rankKey teams s a) (rankKey teams s b)) ∧
    (findPossibleOpponents T teams s).Pairwise
      (fun a b => (getT teams a).matchesAssigned = (getT teams b).matchesAssigned →
        remainingDegree teams s a = remainingDegree teams s b → a < b) := by
  have h3 : (findPossibleOpponents T teams s).Pairwise
      (fun a b => keyLt (rankKey teams s a) (rankKey teams s b)) := by
    refine (findPossibleOpponents_sorted T teams s).imp ?_
    intro a b hab
    unfold sortKey at hab
    unfold rankKey
    rw [degree_eq_remainingDegree teams s hs, degree_eq_remainingDegree teams s hs] at hab
    exact hab
  refine ⟨findPossibleOpponents_perm T teams s, ?_, h3, ?_⟩
  · unfold candidateIndices
    exact (List.pairwise_lt_range _).filter _
  · refine h3.imp ?_
    intro a b hab h1 h2
    unfold keyLt rankKey at hab
    simp only at hab
    omega

/-- Witness of C16: the candidates for the host slot of Ajax in `demoDeg`. -/
theorem heuristic_order_witness :
    ("t1" = "t1" ∨ "t1" = "t2") ∧
    ((findPossibleOpponents (getT demoDeg 2) demoDeg "t1").Perm
      (candidateIndices (getT demoDeg 2) demoDeg "t1") ∧
    (candidateIndices (getT demoDeg 2) demoDeg "t1").Pairwise (fun a b => a < b) ∧
    (findPossibleOpponents (getT demoDeg 2) demoDeg "t1").Pairwise
      (fun a b => keyLt (rankKey demoDeg "t1" a) (rankKey demoDeg "t1" b)) ∧
    (findPossibleOpponents (getT demoDeg 2) demoDeg "t1").Pairwise
      (fun a b => (getT demoDeg a).matchesAssigned = (getT demoDeg b).matchesAssigned →
        remainingDegree demoDeg "t1" a = remainingDegree demoDeg "t1" b → a < b)) :=
  ⟨Or.inl rfl, heuristic_order demoDeg (getT demoDeg 2) "t1" (Or.inl rfl)⟩

theorem name_inj_of_nodup (ts : List CalendarTeam) (hn : (ts.map (fun t => t.name)).Nodup)
    (a b : Nat) (ha : a < ts.length) (hb : b < ts.length)
    (hab : (getT ts a).name = (getT ts b).name) : a = b := by
  rw [List.nodup_iff_injective_get] at hn
  have hal : a < (ts.map (fun t => t.name)).length := by simpa using ha
  have hbl : b < (ts.map (fun t => t.name)).length := by simpa using hb
  have := @hn ⟨a, hal⟩ ⟨b, hbl⟩ (by
    simp only [List.get_eq_getElem, List.getElem_map]
    rw [← getT_of_lt ts a ha, ← getT_of_lt ts b hb]
    exact hab)
  exact Fin.mk.inj_iff.mp this

/-- C17 (counterexample): in `demoDeg` Bayern (index 3) is a candidate for the host slot of
Ajax and is ranked with degree 2, while `findPossibleOpponents` for the opposite slot of
Bayern returns one team. -/
theorem degree_mirrored_counterexample :
    (demoDeg.map (fun t => t.name)).Nodup ∧
      3 ∈ findPossibleOpponents (getT demoDeg 2) demoDeg "t1" ∧
      degree demoDeg "t1" 3 = 2 ∧
      (findPossibleOpponents (getT demoDeg 3) demoDeg "t2").length = 1 ∧
      degree demoDeg "t1" 3 ≠ (findPossibleOpponents (getT demoDeg 3) demoDeg "t2").length :=
  ⟨by decide, by decide, by decide, by decide, by decide⟩

/-- C17 (amended): for every collection with pairwise distinct names, every query `(T, s)`
and every candidate `c` it returns, the degree used to rank `c` is the length of
`findPossibleOpponents (teams[c], teams, s)` for the same slot `s`: the number of teams that
`teams[c]` could still be paired with in the slot of the query. -/
theorem degree_same_slot (teams : List CalendarTeam)
    (hn : (teams.map (fun t => t.name)).Nodup) (T : CalendarTeam) (s : String) (c : Nat)
    (hc : c ∈ findPossibleOpponents T teams s) :
    degree teams s c = (findPossibleOpponents (getT teams c) teams s).length := by
  have hcN := lt_of_mem_findPossibleOpponents _ _ _ _ hc
  rw [(findPossibleOpponents_perm (getT teams c) teams s).length_eq]
  unfold degree candidateIndices
  congr 1
  apply List.filter_congr
  intro j hj
  rw [List.mem_range] at hj
  have hname : (getT teams j).name = (getT teams c).name ↔ j = c :=
    ⟨name_inj_of_nodup teams hn j c hj hcN, fun e => by rw [e]⟩
  unfold degreeCounts isCandidate
  simp only [hname]

/-- Witness of C17 (amended): Bayern as a candidate for the host slot of Ajax in `demoDeg`. -/
theorem degree_same_slot_witness :
    ((demoDeg.map (fun t => t.name)).Nodup ∧
      3 ∈ findPossibleOpponents (getT demoDeg 2) demoDeg "t1") ∧
    degree demoDeg "t1" 3 = (findPossibleOpponents (getT demoDeg 3) demoDeg "t1").length :=
  ⟨by decide, degree_same_slot demoDeg (by decide) (getT demoDeg 2) "t1" 3 (by decide)⟩

/-! ### The base case -/

theorem any_empty_iff (teams : List CalendarTeam) :
    teams.any (fun t => decide (t.t1 = "" ∨ t.t2 = "")) = true ↔
      ¬ ∀ i, i < teams.length → (getT teams i).t1 ≠ "" ∧ (getT teams i).t2 ≠ "" := by
  rw [List.any_eq_true]
  constructor
  · rintro ⟨t, ht, hf⟩ hall
    obtain ⟨i, hi, rfl⟩ := exists_index teams t ht
    rw [decide_eq_true_eq] at hf
    rcases hf with hf | hf
    · exact (hall i hi).1 hf
    · exact (hall i hi).2 hf
  · intro h
    by_contra hne
    apply h
    intro i hi
    constructor
    · intro h1
      exact hne ⟨getT teams i, getT_mem teams i hi, by rw [decide_eq_true_eq]; exact Or.inl h1⟩
    · intro h2
      exact hne ⟨getT teams i, getT_mem teams i hi, by rw [decide_eq_true_eq]; exact Or.inr h2⟩

/-- C18 (counterexample): on `demoBase`, whose names are pairwise distinct and non-empty, the
base case returns `true`, although PSG has `t1 = t2` and hosts Dortmund without being the
guest opponent of Dortmund. -/
theorem base_case_counterexample :
    NamesOK demoBase ∧ assignMatchesBT 1 demoBase demoBase.length = some (true, demoBase) ∧
      (getT demoBase 0).t1 = (getT demoBase 0).t2 ∧
      (getT demoBase 0).t1 = (getT demoBase 1).name ∧
      (getT demoBase 1).t2 ≠ (getT demoBase 0).name :=
  ⟨by decide, by decide, by decide, by decide, by decide⟩

/-- C18 (amended): for every collection of `N` teams with arbitrary slot contents the call at
`idx = N` returns, leaves the collection as it is, and returns `true` exactly when every slot
is filled (invariant 6) and no two different teams host each other or are the guests of each
other (invariant 5 for mirrored matches); `t1 ≠ t2` and mirror consistency are not tested. -/
theorem base_case_checks (fuel : Nat) (teams : List CalendarTeam) :
    ∃ b, assignMatchesBT (fuel + 1) teams teams.length = some (b, teams) ∧
      (b = true ↔
        (∀ i, i < teams.length → (getT teams i).t1 ≠ "" ∧ (getT teams i).t2 ≠ "") ∧
        ¬ ∃ i j, i < teams.length ∧ j < teams.length ∧ i ≠ j ∧
          (((getT teams i).t1 = (getT teams j).name ∧
              (getT teams j).t1 = (getT teams i).name) ∨
            ((getT teams i).t2 = (getT teams j).name ∧
              (getT teams j).t2 = (getT teams i).name))) := by
  refine ⟨finalCheck teams, ?_, ?_⟩
  · rw [assignMatchesBT, if_pos rfl]
  · have hA := any_empty_iff teams
    have hB := duplicateMatch_iff teams
    unfold finalCheck
    by_cases h1 : teams.any (fun t => decide (t.t1 = "" ∨ t.t2 = "")) = true
    · rw [if_pos h1]
      constructor
      · intro h
        exact absurd h Bool.false_ne_true
      · intro h
        exact absurd h.1 (hA.mp h1)
    · by_cases h2 : duplicateMatch teams = true
      · rw [if_neg h1, if_pos h2]
        constructor
        · intro h
          exact absurd h Bool.false_ne_true
        · intro h
          exact absurd (hB.mp h2) h.2
      · rw [if_neg h1, if_neg h2]
        constructor
        · intro _
          refine ⟨?_, fun h => h2 (hB.mpr h)⟩
          by_contra h
          exact h1 (hA.mpr h)
        · intro _
          rfl

/-! ### The oracle on solvable states -/

/-- In a valid schedule hosting is onto: every team is the host opponent of some team. -/
theorem schedule_hosted (teams sched : List CalendarTeam) (hn : NamesOK teams)
    (hv : ValidSchedule teams sched) (i : Nat) (hi : i < teams.length) :
    ∃ a, a < teams.length ∧ (getT sched a).t1 = (getT sched i).name := by
  obtain ⟨_, hsame, _, hr1, _, _, _, hmir, _, _⟩ := hv
  have hinj := name_inj_of_nodup teams hn.1
  have hex1 : ∀ i, ∃ j, i < teams.length →
      j < teams.length ∧ (getT sched i).t1 = (getT sched j).name := by
    intro i
    by_cases hi : i < teams.length
    · obtain ⟨j, hj⟩ := hr1 i hi
      exact ⟨j, fun _ => hj⟩
    · exact ⟨0, fun h => absurd h hi⟩
  choose h hh using hex1
  have himg : (Finset.range teams.length).image h = Finset.range teams.length := by
    apply Finset.eq_of_subset_of_card_le
    · intro w hw
      obtain ⟨u, hu, huw⟩ := Finset.mem_image.mp hw
      rw [Finset.mem_range] at hu ⊢
      rw [← huw]
      exact (hh u hu).1
    · rw [Finset.card_image_of_injOn]
      intro a ha b hb hab
      rw [Finset.mem_coe, Finset.mem_range] at ha hb
      apply hinj a b ha hb
      have h3 := hmir a ha (h a) (hh a ha).1 (hh a ha).2
      have h4 := hmir b hb (h b) (hh b hb).1 (hh b hb).2
      rw [hab] at h3
      rw [← (hsame a ha).1, ← (hsame b hb).1, ← h3, ← h4]
  have hmem : i ∈ (Finset.range teams.length).image h := by
    rw [himg, Finset.mem_range]
    exact hi
  obtain ⟨a, ha, hai⟩ := Finset.mem_image.mp hmem
  rw [Finset.mem_range] at ha
  exact ⟨a, ha, by rw [(hh a ha).2, hai]⟩

/-- In a valid schedule mirror consistency holds in the other direction too: if `A` is the
guest of `B`, then `B` hosts `A`. -/
theorem schedule_mirror_conv (teams sched : List CalendarTeam) (hn : NamesOK teams)
    (hv : ValidSchedule teams sched) (i j : Nat) (hi : i < teams.length)
    (hj : j < teams.length) (h : (getT sched i).t2 = (getT sched j).name) :
    (getT sched j).t1 = (getT sched i).name := by
  obtain ⟨a, ha, hai⟩ := schedule_hosted teams sched hn hv i hi
  obtain ⟨_, hsame, _, _, _, _, _, hmir, _, _⟩ := hv
  have h1 := hmir a ha i hi hai
  have h2 : a = j := by
    apply name_inj_of_nodup teams hn.1 a j ha hj
    rw [← (hsame a ha).1, ← (hsame j hj).1, ← h1, h]
  rw [← h2]
  exact hai

/-- C20 (the lookahead never prunes a solvable state): for every collection with pairwise
distinct non-empty names whose filled slots are mirror-consistent, if some valid schedule
(invariants 1-6) keeps the filled slots, then `lookahead teams` returns `true`. -/
theorem lookahead_keeps_solvable (teams sched : List CalendarTeam) (hn : NamesOK teams)
    (hm : MirrorOK teams) (hv : ValidSchedule teams sched) (hk : KeepsFilled teams sched) :
    lookahead teams = true := by
  have hconv := schedule_mirror_conv teams sched hn hv
  obtain ⟨_, hsame, _, hr1, hr2, hself, hdist, hmir, hex, hnd⟩ := hv
  have hne : ∀ i, i < teams.length → (getT teams i).name ≠ "" :=
    fun i hi => hn.2 _ (getT_mem teams i hi)
  have hnm : ∀ i, i < teams.length → (getT sched i).name = (getT teams i).name :=
    fun i hi => (hsame i hi).1
  have hct : ∀ i, i < teams.length → (getT sched i).country = (getT teams i).country :=
    fun i hi => (hsame i hi).2
  have k1 : ∀ i, i < teams.length → ∀ x, x ≠ "" → (getT teams i).t1 = x →
      (getT sched i).t1 = x := by
    intro i hi x hx e
    rw [(hk i hi).1 (by rw [e]; exact hx), e]
  have k2 : ∀ i, i < teams.length → ∀ x, x ≠ "" → (getT teams i).t2 = x →
      (getT sched i).t2 = x := by
    intro i hi x hx e
    rw [(hk i hi).2 (by rw [e]; exact hx), e]
  rw [lookahead_iff]
  rintro (⟨i, hi, ha1, ha2⟩ | ⟨i, hi, hb1, hb2⟩ | ⟨i, hi, hc1, hc2⟩ | ⟨i, j, hi, hj, _, hd⟩)
  · apply hdist i hi
    rw [k1 i hi _ ha1 rfl, k2 i hi _ ha1 ha2.symm]
  · obtain ⟨j, hj, hs⟩ := hr1 i hi
    rw [hnm j hj] at hs
    have n6 : (getT teams j).t2 ≠ (getT teams i).name := by
      intro e
      have := (hm i hi j hj).mpr e
      rw [hb1] at this
      exact hne j hj this.symm
    have hmem : j ∈ findPossibleOpponents (getT teams i) teams "t1" := by
      rw [mem_findPossibleOpponents, mem_candidateIndices, isCandidate_iff]
      refine ⟨hj, ?_, ?_, ?_, ?_, ?_, n6, Or.inl ⟨rfl, ?_⟩⟩
      · intro e
        apply (hself i hi).1
        rw [hs, hnm i hi, e]
      · have := hex i hi j hj (Or.inl (by rw [hs, hnm j hj]))
        rw [hct i hi, hct j hj] at this
        exact fun e => this e.symm
      · rw [hb1]
        exact Ne.symm (hne j hj)
      · intro e
        apply hdist i hi
        rw [hs, k2 i hi _ (hne j hj) e]
      · intro e
        apply (hnd i hi j hj).1
        rw [hs, hnm j hj, k1 j hj _ (hne i hi) e, hnm i hi]
        exact ⟨rfl, rfl⟩
      · by_contra hf
        apply n6
        have h1 := hmir i hi j hj (by rw [hs, hnm j hj])
        rw [(hk j hj).2 hf, hnm i hi] at h1
        exact h1
    rw [hb2] at hmem
    exact List.not_mem_nil _ hmem
  · obtain ⟨j, hj, hs⟩ := hr2 i hi
    rw [hnm j hj] at hs
    have n5 : (getT teams j).t1 ≠ (getT teams i).name := by
      intro e
      have := (hm j hj i hi).mp e
      rw [hc1] at this
      exact hne j hj this.symm
    have hmem : j ∈ findPossibleOpponents (getT teams i) teams "t2" := by
      rw [mem_findPossibleOpponents, mem_candidateIndices, isCandidate_iff]
      refine ⟨hj, ?_, ?_, ?_, ?_, n5, ?_, Or.inr ⟨rfl, ?_⟩⟩
      · intro e
        apply (hself i hi).2
        rw [hs, hnm i hi, e]
      · have := hex i hi j hj (Or.inr (by rw [hs, hnm j hj]))
        rw [hct i hi, hct j hj] at this
        exact fun e => this e.symm
      · intro e
        apply hdist i hi
        rw [hs, k1 i hi _ (hne j hj) e]
      · rw [hc1]
        exact Ne.symm (hne j hj)
      · intro e
        apply (hnd i hi j hj).2
        rw [hs, hnm j hj, k2 j hj _ (hne i hi) e, hnm i hi]
        exact ⟨rfl, rfl⟩
      · by_contra hf
        apply n5
        have h1 := hconv i j hi hj (by rw [hs, hnm j hj])
        rw [(hk j hj).1 hf, hnm i hi] at h1
        exact h1
    rw [hc2] at hmem
    exact List.not_mem_nil _ hmem
  · rcases hd with ⟨h1, h2⟩ | ⟨h1, h2⟩
    · apply (hnd i hi j hj).1
      rw [k1 i hi _ (hne j hj) h1, k1 j hj _ (hne i hi) h2, hnm i hi, hnm j hj]
      exact ⟨rfl, rfl⟩
    · apply (hnd i hi j hj).2
      rw [k2 i hi _ (hne j hj) h1, k2 j hj _ (hne i hi) h2, hnm i hi, hnm j hj]
      exact ⟨rfl, rfl⟩

/-- Witness of C20: `demoDeg` is completed by the valid schedule `demoDegOut`. -/
theorem lookahead_keeps_solvable_witness :
    (NamesOK demoDeg ∧ MirrorOK demoDeg ∧ ValidSchedule demoDeg demoDegOut ∧
      KeepsFilled demoDeg demoDegOut) ∧ lookahead demoDeg = true :=
  ⟨by decide, lookahead_keeps_solvable demoDeg demoDegOut (by decide) (by decide) (by decide)
    (by decide)⟩

/-! ### Two countries -/

/-- A collection reached by kept assignments that passes the base case is a valid schedule of
the collection the search was started on. -/
theorem valid_of_reach (teams out : List CalendarTeam) (hn : NamesOK teams)
    (he : SlotsEmpty teams) (hr : Reach teams out) (hf : finalCheck out = true) :
    ValidSchedule teams out := by
  have hinv : Inv out := Inv_reach teams out hr (Inv_of_empty teams hn he)
  have hlen := length_reach teams out hr
  have hlt : ∀ i, i < teams.length → i < out.length := fun i hi => by rw [hlen]; exact hi
  have hfl : ∀ i, i < teams.length → (getT out i).t1 ≠ "" ∧ (getT out i).t2 ≠ "" :=
    fun i hi => finalCheck_filled out hf _ (getT_mem out i (hlt i hi))
  refine ⟨hlen, fun i _ => fields_reach teams out hr i, hfl, ?_, ?_, ?_, ?_, ?_, ?_, ?_⟩
  · intro i hi
    rcases hinv.closed1 i (hlt i hi) with h1 | ⟨b, hb, e⟩
    · exact absurd h1 (hfl i hi).1
    · exact ⟨b, by rw [← hlen]; exact hb, e⟩
  · intro i hi
    rcases hinv.closed2 i (hlt i hi) with h1 | ⟨b, hb, e⟩
    · exact absurd h1 (hfl i hi).2
    · exact ⟨b, by rw [← hlen]; exact hb, e⟩
  · intro i hi
    exact Inv_noself out hinv _ (getT_mem out i (hlt i hi))
  · intro i hi
    exact hinv.distinct i (hlt i hi) (hfl i hi).1
  · intro a ha b hb
    exact (hinv.mirror a b (hlt a ha) (hlt b hb)).mp
  · intro a ha b hb hab
    rcases hab with h1 | h1
    · exact hinv.excl a b (hlt a ha) (hlt b hb) h1
    · exact Ne.symm (hinv.excl b a (hlt b hb) (hlt a ha)
        ((hinv.mirror b a (hlt b hb) (hlt a ha)).mpr h1))
  · intro a ha b hb
    constructor
    · rintro ⟨h1, h2⟩
      have h3 := (hinv.mirror a b (hlt a ha) (hlt b hb)).mp h1
      exact hinv.distinct b (hlt b hb) (hfl b hb).1 (h2.trans h3.symm)
    · rintro ⟨h1, h2⟩
      have h3 := (hinv.mirror b a (hlt b hb) (hlt a ha)).mpr h1
      exact hinv.distinct b (hlt b hb) (hfl b hb).1 (h3.trans h2.symm)

/-- A successful run leaves a valid schedule of the collection it was started on. -/
theorem valid_of_true (teams out : List CalendarTeam) (hn : NamesOK teams)
    (he : SlotsEmpty teams) (h : solve teams = some (true, out)) :
    ValidSchedule teams out :=
  valid_of_reach teams out hn he (solve_true teams out h).1 (solve_true teams out h).2

/-- With ties in index order (`teamOrder`): with exactly two countries of equally many
teams, and at least three teams, the driver returns `true`. -/
theorem two_groups_equal_succeeds (teams : List CalendarTeam) (hN : 3 ≤ teams.length)
    (hn : NamesOK teams) (he : SlotsEmpty teams) (x y : String) (hxy : x ≠ y)
    (hc : (teams.map (fun t => t.country)).toFinset = {x, y})
    (heq : classSize (fun i => (getT teams i).country) teams.length x =
      classSize (fun i => (getT teams i).country) teams.length y) :
    ∃ out, solve teams = some (true, out) := by
  have h3 := classSize_two (fun i => (getT teams i).country) teams.length x y hxy
  have h4 : ((Finset.range teams.length).filter
      (fun i => (getT teams i).country ≠ x ∧ (getT teams i).country ≠ y)).card = 0 := by
    rw [Finset.card_eq_zero, Finset.filter_eq_empty_iff]
    intro i hi hne
    rw [Finset.mem_range] at hi
    have hmem : (getT teams i).country ∈ (teams.map (fun t => t.country)).toFinset := by
      rw [List.mem_toFinset]
      exact List.mem_map.mpr ⟨_, getT_mem teams i hi, rfl⟩
    rw [hc, Finset.mem_insert, Finset.mem_singleton] at hmem
    rcases hmem with h | h
    · exact hne.1 h
    · exact hne.2 h
  rw [h4] at h3
  have hstar : ∀ z, 2 * classSize (fun i => (getT teams i).country) teams.length z ≤
      teams.length := by
    intro z
    by_cases hzx : z = x
    · rw [hzx]; omega
    · by_cases hzy : z = y
      · rw [hzy]; omega
      · have := classSize_three (fun i => (getT teams i).country) teams.length x y z hxy
          hzx hzy
        omega
  obtain ⟨h, g, inU, hp⟩ := plan_exists teams hN hstar
  exact solve_of_plan teams h g inU _ hp hn he

/-- C12 (counterexample): `demo22` has four teams with distinct non-empty names, empty slots
and exactly the two countries England and France, and the driver returns `true` on it. -/
theorem two_groups_counterexample :
    4 ≤ demo22.length ∧ NamesOK demo22 ∧ SlotsEmpty demo22 ∧
      (demo22.map (fun t => t.country)).toFinset = {"England", "France"} ∧
      solve demo22 = some (true, demo22Out) :=
  ⟨by decide, by decide, by decide, by decide, by decide⟩

/-- C12 (amended): for every collection of at least 4 teams with pairwise distinct non-empty
names and every slot empty whose countries are exactly two, `x` and `y`, with different
numbers of teams, the driver returns `false` (leaving the collection as it was). -/
theorem two_groups_unequal_fails (teams : List CalendarTeam) (_hN : 4 ≤ teams.length)
    (hn : NamesOK teams) (he : SlotsEmpty teams) (x y : String) (hxy : x ≠ y)
    (hc : (teams.map (fun t => t.country)).toFinset = {x, y})
    (hdiff : classSize (fun i => (getT teams i).country) teams.length x ≠
      classSize (fun i => (getT teams i).country) teams.length y) :
    solve teams = some (false, teams) := by
  obtain ⟨b, out, hs, _⟩ := solve_returns teams
  cases b
  · rw [hs, solve_false teams out hs]
  · exfalso
    have hv := valid_of_true teams out hn he hs
    have h1 := schedule_half teams out hn he hv x
    have h2 := schedule_half teams out hn he hv y
    have h3 := classSize_two (fun i => (getT teams i).country) teams.length x y hxy
    have h4 : ((Finset.range teams.length).filter
        (fun i => (getT teams i).country ≠ x ∧ (getT teams i).country ≠ y)).card = 0 := by
      rw [Finset.card_eq_zero, Finset.filter_eq_empty_iff]
      intro i hi hne
      rw [Finset.mem_range] at hi
      have hmem : (getT teams i).country ∈ (teams.map (fun t => t.country)).toFinset := by
        rw [List.mem_toFinset]
        exact List.mem_map.mpr ⟨_, getT_mem teams i hi, rfl⟩
      rw [hc, Finset.mem_insert, Finset.mem_singleton] at hmem
      rcases hmem with h | h
      · exact hne.1 h
      · exact hne.2 h
    rw [h4] at h3
    omega

/-- Witness of C12 (amended) on `demo31`: three English teams and one French team. -/
theorem two_groups_unequal_fails_witness :
    (4 ≤ demo31.length ∧ NamesOK demo31 ∧ SlotsEmpty demo31 ∧ "England" ≠ "France" ∧
      (demo31.map (fun t => t.country)).toFinset = {"England", "France"} ∧
      classSize (fun i => (getT demo31 i).country) demo31.length "England" ≠
        classSize (fun i => (getT demo31 i).country) demo31.length "France") ∧
    solve demo31 = some (false, demo31) :=
  ⟨by decide, two_groups_unequal_fails demo31 (by decide) (by decide) (by decide) "England"
    "France" (by decide) (by decide) (by decide)⟩

/-! ### The order of ties

The source sorts `teamOrder` with `std::sort` and a comparator on `matchesAssigned`, which
leaves the order of teams with equally many matches to the library.  The driver is therefore
also given with the outcome of the sort as a parameter: soundness and termination hold for
every outcome, success does not. -/

/-- The driver with the sort outcome `teamOrder` is `assignMatchesBT`. -/
theorem assignMatchesBTWith_teamOrder (fuel : Nat) (teams : List CalendarTeam) (idx : Nat) :
    assignMatchesBTWith teamOrder fuel teams idx = assignMatchesBT fuel teams idx := by
  induction fuel generalizing teams idx with
  | zero => rfl
  | succ fuel ih =>
    unfold assignMatchesBTWith assignMatchesBT
    split
    · rfl
    · congr 1
      funext ts
      exact ih ts (idx + 1)

theorem solveWith_teamOrder (teams : List CalendarTeam) :
    solveWith teamOrder teams = solve teams :=
  assignMatchesBTWith_teamOrder _ teams 0

theorem mem_of_sortedOrder (ord : List CalendarTeam → Nat → List Nat) (hord : SortedOrder ord)
    (teams : List CalendarTeam) (idx t : Nat) (h : t ∈ ord teams idx) :
    idx ≤ t ∧ t < teams.length := by
  have := ((hord teams idx).1.mem_iff).mp h
  rw [List.mem_range'_1] at this
  omega

theorem assignMatchesBTWith_sound (ord : List CalendarTeam → Nat → List Nat)
    (hord : SortedOrder ord) (fuel : Nat) (teams : List CalendarTeam) (idx : Nat) :
    Sound teams (assignMatchesBTWith ord fuel teams idx) := by
  induction fuel generalizing teams idx with
  | zero => simp [assignMatchesBTWith, Sound]
  | succ fuel ih =>
    unfold assignMatchesBTWith
    split
    · cases hf : finalCheck teams
      · simp [Sound]
      · simp only [Sound]
        exact ⟨Relation.ReflTransGen.refl, hf⟩
    · exact orderLoop_sound _ (fun ts => ih ts (idx + 1)) _ teams
        (fun t ht => (mem_of_sortedOrder ord hord teams idx t ht).2)

theorem assignMatchesBTWith_returns (ord : List CalendarTeam → Nat → List Nat) (fuel : Nat)
    (teams : List CalendarTeam) (idx : Nat)
    (hidx : idx ≤ teams.length) (hfuel : teams.length - idx < fuel) :
    Returns teams.length (assignMatchesBTWith ord fuel teams idx) := by
  induction fuel generalizing teams idx with
  | zero => omega
  | succ fuel ih =>
    unfold assignMatchesBTWith
    split
    · exact ⟨_, teams, rfl, rfl⟩
    · rename_i hne
      apply orderLoop_returns _ teams.length _ _ teams rfl
      intro ts hts
      have := ih ts (idx + 1) (by omega) (by omega)
      rw [hts] at this
      exact this

theorem matches_le_total (ts : List CalendarTeam) (a b : Nat) :
    (getT ts a).matchesAssigned ≤ (getT ts b).matchesAssigned ∨
      (getT ts b).matchesAssigned ≤ (getT ts a).matchesAssigned :=
  Nat.le_total _ _

/-- The model's `teamOrder` is an outcome that `std::sort` may produce. -/
theorem sortedOrder_teamOrder : SortedOrder teamOrder := by
  intro teams idx
  unfold teamOrder
  exact ⟨List.perm_insertionSort _ _,
    @List.sorted_insertionSort _
      (fun a b => (getT teams a).matchesAssigned ≤ (getT teams b).matchesAssigned) _
      ⟨fun a b => matches_le_total teams a b⟩ ⟨fun _ _ _ h1 h2 => Nat.le_trans h1 h2⟩ _⟩

/-- The order with ties reversed is an outcome that `std::sort` may produce. -/
theorem sortedOrder_teamOrderRev : SortedOrder teamOrderRev := by
  intro teams idx
  unfold teamOrderRev
  exact ⟨(List.perm_insertionSort _ _).trans (List.reverse_perm _),
    @List.sorted_insertionSort _
      (fun a b => (getT teams a).matchesAssigned ≤ (getT teams b).matchesAssigned) _
      ⟨fun a b => matches_le_total teams a b⟩ ⟨fun _ _ _ h1 h2 => Nat.le_trans h1 h2⟩ _⟩

/-- Whatever the sort does with ties: started on a collection with pairwise distinct
non-empty names and empty slots, the driver returns; if it returns `false` the collection is
as it was, and if it returns `true` the collection is a valid schedule (invariants 1-6). -/
theorem solveWith_result (ord : List CalendarTeam → Nat → List Nat) (hord : SortedOrder ord)
    (teams : List CalendarTeam) (hn : NamesOK teams) (he : SlotsEmpty teams) :
    ∃ b out, solveWith ord teams = some (b, out) ∧ (b = false → out = teams) ∧
      (b = true → ValidSchedule teams out) := by
  unfold solveWith
  obtain ⟨b, out, hs, _⟩ := assignMatchesBTWith_returns ord (teams.length + 1) teams 0
    (Nat.zero_le _) (by omega)
  have hsound := assignMatchesBTWith_sound ord hord (teams.length + 1) teams 0
  rw [hs] at hsound
  refine ⟨b, out, hs, ?_, ?_⟩
  · intro hb
    rw [hb] at hsound
    exact hsound
  · intro hb
    rw [hb] at hsound
    exact valid_of_reach teams out hn he hsound.1 hsound.2

/-- Inserting an index that is smaller than the indices of a list sorted by (key, index)
keeps the list sorted by (key, index). -/
theorem orderedInsert_indexTies (k : Nat → Nat) (a : Nat) (l : List Nat)
    (hl : l.Pairwise (fun x y => k x < k y ∨ (k x = k y ∧ x < y)))
    (ha : ∀ c ∈ l, a < c) :
    (l.orderedInsert (fun x y => k x ≤ k y) a).Pairwise
      (fun x y => k x < k y ∨ (k x = k y ∧ x < y)) := by
  induction l with
  | nil => simp
  | cons b l ih =>
    rw [List.pairwise_cons] at hl
    rw [List.orderedInsert]
    split
    · rename_i hab
      rw [List.pairwise_cons]
      refine ⟨?_, List.pairwise_cons.mpr hl⟩
      intro c hc
      have hac := ha c hc
      rcases List.mem_cons.mp hc with e | hc2
      · subst e
        omega
      · have := hl.1 c hc2
        omega
    · rename_i hab
      rw [List.pairwise_cons]
      refine ⟨?_, ih hl.2 (fun c hc => ha c (List.mem_cons_of_mem _ hc))⟩
      intro c hc
      rcases (List.mem_orderedInsert _).mp hc with e | hc2
      · subst e
        omega
      · exact hl.1 c hc2

theorem insertionSort_indexTies (k : Nat → Nat) (l : List Nat)
    (hl : l.Pairwise (fun x y => x < y)) :
    (l.insertionSort (fun x y => k x ≤ k y)).Pairwise
      (fun x y => k x < k y ∨ (k x = k y ∧ x < y)) := by
  induction l with
  | nil => simp
  | cons a l ih =>
    rw [List.pairwise_cons] at hl
    rw [List.insertionSort]
    apply orderedInsert_indexTies k a _ (ih hl.2)
    intro c hc
    rw [List.mem_insertionSort] at hc
    exact hl.1 c hc

/-- The model's `teamOrder` keeps teams with equally many matches in index order. -/
theorem indexTies_teamOrder : IndexTies teamOrder := by
  intro teams idx
  unfold teamOrder
  exact ⟨List.perm_insertionSort _ _,
    insertionSort_indexTies (fun a => (getT teams a).matchesAssigned) _
      (List.pairwise_lt_range' _ _)⟩

/-- There is one sort outcome with ties in index order: `teamOrder`. -/
theorem indexTies_unique (ord : List CalendarTeam → Nat → List Nat) (hord : IndexTies ord) :
    ord = teamOrder := by
  funext teams idx
  have h1 := hord teams idx
  have h2 := indexTies_teamOrder teams idx
  exact @List.eq_of_perm_of_sorted _
    (fun a b => (getT teams a).matchesAssigned < (getT teams b).matchesAssigned ∨
      ((getT teams a).matchesAssigned = (getT teams b).matchesAssigned ∧ a < b))
    ⟨fun a b hab hba => by omega⟩ _ _ (h1.1.trans h2.1.symm) h1.2 h2.2

theorem sortedOrder_of_indexTies (ord : List CalendarTeam → Nat → List Nat)
    (hord : IndexTies ord) : SortedOrder ord := by
  rw [indexTies_unique ord hord]
  exact sortedOrder_teamOrder

/-! ### With ties in reverse index order the search fails -/

/-- A `t1` loop that ends in success ends in the success of the recursive call after one of
its assignments, made in the collection the loop was started on. -/
theorem tryT1_true (next : List CalendarTeam → Outcome) (hn : ∀ ts, Sound ts (next ts))
    (T : Nat) (cands : List Nat) (teams out : List CalendarTeam)
    (h1 : (getT teams T).t1 = "") (h : tryT1 next T cands teams = some (true, out)) :
    ∃ i, i ∈ cands ∧ (getT teams i).t2 = "" ∧ next (assignT1 teams T i) = some (true, out) := by
  induction cands with
  | nil => simp [tryT1] at h
  | cons i rest ih =>
    have lift : (∃ j, j ∈ rest ∧ (getT teams j).t2 = "" ∧
        next (assignT1 teams T j) = some (true, out)) →
        ∃ j, j ∈ i :: rest ∧ (getT teams j).t2 = "" ∧
          next (assignT1 teams T j) = some (true, out) := by
      rintro ⟨j, hj, h2, h3⟩
      exact ⟨j, List.mem_cons_of_mem _ hj, h2, h3⟩
    unfold tryT1 at h
    by_cases h2 : (getT teams i).t2 = ""
    · simp only [h2, ne_eq, not_true_eq_false, if_false] at h
      have hundo := undoT1_assignT1 teams T i h1 h2
      by_cases hl : lookahead (assignT1 teams T i) = true
      · simp only [hl, if_true] at h
        have hs := hn (assignT1 teams T i)
        rcases hx : next (assignT1 teams T i) with _ | ⟨b, o⟩
        · rw [hx] at h
          simp at h
        · rw [hx] at hs h
          cases b
          · simp only [Sound] at hs
            simp only at h
            rw [hs, hundo] at h
            exact lift (ih h)
          · simp only [Option.some.injEq, Prod.mk.injEq, true_and] at h
            subst h
            exact ⟨i, List.mem_cons_self _ _, h2, hx⟩
      · simp only [hl, Bool.false_eq_true, if_false] at h
        rw [hundo] at h
        exact lift (ih h)
    · simp only [ne_eq, h2, not_false_eq_true, if_true] at h
      exact lift (ih h)

theorem tryT2_true (next : List CalendarTeam → Outcome) (hn : ∀ ts, Sound ts (next ts))
    (T : Nat) (cands : List Nat) (teams out : List CalendarTeam)
    (h1 : (getT teams T).t2 = "") (h : tryT2 next T cands teams = some (true, out)) :
    ∃ i, i ∈ cands ∧ (getT teams i).t1 = "" ∧ next (assignT2 teams T i) = some (true, out) := by
  induction cands with
  | nil => simp [tryT2] at h
  | cons i rest ih =>
    have lift : (∃ j, j ∈ rest ∧ (getT teams j).t1 = "" ∧
        next (assignT2 teams T j) = some (true, out)) →
        ∃ j, j ∈ i :: rest ∧ (getT teams j).t1 = "" ∧
          next (assignT2 teams T j) = some (true, out) := by
      rintro ⟨j, hj, h2, h3⟩
      exact ⟨j, List.mem_cons_of_mem _ hj, h2, h3⟩
    unfold tryT2 at h
    by_cases h2 : (getT teams i).t1 = ""
    · simp only [h2, ne_eq, not_true_eq_false, if_false] at h
      have hundo := undoT2_assignT2 teams T i h1 h2
      by_cases hl : lookahead (assignT2 teams T i) = true
      · simp only [hl, if_true] at h
        have hs := hn (assignT2 teams T i)
        rcases hx : next (assignT2 teams T i) with _ | ⟨b, o⟩
        · rw [hx] at h
          simp at h
        · rw [hx] at hs h
          cases b
          · simp only [Sound] at hs
            simp only at h
            rw [hs, hundo] at h
            exact lift (ih h)
          · simp only [Option.some.injEq, Prod.mk.injEq, true_and] at h
            subst h
            exact ⟨i, List.mem_cons_self _ _, h2, hx⟩
      · simp only [hl, Bool.false_eq_true, if_false] at h
        rw [hundo] at h
        exact lift (ih h)
    · simp only [ne_eq, h2, not_false_eq_true, if_true] at h
      exact lift (ih h)

/-- A team for which the driver succeeds was given an opponent in one of its slots, after
which the recursive call succeeded. -/
theorem tryTeam_true (next : List CalendarTeam → Outcome) (hn : ∀ ts, Sound ts (next ts))
    (T : Nat) (teams out : List CalendarTeam) (hT : T < teams.length)
    (h : tryTeam next T teams = some (true, out)) :
    ∃ i ts2, Move teams T i ts2 ∧ next ts2 = some (true, out) := by
  unfold tryTeam at h
  by_cases h1 : (getT teams T).t1 = ""
  · simp only [h1, if_true] at h
    have hs := tryT1_sound next hn T (findPossibleOpponents (getT teams T) teams "t1") teams hT
      h1 (fun _ hi => hi)
    rcases hx : tryT1 next T (findPossibleOpponents (getT teams T) teams "t1") teams
      with _ | ⟨b, o⟩
    · rw [hx] at h
      simp at h
    · rw [hx] at h hs
      cases b
      · simp only [Sound] at hs
        subst hs
        simp only at h
        by_cases h2 : (getT o T).t2 = ""
        · simp only [h2, if_true] at h
          obtain ⟨i, hi, hi1, hnext⟩ := tryT2_true next hn T _ o out h2 h
          exact ⟨i, _, Or.inr ⟨h2, hi1, hi, rfl⟩, hnext⟩
        · simp [h2] at h
      · simp only [Option.some.injEq, Prod.mk.injEq, true_and] at h
        subst h
        obtain ⟨i, hi, hi2, hnext⟩ := tryT1_true next hn T _ teams o h1 hx
        exact ⟨i, _, Or.inl ⟨h1, hi2, hi, rfl⟩, hnext⟩
  · simp only [h1, if_false] at h
    by_cases h2 : (getT teams T).t2 = ""
    · simp only [h2, if_true] at h
      obtain ⟨i, hi, hi1, hnext⟩ := tryT2_true next hn T _ teams out h2 h
      exact ⟨i, _, Or.inr ⟨h2, hi1, hi, rfl⟩, hnext⟩
    · simp [h2] at h

/-- A level at which the driver succeeds: either every team of the order is complete and the
recursive call succeeds on the same collection, or the first incomplete team of the order is
given an opponent and the recursive call succeeds after that. -/
theorem orderLoop_true (next : List CalendarTeam → Outcome) (hn : ∀ ts, Sound ts (next ts))
    (order : List Nat) (teams out : List CalendarTeam) (ho : ∀ t ∈ order, t < teams.length)
    (h : orderLoop next order teams = some (true, out)) :
    ((∀ t ∈ order, (getT teams t).t1 ≠ "" ∧ (getT teams t).t2 ≠ "") ∧
        next teams = some (true, out)) ∨
      ∃ pre T post i ts2, order = pre ++ T :: post ∧
        (∀ t ∈ pre, (getT teams t).t1 ≠ "" ∧ (getT teams t).t2 ≠ "") ∧
        Move teams T i ts2 ∧ next ts2 = some (true, out) := by
  induction order with
  | nil =>
    left
    exact ⟨fun t ht => absurd ht (List.not_mem_nil t), h⟩
  | cons t rest ih =>
    unfold orderLoop at h
    by_cases hc : (getT teams t).t1 ≠ "" ∧ (getT teams t).t2 ≠ ""
    · rw [if_pos hc] at h
      rcases ih (fun j hj => ho j (List.mem_cons_of_mem _ hj)) h with ⟨hall, hnext⟩ |
        ⟨pre, T, post, i, ts2, he, hpre, hm, hnext⟩
      · left
        refine ⟨?_, hnext⟩
        intro j hj
        rcases List.mem_cons.mp hj with e | hj2
        · rw [e]; exact hc
        · exact hall j hj2
      · right
        refine ⟨t :: pre, T, post, i, ts2, by rw [he]; rfl, ?_, hm, hnext⟩
        intro j hj
        rcases List.mem_cons.mp hj with e | hj2
        · rw [e]; exact hc
        · exact hpre j hj2
    · rw [if_neg hc] at h
      obtain ⟨i, ts2, hm, hnext⟩ := tryTeam_true next hn t teams out
        (ho t (List.mem_cons_self _ _)) h
      right
      exact ⟨[], t, rest, i, ts2, rfl, fun j hj => absurd hj (List.not_mem_nil j), hm, hnext⟩

/-- One level of a successful run of the driver, for any sort outcome. -/
theorem with_true_step (ord : List CalendarTeam → Nat → List Nat) (hord : SortedOrder ord)
    (fuel : Nat) (teams out : List CalendarTeam) (idx : Nat) (hidx : idx ≠ teams.length)
    (h : assignMatchesBTWith ord (fuel + 1) teams idx = some (true, out)) :
    ((∀ t ∈ ord teams idx, (getT teams t).t1 ≠ "" ∧ (getT teams t).t2 ≠ "") ∧
        assignMatchesBTWith ord fuel teams (idx + 1) = some (true, out)) ∨
      ∃ pre T post i ts2, ord teams idx = pre ++ T :: post ∧
        (∀ t ∈ pre, (getT teams t).t1 ≠ "" ∧ (getT teams t).t2 ≠ "") ∧
        Move teams T i ts2 ∧ assignMatchesBTWith ord fuel ts2 (idx + 1) = some (true, out) := by
  rw [assignMatchesBTWith, if_neg hidx] at h
  exact orderLoop_true _ (fun ts => assignMatchesBTWith_sound ord hord fuel ts (idx + 1)) _
    teams out (fun t ht => (mem_of_sortedOrder ord hord teams idx t ht).2) h

theorem matches_le_two (t : CalendarTeam) : t.matchesAssigned ≤ 2 := by
  unfold CalendarTeam.matchesAssigned
  split_ifs <;> omega

theorem matches_of_empty (t : CalendarTeam) (h : t.t1 = "" ∨ t.t2 = "") :
    t.matchesAssigned ≤ 1 := by
  unfold CalendarTeam.matchesAssigned
  rcases h with h | h <;> rw [h] <;> split_ifs <;> simp_all

theorem matches_of_complete (t : CalendarTeam) (h : t.t1 ≠ "" ∧ t.t2 ≠ "") :
    t.matchesAssigned = 2 := by
  unfold CalendarTeam.matchesAssigned
  rw [if_pos h.1, if_pos h.2]

/-- The effect of one assignment on the number of matches of every team: the team and its
candidate gain one match each. -/
theorem move_facts (ts ts2 : List CalendarTeam) (T i : Nat) (hT : T < ts.length)
    (hne : ∀ x, x < ts.length → (getT ts x).name ≠ "") (hm : Move ts T i ts2) :
    i < ts.length ∧ T ≠ i ∧ ts2.length = ts.length ∧
      (∀ x, (getT ts2 x).name = (getT ts x).name) ∧
      (∀ x, (getT ts2 x).matchesAssigned = (getT ts x).matchesAssigned +
        (if x = T then 1 else 0) + (if x = i then 1 else 0)) := by
  rcases hm with ⟨h1, h2, hi, rfl⟩ | ⟨h1, h2, hi, rfl⟩
  · have hiN := lt_of_mem_findPossibleOpponents _ _ _ _ hi
    rw [mem_findPossibleOpponents, mem_candidateIndices, isCandidate_iff] at hi
    have hTi : T ≠ i := fun e => hi.2.1 (by rw [e])
    refine ⟨hiN, hTi, length_assignT1 ts T i, fun x => name_assignT1 ts T i x, ?_⟩
    intro x
    unfold CalendarTeam.matchesAssigned
    rw [t1_assignT1 ts T i x hT, t2_assignT1 ts T i x hiN]
    have n1 := hne i hiN
    have n2 := hne T hT
    by_cases hxT : x = T
    · subst hxT
      rw [if_pos rfl, if_neg hTi, if_pos n1, h1]
      simp [hTi, Nat.add_comm]
    · by_cases hxi : x = i
      · subst hxi
        rw [if_neg hxT, if_pos rfl, if_pos n2, h2]
        simp [hxT, Nat.add_comm]
      · rw [if_neg hxT, if_neg hxi]
        simp [hxT, hxi]
  · have hiN := lt_of_mem_findPossibleOpponents _ _ _ _ hi
    rw [mem_findPossibleOpponents, mem_candidateIndices, isCandidate_iff] at hi
    have hTi : T ≠ i := fun e => hi.2.1 (by rw [e])
    refine ⟨hiN, hTi, length_assignT2 ts T i, fun x => name_assignT2 ts T i x, ?_⟩
    intro x
    unfold CalendarTeam.matchesAssigned
    rw [t2_assignT2 ts T i x hT, t1_assignT2 ts T i x hiN]
    have n1 := hne i hiN
    have n2 := hne T hT
    by_cases hxT : x = T
    · subst hxT
      rw [if_pos rfl, if_neg hTi, if_pos n1, h1]
      simp [hTi, Nat.add_comm]
    · by_cases hxi : x = i
      · subst hxi
        rw [if_neg hxT, if_pos rfl, if_pos n2, h2]
        simp [hxT, Nat.add_comm]
      · rw [if_neg hxT, if_neg hxi]
        simp [hxT, hxi]

/-- One assignment fills two slots. -/
theorem move_filled (ts ts2 : List CalendarTeam) (T i : Nat) (hT : T < ts.length)
    (hne : ∀ x, x < ts.length → (getT ts x).name ≠ "") (hm : Move ts T i ts2) :
    filledSlots ts2 = filledSlots ts + 2 := by
  obtain ⟨hi, _, hlen, _, hmm⟩ := move_facts ts ts2 T i hT hne hm
  unfold filledSlots
  rw [hlen]
  simp only [hmm, Finset.sum_add_distrib, Finset.sum_ite_eq', Finset.mem_range, hT, hi,
    if_true]

/-- A collection that passes the base case has all its slots filled. -/
theorem final_filled (ts : List CalendarTeam) (h : finalCheck ts = true) :
    filledSlots ts = 2 * ts.length := by
  have hf := finalCheck_filled ts h
  unfold filledSlots
  rw [Finset.sum_congr rfl (fun x hx => matches_of_complete _
    (hf _ (getT_mem ts x (Finset.mem_range.mp hx))))]
  simp [Finset.sum_const, Finset.card_range, Nat.mul_comm]

/-- A slot that a move finds empty belongs to a team with at most one match. -/
theorem move_incomplete (ts ts2 : List CalendarTeam) (T i : Nat) (hm : Move ts T i ts2) :
    (getT ts T).matchesAssigned ≤ 1 := by
  rcases hm with ⟨h1, _⟩ | ⟨h1, _⟩
  · exact matches_of_empty _ (Or.inl h1)
  · exact matches_of_empty _ (Or.inr h1)

theorem rev_head_two (ts : List CalendarTeam) (idx : Nat) (hl : ts.length = idx + 2)
    (hk : (getT ts (idx + 1)).matchesAssigned ≤ (getT ts idx).matchesAssigned) :
    teamOrderRev ts idx = [idx + 1, idx] := by
  unfold teamOrderRev
  have h2 : ts.length - idx = 2 := by omega
  rw [h2]
  simp [List.range', List.insertionSort, List.orderedInsert, hk]

theorem rev_head_three (ts : List CalendarTeam) (idx : Nat) (hl : ts.length = idx + 3)
    (h1 : (getT ts (idx + 1)).matchesAssigned = 0)
    (h2 : 1 ≤ (getT ts (idx + 2)).matchesAssigned) :
    ∃ rest, teamOrderRev ts idx = (idx + 1) :: rest := by
  unfold teamOrderRev
  have h3 : ts.length - idx = 3 := by omega
  have h4 : ¬ (getT ts (idx + 2)).matchesAssigned ≤ (getT ts (idx + 1)).matchesAssigned := by
    omega
  have h5 : (getT ts (idx + 1)).matchesAssigned ≤ (getT ts idx).matchesAssigned := by omega
  rw [h3]
  simp [List.range', List.insertionSort, List.orderedInsert, h4, h5]

theorem rev_head_zero (ts : List CalendarTeam) (n : Nat) (hl : ts.length = n + 1)
    (hz : ∀ x, x < ts.length → (getT ts x).matchesAssigned = 0) :
    ∃ rest, teamOrderRev ts 0 = n :: rest := by
  unfold teamOrderRev
  have hs : ((List.range' 0 (ts.length - 0)).reverse).Sorted
      (fun a b => (getT ts a).matchesAssigned ≤ (getT ts b).matchesAssigned) := by
    refine List.Pairwise.imp_of_mem ?_ (List.pairwise_of_forall (R := fun _ _ => True)
      (fun _ _ => trivial))
    intro a b ha hb _
    rw [List.mem_reverse, List.mem_range'_1] at ha hb
    rw [hz a (by omega), hz b (by omega)]
  rw [hs.insertionSort_eq, hl]
  refine ⟨(List.range' 0 n).reverse, ?_⟩
  rw [Nat.sub_zero, List.range'_concat, List.reverse_append]
  simp

theorem head_of_split (P : Nat → Prop) (h : Nat) (r pre post : List Nat) (T : Nat)
    (he : h :: r = pre ++ T :: post) (hpre : ∀ t ∈ pre, P t) (hh : ¬ P h) : T = h := by
  cases pre with
  | nil =>
    simp only [List.nil_append, List.cons.injEq] at he
    exact he.1.symm
  | cons p pre =>
    simp only [List.cons_append, List.cons.injEq] at he
    exact absurd (he.1 ▸ hpre p (List.mem_cons_self _ _)) hh

theorem with_true_final (ord : List CalendarTeam → Nat → List Nat) (fuel : Nat)
    (ts out : List CalendarTeam)
    (h : assignMatchesBTWith ord fuel ts ts.length = some (true, out)) :
    finalCheck ts = true := by
  cases fuel with
  | zero => simp [assignMatchesBTWith] at h
  | succ fuel =>
    rw [assignMatchesBTWith, if_pos rfl] at h
    simp only [Option.some.injEq, Prod.mk.injEq] at h
    exact h.1

/-- With ties in reverse index order: once the last team is complete before the last level,
the driver cannot succeed, as the last level then adds no match. -/
theorem rev_doomed_last (n fuel : Nat) :
    ∀ (ts out : List CalendarTeam) (idx : Nat), ts.length = n → idx < n →
      (∀ x, x < ts.length → (getT ts x).name ≠ "") → filledSlots ts ≤ 2 * idx →
      (getT ts (n - 1)).matchesAssigned = 2 →
      assignMatchesBTWith teamOrderRev fuel ts idx ≠ some (true, out) := by
  induction fuel with
  | zero =>
    intro ts out idx _ _ _ _ _ h
    simp [assignMatchesBTWith] at h
  | succ fuel ih =>
    intro ts out idx hl hidx hne hfill hlast h
    rcases with_true_step teamOrderRev sortedOrder_teamOrderRev fuel ts out idx (by omega) h with
      ⟨_, hnext⟩ | ⟨pre, T, post, i, ts2, he, _, hm, hnext⟩
    · by_cases hb : idx + 1 = n
      · rw [hb, ← hl] at hnext
        have := final_filled ts (with_true_final _ _ _ _ hnext)
        omega
      · exact ih ts out (idx + 1) hl (by omega) hne (by omega) hlast hnext
    · have hTmem : T ∈ teamOrderRev ts idx := by rw [he]; simp
      have hT := mem_of_sortedOrder _ sortedOrder_teamOrderRev ts idx T hTmem
      obtain ⟨_, _, hlen, hnames, hmm⟩ := move_facts ts ts2 T i hT.2 hne hm
      have hf2 := move_filled ts ts2 T i hT.2 hne hm
      have hinc := move_incomplete ts ts2 T i hm
      have hle := matches_le_two (getT ts2 (n - 1))
      have hm1 := hmm (n - 1)
      by_cases hb : idx + 1 = n
      · have hTn : T = n - 1 := by omega
        rw [hTn] at hinc
        omega
      · refine ih ts2 out (idx + 1) (by rw [hlen, hl]) (by omega) ?_ (by omega) (by omega) hnext
        intro x hx
        rw [hnames x]
        exact hne x (by rw [← hlen]; exact hx)

/-- With ties in reverse index order: once the last two teams both have a match, the last
team is the first of the order at level `n - 2` and is completed there. -/
theorem rev_doomed_two (n fuel : Nat) :
    ∀ (ts out : List CalendarTeam) (idx : Nat), ts.length = n → idx + 1 < n →
      (∀ x, x < ts.length → (getT ts x).name ≠ "") → filledSlots ts ≤ 2 * idx →
      1 ≤ (getT ts (n - 1)).matchesAssigned → 1 ≤ (getT ts (n - 2)).matchesAssigned →
      assignMatchesBTWith teamOrderRev fuel ts idx ≠ some (true, out) := by
  induction fuel with
  | zero =>
    intro ts out idx _ _ _ _ _ _ h
    simp [assignMatchesBTWith] at h
  | succ fuel ih =>
    intro ts out idx hl hidx hne hfill h1 h2 h
    by_cases hlast : (getT ts (n - 1)).matchesAssigned = 2
    · exact rev_doomed_last n (fuel + 1) ts out idx hl (by omega) hne hfill hlast h
    have hle := matches_le_two (getT ts (n - 1))
    rcases with_true_step teamOrderRev sortedOrder_teamOrderRev fuel ts out idx (by omega) h with
      ⟨hall, hnext⟩ | ⟨pre, T, post, i, ts2, he, hpre, hm, hnext⟩
    · by_cases hb : idx + 2 = n
      · have e1 : n - 1 = idx + 1 := by omega
        have e2 : n - 2 = idx := by omega
        have ho := rev_head_two ts idx (by omega) (by rw [← e1, ← e2]; omega)
        have hc := matches_of_complete _ (hall (idx + 1) (by rw [ho]; simp))
        rw [← e1] at hc
        exact hlast hc
      · exact ih ts out (idx + 1) hl (by omega) hne (by omega) h1 h2 hnext
    · have hTmem : T ∈ teamOrderRev ts idx := by rw [he]; simp
      have hT := mem_of_sortedOrder _ sortedOrder_teamOrderRev ts idx T hTmem
      obtain ⟨_, hTi, hlen, hnames, hmm⟩ := move_facts ts ts2 T i hT.2 hne hm
      have hf2 := move_filled ts ts2 T i hT.2 hne hm
      have hne2 : ∀ x, x < ts2.length → (getT ts2 x).name ≠ "" := by
        intro x hx
        rw [hnames x]
        exact hne x (by rw [← hlen]; exact hx)
      have hm1 := hmm (n - 1)
      have hm2 := hmm (n - 2)
      by_cases hb : idx + 2 = n
      · have e1 : n - 1 = idx + 1 := by omega
        have e2 : n - 2 = idx := by omega
        have ho := rev_head_two ts idx (by omega) (by rw [← e1, ← e2]; omega)
        rw [ho] at he
        have hTn : T = idx + 1 := head_of_split
          (fun t => (getT ts t).t1 ≠ "" ∧ (getT ts t).t2 ≠ "") _ _ pre post T he hpre (by
            intro hc
            have := matches_of_complete _ hc
            rw [← e1] at this
            exact hlast this)
        have hlast2 : (getT ts2 (n - 1)).matchesAssigned = 2 := by
          rw [hm1, if_pos (by omega), if_neg (by omega)]
          omega
        exact rev_doomed_last n fuel ts2 out (idx + 1) (by rw [hlen, hl]) (by omega) hne2
          (by omega) hlast2 hnext
      · exact ih ts2 out (idx + 1) (by rw [hlen, hl]) (by omega) hne2 (by omega) (by omega)
          (by omega) hnext

/-- With ties in reverse index order: once the last team has a match, the team before it is
the first of the order at level `n - 3` unless it has a match already, so both have one at
level `n - 2`. -/
theorem rev_doomed_three (n fuel : Nat) :
    ∀ (ts out : List CalendarTeam) (idx : Nat), ts.length = n → idx + 2 < n →
      (∀ x, x < ts.length → (getT ts x).name ≠ "") → filledSlots ts ≤ 2 * idx →
      1 ≤ (getT ts (n - 1)).matchesAssigned →
      assignMatchesBTWith teamOrderRev fuel ts idx ≠ some (true, out) := by
  induction fuel with
  | zero =>
    intro ts out idx _ _ _ _ _ h
    simp [assignMatchesBTWith] at h
  | succ fuel ih =>
    intro ts out idx hl hidx hne hfill h1 h
    by_cases h2 : 1 ≤ (getT ts (n - 2)).matchesAssigned
    · exact rev_doomed_two n (fuel + 1) ts out idx hl (by omega) hne hfill h1 h2 h
    rcases with_true_step teamOrderRev sortedOrder_teamOrderRev fuel ts out idx (by omega) h with
      ⟨hall, hnext⟩ | ⟨pre, T, post, i, ts2, he, hpre, hm, hnext⟩
    · by_cases hb : idx + 3 = n
      · have e1 : n - 1 = idx + 2 := by omega
        have e2 : n - 2 = idx + 1 := by omega
        obtain ⟨rest, ho⟩ := rev_head_three ts idx (by omega) (by rw [← e2]; omega)
          (by rw [← e1]; exact h1)
        have hc := matches_of_complete _ (hall (idx + 1) (by rw [ho]; simp))
        rw [← e2] at hc
        omega
      · exact ih ts out (idx + 1) hl (by omega) hne (by omega) h1 hnext
    · have hTmem : T ∈ teamOrderRev ts idx := by rw [he]; simp
      have hT := mem_of_sortedOrder _ sortedOrder_teamOrderRev ts idx T hTmem
      obtain ⟨_, hTi, hlen, hnames, hmm⟩ := move_facts ts ts2 T i hT.2 hne hm
      have hf2 := move_filled ts ts2 T i hT.2 hne hm
      have hne2 : ∀ x, x < ts2.length → (getT ts2 x).name ≠ "" := by
        intro x hx
        rw [hnames x]
        exact hne x (by rw [← hlen]; exact hx)
      have hm1 := hmm (n - 1)
      have hm2 := hmm (n - 2)
      by_cases hb : idx + 3 = n
      · have e1 : n - 1 = idx + 2 := by omega
        have e2 : n - 2 = idx + 1 := by omega
        obtain ⟨rest, ho⟩ := rev_head_three ts idx (by omega) (by rw [← e2]; omega)
          (by rw [← e1]; exact h1)
        rw [ho] at he
        have hTn : T = idx + 1 := head_of_split
          (fun t => (getT ts t).t1 ≠ "" ∧ (getT ts t).t2 ≠ "") _ _ pre post T he hpre (by
            intro hc
            have := matches_of_complete _ hc
            rw [← e2] at this
            omega)
        have h22 : 1 ≤ (getT ts2 (n - 2)).matchesAssigned := by
          rw [hm2, if_pos (by omega)]
          omega
        exact rev_doomed_two n fuel ts2 out (idx + 1) (by rw [hlen, hl]) (by omega) hne2
          (by omega) (by omega) h22 hnext
      · exact ih ts2 out (idx + 1) (by rw [hlen, hl]) (by omega) hne2 (by omega) (by omega)
          hnext

theorem filled_of_empty (ts : List CalendarTeam) (he : SlotsEmpty ts) :
    (∀ x, x < ts.length → (getT ts x).matchesAssigned = 0) ∧ filledSlots ts = 0 := by
  have hz : ∀ x, x < ts.length → (getT ts x).matchesAssigned = 0 := by
    intro x hx
    have := he _ (getT_mem ts x hx)
    unfold CalendarTeam.matchesAssigned
    rw [this.1, this.2]
    simp
  refine ⟨hz, ?_⟩
  unfold filledSlots
  exact Finset.sum_eq_zero (fun x hx => hz x (Finset.mem_range.mp hx))

/-- With ties in reverse index order the driver never returns `true` on a collection of at
least four teams with non-empty names and empty slots: the last team is given a match at
level 0 and would have to be incomplete at the last level. -/
theorem rev_not_true (fuel : Nat) (teams out : List CalendarTeam) (hN : 4 ≤ teams.length)
    (hne : ∀ t ∈ teams, t.name ≠ "") (he : SlotsEmpty teams) :
    assignMatchesBTWith teamOrderRev fuel teams 0 ≠ some (true, out) := by
  intro h
  cases fuel with
  | zero => simp [assignMatchesBTWith] at h
  | succ fuel =>
    obtain ⟨hz, hf0⟩ := filled_of_empty teams he
    have hne1 : ∀ x, x < teams.length → (getT teams x).name ≠ "" :=
      fun x hx => hne _ (getT_mem teams x hx)
    obtain ⟨rest, ho⟩ := rev_head_zero teams (teams.length - 1) (by omega) hz
    rcases with_true_step teamOrderRev sortedOrder_teamOrderRev fuel teams out 0 (by omega) h
      with ⟨hall, _⟩ | ⟨pre, T, post, i, ts2, hsplit, hpre, hm, hnext⟩
    · have hc := matches_of_complete _ (hall (teams.length - 1) (by rw [ho]; simp))
      rw [hz _ (by omega)] at hc
      omega
    · rw [ho] at hsplit
      have hTn : T = teams.length - 1 := head_of_split
        (fun t => (getT teams t).t1 ≠ "" ∧ (getT teams t).t2 ≠ "") _ _ pre post T hsplit hpre
        (by
          intro hc
          have := matches_of_complete _ hc
          rw [hz _ (by omega)] at this
          omega)
      have hT : T < teams.length := by omega
      obtain ⟨_, hTi, hlen, hnames, hmm⟩ := move_facts teams ts2 T i hT hne1 hm
      have hf2 := move_filled teams ts2 T i hT hne1 hm
      have hne2 : ∀ x, x < ts2.length → (getT ts2 x).name ≠ "" := by
        intro x hx
        rw [hnames x]
        exact hne1 x (by rw [← hlen]; exact hx)
      have hm1 := hmm (teams.length - 1)
      have h1 : 1 ≤ (getT ts2 (teams.length - 1)).matchesAssigned := by
        rw [hm1, if_pos hTn.symm]
        omega
      exact rev_doomed_three teams.length fuel ts2 out 1 hlen (by omega) hne2 (by omega) h1
        hnext

/-- With ties in reverse index order the driver returns `false` on every collection of at
least four teams with non-empty names and empty slots, and leaves it as it was. -/
theorem rev_fails (teams : List CalendarTeam) (hN : 4 ≤ teams.length)
    (hne : ∀ t ∈ teams, t.name ≠ "") (he : SlotsEmpty teams) :
    solveWith teamOrderRev teams = some (false, teams) := by
  unfold solveWith
  obtain ⟨b, out, hs, _⟩ := assignMatchesBTWith_returns teamOrderRev (teams.length + 1) teams 0
    (Nat.zero_le _) (by omega)
  cases b
  · have hsound := assignMatchesBTWith_sound teamOrderRev sortedOrder_teamOrderRev
      (teams.length + 1) teams 0
    rw [hs] at hsound ⊢
    simp only [Sound] at hsound
    rw [hsound]
  · exact absurd hs (rev_not_true _ teams out hN hne he)

/-! ### Completeness and the scenarios of success, by the order of ties -/

/-- C7 (counterexample): with ties in reverse index order, an outcome `std::sort` may
produce, the driver returns `false` on `demo22`, which has the valid schedule `demo22Out`. -/
theorem search_complete_counterexample :
    SortedOrder teamOrderRev ∧ NamesOK demo22 ∧ SlotsEmpty demo22 ∧
      ValidSchedule demo22 demo22Out ∧
      solveWith teamOrderRev demo22 = some (false, demo22) :=
  ⟨sortedOrder_teamOrderRev, by decide, by decide, by decide,
    rev_fails demo22 (by decide) (by decide) (by decide)⟩

/-- C7 (amended): when the sort leaves teams with equally many matches in index order, then
for a collection with pairwise distinct non-empty names and empty slots, if the slots can be
filled so that invariants 1-6 hold (`ValidSchedule`), the driver returns `true` and does not
return `false`; so a `false` result means that no valid schedule exists. -/
theorem search_complete (ord : List CalendarTeam → Nat → List Nat) (hord : IndexTies ord)
    (teams sched : List CalendarTeam) (hn : NamesOK teams) (he : SlotsEmpty teams)
    (hv : ValidSchedule teams sched) :
    (∃ out, solveWith ord teams = some (true, out)) ∧
      ∀ out, solveWith ord teams ≠ some (false, out) := by
  rw [indexTies_unique ord hord, solveWith_teamOrder]
  obtain ⟨out, ho⟩ := solve_of_schedule teams sched hn he hv
  refine ⟨⟨out, ho⟩, ?_⟩
  intro out2 h2
  rw [ho] at h2
  simp at h2

/-- Witness of C7 (amended) on `demo3`, with the order `teamOrder`. -/
theorem search_complete_witness :
    (IndexTies teamOrder ∧ NamesOK demo3 ∧ SlotsEmpty demo3 ∧ ValidSchedule demo3 demo3Out) ∧
      ((∃ out, solveWith teamOrder demo3 = some (true, out)) ∧
        ∀ out, solveWith teamOrder demo3 ≠ some (false, out)) :=
  ⟨⟨indexTies_teamOrder, by decide, by decide, by decide⟩,
    search_complete teamOrder indexTies_teamOrder demo3 demo3Out (by decide) (by decide)
      (by decide)⟩

/-- C8 (counterexample): with ties in reverse index order, an outcome `std::sort` may
produce, the driver returns `false` on `demo4`, four teams of four countries. -/
theorem scenario_four_counterexample :
    SortedOrder teamOrderRev ∧ demo4.length = 4 ∧ NamesOK demo4 ∧ SlotsEmpty demo4 ∧
      (demo4.map (fun t => t.country)).Nodup ∧
      solveWith teamOrderRev demo4 = some (false, demo4) :=
  ⟨sortedOrder_teamOrderRev, by decide, by decide, by decide, by decide,
    rev_fails demo4 (by decide) (by decide) (by decide)⟩

/-- C8 (amended, scenario 1): when the sort leaves teams with equally many matches in index
order, then on four teams with pairwise distinct non-empty names, pairwise distinct countries
and empty slots the call returns `true`; in the result every team hosts exactly one team and
is the guest of exactly one team, and exactly 4 of the 6 unordered pairs are realised. -/
theorem scenario_four_distinct (ord : List CalendarTeam → Nat → List Nat)
    (hord : IndexTies ord) (teams : List CalendarTeam) (hlen : teams.length = 4)
    (hn : NamesOK teams) (he : SlotsEmpty teams)
    (hc : (teams.map (fun t => t.country)).Nodup) :
    ∃ out, solveWith ord teams = some (true, out) ∧
      (∀ A ∈ out, ∃! B, B ∈ out ∧ A.t1 = B.name) ∧
      (∀ A ∈ out, ∃! B, B ∈ out ∧ A.t2 = B.name) ∧
      realisedPairs out = 4 := by
  rw [indexTies_unique ord hord, solveWith_teamOrder]
  exact four_distinct_index teams hlen hn he hc

/-- Witness of C8 (amended) on `demo4`, with the order `teamOrder`. -/
theorem scenario_four_distinct_witness :
    (IndexTies teamOrder ∧ demo4.length = 4 ∧ NamesOK demo4 ∧ SlotsEmpty demo4 ∧
        (demo4.map (fun t => t.country)).Nodup) ∧
      ∃ out, solveWith teamOrder demo4 = some (true, out) ∧
        (∀ A ∈ out, ∃! B, B ∈ out ∧ A.t1 = B.name) ∧
        (∀ A ∈ out, ∃! B, B ∈ out ∧ A.t2 = B.name) ∧
        realisedPairs out = 4 :=
  ⟨⟨indexTies_teamOrder, by decide, by decide, by decide, by decide⟩,
    scenario_four_distinct teamOrder indexTies_teamOrder demo4 (by decide) (by decide)
      (by decide) (by decide)⟩

/-- C9 (counterexample): with ties in reverse index order, an outcome `std::sort` may
produce, the driver returns `false` on `demo9`, nine teams of nine countries. -/
theorem scenario_nine_counterexample :
    SortedOrder teamOrderRev ∧ demo9.length = 9 ∧ NamesOK demo9 ∧ SlotsEmpty demo9 ∧
      (demo9.map (fun t => t.country)).Nodup ∧
      solveWith teamOrderRev demo9 = some (false, demo9) :=
  ⟨sortedOrder_teamOrderRev, by decide, by decide, by decide, by decide,
    rev_fails demo9 (by decide) (by decide) (by decide)⟩

/-- C9 (amended, scenario 3): when the sort leaves teams with equally many matches in index
order, then on nine teams with pairwise distinct non-empty names, pairwise distinct countries
and empty slots the call returns `true`. -/
theorem scenario_nine_distinct (ord : List CalendarTeam → Nat → List Nat)
    (hord : IndexTies ord) (teams : List CalendarTeam) (hlen : teams.length = 9)
    (hn : NamesOK teams) (he : SlotsEmpty teams)
    (hc : (teams.map (fun t => t.country)).Nodup) :
    ∃ out, solveWith ord teams = some (true, out) := by
  rw [indexTies_unique ord hord, solveWith_teamOrder]
  exact nine_distinct_index teams hlen hn he hc

/-- Witness of C9 (amended) on `demo9`, with the order `teamOrder`. -/
theorem scenario_nine_distinct_witness :
    (IndexTies teamOrder ∧ demo9.length = 9 ∧ NamesOK demo9 ∧ SlotsEmpty demo9 ∧
        (demo9.map (fun t => t.country)).Nodup) ∧
      ∃ out, solveWith teamOrder demo9 = some (true, out) :=
  ⟨⟨indexTies_teamOrder, by decide, by decide, by decide, by decide⟩,
    scenario_nine_distinct teamOrder indexTies_teamOrder demo9 (by decide) (by decide)
      (by decide) (by decide)⟩

end Bpi
